import Mathlib

/-!
Lock manager and log manager of the tuple-level 2PL engine
(`concurrency/lock_manager.{h,cpp}`, `logging/log_manager.cpp`)

A shallow embedding of `LockManager` with the per-RID request queues `TxnList`,
and of `LogManager` with its two buffers, followed by the properties of the
lock table and of the log that the specification states.

Every member function that runs under a latch is one atomic transition of the
model.  A thread that sleeps in `TxnItem::Wait` is recorded in the world state
together with the locals (`rid`, `type`) of the suspended `TxnList::insert`
frame; it continues with the held-set insertion in a separate `Resume`
transition once its request has been granted.  In the same way a caller of
`AppendLogRecord` that sleeps on `appendCv_` is recorded with its record and
continues in a `Resume` transition of the log manager.
-/

namespace cmudb

/-! ## Data model -/

/-- Modelled from the spec: the record identifier of `common/rid.h` (not among
the sources) is an opaque, equality-comparable handle; natural numbers stand
for the handles. -/
abbrev RID := Nat

/-- Modelled from the spec: `txn_id_t` is the signed integer type of
transaction ids (smaller id = older transaction); ids are only compared. -/
abbrev txn_id_t := Int

/-- The `enum class LockType` of `lock_manager.h`. -/
inductive LockType where
  | SHARED
  | EXCLUSIVE
  | UPGRADING
  deriving DecidableEq, Repr

/-- Modelled from the spec: the four transaction states of
`concurrency/transaction.h` (not among the sources). -/
inductive TransactionState where
  | GROWING
  | SHRINKING
  | COMMITTED
  | ABORTED
  deriving DecidableEq, Repr

/-- Modelled from the spec: the part of the `Transaction` handle that the lock
manager reads and writes: the id, the state and the two held sets.  A set of
RIDs is its membership function; `insert` and `erase` update one point. -/
structure Transaction where
  txn_id : txn_id_t
  state : TransactionState
  shared_lock_set : RID → Bool
  exclusive_lock_set : RID → Bool

/-- The `struct TxnItem` of `lock_manager.h`: one lock request.  The private
mutex and condition variable are represented by the `waiting` component of
`World`. -/
structure TxnItem where
  txnId_ : txn_id_t
  type_ : LockType
  granted_ : Bool
  deriving DecidableEq, Repr

/-- The `struct TxnList` of `lock_manager.h`: the request queue of one RID. -/
structure TxnList where
  hasUpgrading_ : Bool
  list_ : List TxnItem
  deriving DecidableEq, Repr

/-- The `class LockManager`: the strictness flag and the lock table.  An
absent key of the `unordered_map` is `none`. -/
structure LockManager where
  strict_2PL_ : Bool
  lockTable_ : RID → Option TxnList

/-- The value-initialised `TxnList` that `lockTable_[rid]` creates for a key
that is not in the table. -/
def TxnList.fresh : TxnList := ⟨false, []⟩

/-- The expression `lockTable_[rid]` read as a value: the queue stored under
`rid`, or the freshly created one. -/
def LockManager.lookup (lm : LockManager) (rid : RID) : TxnList :=
  match lm.lockTable_ rid with
  | some tl => tl
  | none => TxnList.fresh

/-- Writing through the reference returned by `lockTable_[rid]`. -/
def LockManager.store (lm : LockManager) (rid : RID) (tl : TxnList) : LockManager :=
  { lm with lockTable_ := Function.update lm.lockTable_ rid (some tl) }

/-- The call `lockTable_.erase(rid)`. -/
def LockManager.eraseKey (lm : LockManager) (rid : RID) : LockManager :=
  { lm with lockTable_ := Function.update lm.lockTable_ rid none }

/-- The call `txn->SetState(s)`. -/
def Transaction.SetState (txn : Transaction) (s : TransactionState) : Transaction :=
  { txn with state := s }

/-- The lambda handed to `find_if` in `Unlock` and `lockTemplate`. -/
def isItemOf (id : txn_id_t) (item : TxnItem) : Bool :=
  item.txnId_ == id

/-- The asserted call `lockSet->erase(rid) == 1`: `none` when the assertion
fails, otherwise the transaction with `rid` erased from the chosen held set
(`fromShared` selects the shared set, otherwise the exclusive set). -/
def eraseHeld (txn : Transaction) (rid : RID) (fromShared : Bool) : Option Transaction :=
  if fromShared then
    if txn.shared_lock_set rid then
      some { txn with shared_lock_set := Function.update txn.shared_lock_set rid false }
    else none
  else
    if txn.exclusive_lock_set rid then
      some { txn with exclusive_lock_set := Function.update txn.exclusive_lock_set rid false }
    else none

/-- The last three statements of `TxnList::insert`: the held-set insertion
chosen by the local `type`. -/
def insertHeld (txn : Transaction) (rid : RID) (type : LockType) : Transaction :=
  if type = LockType.SHARED then
    { txn with shared_lock_set := Function.update txn.shared_lock_set rid true }
  else
    { txn with exclusive_lock_set := Function.update txn.exclusive_lock_set rid true }

/-! ## `TxnList` member functions -/

/-- The member `TxnList::checkCanGrant`. -/
def TxnList.checkCanGrant (tl : TxnList) (type : LockType) : Bool :=
  match tl.list_.getLast? with
  | none => true
  | some last =>
    if type = LockType.SHARED then
      last.granted_ && decide (last.type_ = LockType.SHARED)
    else false

/-- The member `TxnList::insert`.  The third component of the result is `none`
when the function ran to its end, and `some type` when the calling thread is
suspended in `last.Wait()`; `type` is the value of the local at that point,
with which `insertHeld` runs when the thread resumes. -/
def TxnList.insert (tl : TxnList) (txn : Transaction) (rid : RID) (type : LockType)
    (granted : Bool) : TxnList × Transaction × Option LockType :=
  let isUpgrading : Bool := decide (type = LockType.UPGRADING)
  let type1 : LockType := if isUpgrading && granted then LockType.EXCLUSIVE else type
  let list1 := tl.list_ ++ [⟨txn.txn_id, type1, granted⟩]
  if !granted then
    (⟨tl.hasUpgrading_ || isUpgrading, list1⟩, txn, some type1)
  else
    (⟨tl.hasUpgrading_, list1⟩, insertHeld txn rid type1, none)

/-- The `for` loop at the end of `LockManager::Unlock`, on the request list and
the `hasUpgrading_` flag of the queue. -/
def grantLoop : List TxnItem → Bool → List TxnItem × Bool
  | [], up => ([], up)
  | lock :: rest, up =>
    if lock.granted_ then (lock :: rest, up)
    else if lock.type_ = LockType.SHARED then
      ({ lock with granted_ := true } :: (grantLoop rest up).1, (grantLoop rest up).2)
    else if lock.type_ = LockType.UPGRADING then
      ({ lock with granted_ := true, type_ := LockType.EXCLUSIVE } :: rest, false)
    else
      ({ lock with granted_ := true } :: rest, up)

/-! ## `LockManager` member functions -/

/-- How a call of `lockTemplate` ends in the calling thread: it returns a
value, or it is suspended in `TxnItem::Wait` with the given `type` local. -/
inductive Outcome where
  | returned (b : Bool)
  | blocked (type : LockType)
  deriving DecidableEq, Repr

/-- The result of a member function: `none` when an `assert` fails. -/
abbrev Res (α : Type) := Option (LockManager × Transaction × α)

/-- The member `LockManager::Unlock`. -/
def Unlock (lm : LockManager) (txn : Transaction) (rid : RID) : Res Bool :=
  if lm.strict_2PL_ ∧ txn.state ≠ TransactionState.ABORTED
      ∧ txn.state ≠ TransactionState.COMMITTED then
    some (lm, txn.SetState TransactionState.ABORTED, false)
  else
    let txn1 :=
      if ¬ lm.strict_2PL_ ∧ txn.state = TransactionState.GROWING then
        txn.SetState TransactionState.SHRINKING
      else txn
    let txnList := lm.lookup rid
    match txnList.list_.find? (isItemOf txn.txn_id) with
    | none => none
    | some it =>
      match eraseHeld txn1 rid (decide (it.type_ = LockType.SHARED)) with
      | none => none
      | some txn2 =>
        let list1 := txnList.list_.eraseP (isItemOf txn.txn_id)
        if list1.isEmpty then
          some (lm.eraseKey rid, txn2, true)
        else
          some (lm.store rid ⟨(grantLoop list1 txnList.hasUpgrading_).2,
                  (grantLoop list1 txnList.hasUpgrading_).1⟩, txn2, true)

/-- The last five lines of `LockManager::lockTemplate`: the grant test, the
wait-die test against `list_.back()` and the call of `TxnList::insert`.
`list_.back()` is evaluated only when `granted` is false, and then the list is
not empty. -/
def lockTail (lm : LockManager) (txnList : TxnList) (txn : Transaction) (rid : RID)
    (type : LockType) : Res Outcome :=
  let granted := txnList.checkCanGrant type
  let younger : Bool :=
    match txnList.list_.getLast? with
    | some back => decide (back.txnId_ < txn.txn_id)
    | none => false
  if !granted && younger then
    some (lm.store rid txnList, txn.SetState TransactionState.ABORTED, Outcome.returned false)
  else
    match txnList.insert txn rid type granted with
    | (tl, txn1, none) => some (lm.store rid tl, txn1, Outcome.returned true)
    | (tl, txn1, some ty) => some (lm.store rid tl, txn1, Outcome.blocked ty)

/-- The member `LockManager::lockTemplate`. -/
def lockTemplate (lm : LockManager) (txn : Transaction) (rid : RID) (type : LockType) :
    Res Outcome :=
  if txn.state ≠ TransactionState.GROWING then
    some (lm, txn.SetState TransactionState.ABORTED, Outcome.returned false)
  else
    let txnList := lm.lookup rid
    if type = LockType.UPGRADING then
      if txnList.hasUpgrading_ then
        some (lm.store rid txnList, txn.SetState TransactionState.ABORTED,
          Outcome.returned false)
      else
        match txnList.list_.find? (isItemOf txn.txn_id) with
        | none =>
          some (lm.store rid txnList, txn.SetState TransactionState.ABORTED,
            Outcome.returned false)
        | some it =>
          if !it.granted_ || decide (it.type_ ≠ LockType.SHARED) then
            some (lm.store rid txnList, txn.SetState TransactionState.ABORTED,
              Outcome.returned false)
          else
            match eraseHeld txn rid true with
            | none => none
            | some txn1 =>
              lockTail lm ⟨txnList.hasUpgrading_, txnList.list_.eraseP (isItemOf txn.txn_id)⟩
                txn1 rid type
    else
      lockTail lm txnList txn rid type

/-- The member `LockManager::LockShared`. -/
def LockShared (lm : LockManager) (txn : Transaction) (rid : RID) : Res Outcome :=
  lockTemplate lm txn rid LockType.SHARED

/-- The member `LockManager::LockExclusive`. -/
def LockExclusive (lm : LockManager) (txn : Transaction) (rid : RID) : Res Outcome :=
  lockTemplate lm txn rid LockType.EXCLUSIVE

/-- The member `LockManager::LockUpgrade`. -/
def LockUpgrade (lm : LockManager) (txn : Transaction) (rid : RID) : Res Outcome :=
  lockTemplate lm txn rid LockType.UPGRADING

/-! ## The system: a lock manager, its transactions and their threads -/

/-- The state of the system: the lock manager, the transaction objects (by id)
and, for each transaction, whether its thread sleeps in `TxnItem::Wait`
(with the `rid` and `type` locals of the suspended `TxnList::insert`). -/
structure World where
  lm : LockManager
  txns : txn_id_t → Transaction
  waiting : txn_id_t → Option (RID × LockType)

/-- The calls a transaction thread makes on the lock manager, the wake-up of a
thread that sleeps in `TxnItem::Wait` (`Resume`), and the engine finishing a
transaction (`Finish`, to COMMITTED when the flag is true and to ABORTED
otherwise; the specification names these two as the final states that are set
from outside the lock manager). -/
inductive Event where
  | LockShared (t : txn_id_t) (rid : RID)
  | LockExclusive (t : txn_id_t) (rid : RID)
  | LockUpgrade (t : txn_id_t) (rid : RID)
  | Unlock (t : txn_id_t) (rid : RID)
  | Resume (t : txn_id_t)
  | Finish (t : txn_id_t) (commit : Bool)

/-- The system before any call: an empty lock table, every transaction GROWING
with empty held sets, no thread asleep. -/
def World.init (strict : Bool) : World where
  lm := ⟨strict, fun _ => none⟩
  txns := fun t => ⟨t, TransactionState.GROWING, fun _ => false, fun _ => false⟩
  waiting := fun _ => none

/-- The request list of the queue of `rid`. -/
def World.queue (w : World) (rid : RID) : List TxnItem :=
  (w.lm.lookup rid).list_

/-- The `hasUpgrading_` flag of the queue of `rid`. -/
def World.hasUpgrading (w : World) (rid : RID) : Bool :=
  (w.lm.lookup rid).hasUpgrading_

/-- The sleeping threads after a `lockTemplate` call of transaction `t` on `rid`
has ended with the given outcome. -/
def sleepOn (W : txn_id_t → Option (RID × LockType)) (t : txn_id_t) (rid : RID) :
    Outcome → txn_id_t → Option (RID × LockType)
  | Outcome.returned _ => W
  | Outcome.blocked ty => Function.update W t (some (rid, ty))

/-- Writing back the result of a `lockTemplate` call made by transaction `t`
on `rid`. -/
def World.afterLock (w : World) (t : txn_id_t) (rid : RID) (r : Res Outcome) : Option World :=
  match r with
  | none => none
  | some (lm1, txn1, o) =>
    some ⟨lm1, Function.update w.txns t txn1, sleepOn w.waiting t rid o⟩

/-- A transaction has a request in the queue of `rid`. -/
def World.hasRequest (w : World) (t : txn_id_t) (rid : RID) : Bool :=
  (w.queue rid).any (isItemOf t)

/-- One transition.  `none` means the event cannot happen in `w`: the thread
of the transaction is asleep, an `assert` fails, a GROWING transaction locks a
rid it has a request on already (undefined by the header of the class), or a
thread is resumed whose request is not granted. -/
def step (w : World) : Event → Option World
  | Event.LockShared t rid =>
    if (w.waiting t).isSome then none
    else if (w.txns t).state = TransactionState.GROWING ∧ w.hasRequest t rid then none
    else w.afterLock t rid (LockShared w.lm (w.txns t) rid)
  | Event.LockExclusive t rid =>
    if (w.waiting t).isSome then none
    else if (w.txns t).state = TransactionState.GROWING ∧ w.hasRequest t rid then none
    else w.afterLock t rid (LockExclusive w.lm (w.txns t) rid)
  | Event.LockUpgrade t rid =>
    if (w.waiting t).isSome then none
    else w.afterLock t rid (LockUpgrade w.lm (w.txns t) rid)
  | Event.Unlock t rid =>
    if (w.waiting t).isSome then none
    else
      match Unlock w.lm (w.txns t) rid with
      | none => none
      | some (lm1, txn1, _) => some { w with lm := lm1, txns := Function.update w.txns t txn1 }
  | Event.Resume t =>
    match w.waiting t with
    | none => none
    | some (rid, ty) =>
      match (w.queue rid).find? (isItemOf t) with
      | none => none
      | some it =>
        if it.granted_ then
          some { w with txns := Function.update w.txns t (insertHeld (w.txns t) rid ty),
                        waiting := Function.update w.waiting t none }
        else none
  | Event.Finish t commit =>
    if (w.waiting t).isSome then none
    else
      let s := if commit then TransactionState.COMMITTED else TransactionState.ABORTED
      some { w with txns := Function.update w.txns t ((w.txns t).SetState s) }

/-- Running a sequence of events from a state. -/
def run (w : World) : List Event → Option World
  | [] => some w
  | e :: es =>
    match step w e with
    | none => none
    | some w1 => run w1 es

/-- The states the system can be in: those some sequence of events leads to
from the initial state. -/
def Reachable (strict : Bool) (w : World) : Prop :=
  ∃ es : List Event, run (World.init strict) es = some w

/-- The state a sequence of events leads to from the initial state (the
initial state itself when the sequence cannot be run). -/
def World.after (strict : Bool) (es : List Event) : World :=
  (run (World.init strict) es).getD (World.init strict)

/-! ## Properties of queues and of the system -/

/-- The granted requests of a queue are mode-compatible: all of them SHARED,
or exactly one and it is EXCLUSIVE. -/
def ModeCompatible (q : List TxnItem) : Prop :=
  (∀ i ∈ q.filter (fun i => i.granted_), i.type_ = LockType.SHARED) ∨
  ((q.filter (fun i => i.granted_)).length = 1 ∧
    ∀ i ∈ q.filter (fun i => i.granted_), i.type_ = LockType.EXCLUSIVE)

instance ModeCompatible.dec (q : List TxnItem) : Decidable (ModeCompatible q) := by
  unfold ModeCompatible; infer_instance

/-- Every waiting request of a queue belongs to an older transaction than
every granted request of the queue. -/
def WaitsOldToYoung (q : List TxnItem) : Prop :=
  ∀ a ∈ q, ∀ b ∈ q, a.granted_ = false → b.granted_ = true → a.txnId_ < b.txnId_

instance WaitsOldToYoung.dec (q : List TxnItem) : Decidable (WaitsOldToYoung q) := by
  unfold WaitsOldToYoung; infer_instance

/-- The mode a request has in the queue once it is granted: `TxnList::insert`
and the loop of `Unlock` both turn a granted UPGRADING into EXCLUSIVE. -/
def grantedType (ty : LockType) : LockType :=
  if ty = LockType.SHARED then LockType.SHARED else LockType.EXCLUSIVE

/-- The facts about one queue that every transition keeps. -/
structure QueueInv (tl : TxnList) : Prop where
  nodup : (tl.list_.map TxnItem.txnId_).Nodup
  front : tl.list_.Pairwise (fun a b => b.granted_ = true → a.granted_ = true)
  grantedNotUpg : ∀ i ∈ tl.list_, i.granted_ = true → i.type_ ≠ LockType.UPGRADING
  upgCount : tl.list_.countP (fun i => decide (i.type_ = LockType.UPGRADING)) ≤ 1
  flag : tl.hasUpgrading_ = true ↔ ∃ i ∈ tl.list_, i.type_ = LockType.UPGRADING

/-- The facts about the queues `Q`, the transactions `T` and the sleeping
threads `W` that every transition keeps. -/
structure Inv (Q : RID → TxnList) (T : txn_id_t → Transaction)
    (W : txn_id_t → Option (RID × LockType)) : Prop where
  ids : ∀ t, (T t).txn_id = t
  queue : ∀ rid, QueueInv (Q rid)
  shared : ∀ t rid, (T t).shared_lock_set rid = true →
    (⟨t, LockType.SHARED, true⟩ : TxnItem) ∈ (Q rid).list_
  excl : ∀ t rid, (T t).exclusive_lock_set rid = true →
    (⟨t, LockType.EXCLUSIVE, true⟩ : TxnItem) ∈ (Q rid).list_
  waitItem : ∀ t rid ty, W t = some (rid, ty) →
    (⟨t, ty, false⟩ : TxnItem) ∈ (Q rid).list_ ∨
      (⟨t, grantedType ty, true⟩ : TxnItem) ∈ (Q rid).list_
  ungranted : ∀ rid i, i ∈ (Q rid).list_ → i.granted_ = false →
    ∃ ty, W i.txnId_ = some (rid, ty)
  held : ∀ rid i, i ∈ (Q rid).list_ → i.granted_ = true →
    (∀ ty, W i.txnId_ ≠ some (rid, ty)) →
    (i.type_ = LockType.SHARED → (T i.txnId_).shared_lock_set rid = true) ∧
    (i.type_ ≠ LockType.SHARED → (T i.txnId_).exclusive_lock_set rid = true)

/-- The invariant of a system state. -/
def World.Inv (w : World) : Prop :=
  cmudb.Inv w.lm.lookup w.txns w.waiting

/-- The head of a queue, when there is one, is a granted request. -/
def HeadGranted (q : List TxnItem) : Prop :=
  ∀ i, q.head? = some i → i.granted_ = true

instance HeadGranted.dec (q : List TxnItem) : Decidable (HeadGranted q) := by
  unfold HeadGranted
  cases q with
  | nil => exact isTrue (by simp)
  | cons a l =>
    exact decidable_of_iff (a.granted_ = true) (by simp)

/-! ## Log manager (`logging/log_manager.cpp`): data model -/

/-- Modelled from the spec: `lsn_t`, the type of log sequence numbers of
`common/config.h` (not among the sources): a signed 32-bit integer, the width
of the `lsn` field among the five 4-byte fields of the 20-byte header.  A value
is an integer of the range from `-2147483648` to `2147483647`; the increment
`next_lsn_++` goes through `wrap32`. -/
abbrev lsn_t := Int

/-- The value a signed 32-bit variable holds after it is assigned the integer
`x`: `x` reduced modulo `2^32` into the range from `-2^31` to `2^31 - 1`
(two's complement). -/
def wrap32 (x : Int) : Int := (x + 2147483648) % 4294967296 - 2147483648

/-- Modelled from the spec: `page_id_t`, a 32-bit page number, written to the
log as `i32`. -/
abbrev page_id_t := Int

/-- Modelled from the spec: a tuple (`table/tuple.h`, not among the sources) is
its bytes; a byte is a natural number. -/
structure Tuple where
  data_ : List Nat
  deriving DecidableEq, Repr

/-- The call `GetLength()` of a tuple. -/
def Tuple.GetLength (t : Tuple) : Nat := t.data_.length

/-- Modelled from the spec: the record types of the wire format (the `enum
class LogRecordType` of `logging/log_record.h`, not among the sources). -/
inductive LogRecordType where
  | INSERT
  | MARK_DELETE
  | APPLY_DELETE
  | ROLLBACK_DELETE
  | UPDATE
  | NEWPAGE
  | BEGIN
  | COMMIT
  | ABORT
  deriving DecidableEq, Repr

/-- Modelled from the spec: the `LogRecord` of `logging/log_record.h` (not among
the sources): the five header fields and the payload fields that
`AppendLogRecord` reads. -/
structure LogRecord where
  size_ : Nat
  lsn_ : lsn_t
  txn_id_ : txn_id_t
  prev_lsn_ : lsn_t
  log_record_type_ : LogRecordType
  insert_rid_ : RID
  insert_tuple_ : Tuple
  old_tuple_ : Tuple
  new_tuple_ : Tuple
  prev_page_id_ : page_id_t
  page_id_ : page_id_t
  deriving DecidableEq, Repr

/-- The call `GetSize()` of a log record. -/
def LogRecord.GetSize (r : LogRecord) : Nat := r.size_

/-- The constant `LogRecord::HEADER_SIZE`. -/
def LogRecord.HEADER_SIZE : Nat := 20

/-- The members of `LogManager` that `log_manager.cpp` uses.  A buffer is the
memory that starts at its pointer: index `i` is the byte at `buffer + i`.  The
allocated array is the indices below `LOG_BUFFER_SIZE`; the indices from
`LOG_BUFFER_SIZE` on lie behind it, and a write there is a heap overrun, which
the memory records so that it can be observed.  What a run that stays inside
the array does is stated under `writesInBounds`. -/
structure LogManager where
  next_lsn_ : lsn_t
  persistent_lsn_ : lsn_t
  lastLsn_ : lsn_t
  logBufferOffset_ : Nat
  flushBufferSize_ : Nat
  needFlush_ : Bool
  log_buffer_ : Nat → Nat
  flush_buffer_ : Nat → Nat

/-! ## Bytes -/

/-- The call `memcpy(buf + pos, bs, bs.length)`. -/
def writeBytes (buf : Nat → Nat) (pos : Nat) (bs : List Nat) : Nat → Nat :=
  fun i => if pos ≤ i ∧ i < pos + bs.length then bs.getD (i - pos) 0 else buf i

/-- The first `n` bytes of a buffer. -/
def firstBytes (buf : Nat → Nat) (n : Nat) : List Nat :=
  (List.range n).map buf

/-- Modelled from the spec: four little-endian bytes of an unsigned 32-bit
value. -/
def le32u (u : Nat) : List Nat :=
  [u % 256, u / 256 % 256, u / 65536 % 256, u / 16777216 % 256]

/-- Modelled from the spec: an `i32`, little-endian, two's complement. -/
def le32 (x : Int) : List Nat :=
  le32u (x % 4294967296).toNat

/-- Modelled from the spec: the eight bytes of a RID (`sizeof(RID)`); the
handle is read as the 64-bit image of the two 32-bit members. -/
def ridBytes (rid : RID) : List Nat :=
  le32u (rid % 4294967296) ++ le32u (rid / 4294967296 % 4294967296)

/-- Modelled from the spec: the number of a record type on the wire. -/
def LogRecordType.code : LogRecordType → Int
  | LogRecordType.INSERT => 1
  | LogRecordType.MARK_DELETE => 2
  | LogRecordType.APPLY_DELETE => 3
  | LogRecordType.ROLLBACK_DELETE => 4
  | LogRecordType.UPDATE => 5
  | LogRecordType.BEGIN => 6
  | LogRecordType.COMMIT => 7
  | LogRecordType.ABORT => 8
  | LogRecordType.NEWPAGE => 9

/-- Modelled from the spec: the 20 bytes that `memcpy(.., &log_record,
HEADER_SIZE)` copies: `size`, `lsn`, `txn_id`, `prev_lsn` and `type`, packed,
four little-endian bytes each. -/
def headerBytes (r : LogRecord) : List Nat :=
  le32 (r.size_ : Int) ++ le32 r.lsn_ ++ le32 r.txn_id_ ++ le32 r.prev_lsn_
    ++ le32 r.log_record_type_.code

/-- Modelled from the spec: the bytes that `Tuple::SerializeTo` writes:
`length: i32`, then the bytes of the tuple. -/
def Tuple.SerializeTo (t : Tuple) : List Nat :=
  le32 (t.GetLength : Int) ++ t.data_

/-! ## `LogManager` member functions -/

/-- Lines 76 to 96 of `LogManager::AppendLogRecord`: the LSN is assigned
(`next_lsn_++` on a 32-bit counter: after `2147483647` comes `-2147483648`),
the record is serialized at `logBufferOffset_`, the offset and `lastLsn_`
advance.  The result is the manager, the returned LSN and the record as the
caller sees it afterwards. -/
def appendSerialize (lg : LogManager) (log_record : LogRecord) :
    LogManager × lsn_t × LogRecord :=
  let rec1 : LogRecord := { log_record with lsn_ := lg.next_lsn_ }
  let buf0 := writeBytes lg.log_buffer_ lg.logBufferOffset_ (headerBytes rec1)
  let pos := lg.logBufferOffset_ + LogRecord.HEADER_SIZE
  let buf1 :=
    if rec1.log_record_type_ = LogRecordType.UPDATE then
      writeBytes
        (writeBytes (writeBytes buf0 pos (ridBytes rec1.insert_rid_)) (pos + 8)
          rec1.old_tuple_.SerializeTo)
        (pos + 8 + (rec1.old_tuple_.GetLength + 4)) rec1.new_tuple_.SerializeTo
    else if rec1.log_record_type_ = LogRecordType.NEWPAGE then
      writeBytes (writeBytes buf0 pos (le32 rec1.prev_page_id_)) (pos + 4)
        (le32 rec1.page_id_)
    else
      writeBytes (writeBytes buf0 pos (ridBytes rec1.insert_rid_)) (pos + 8)
        rec1.insert_tuple_.SerializeTo
  ({ lg with next_lsn_ := wrap32 (lg.next_lsn_ + 1), log_buffer_ := buf1,
             logBufferOffset_ := lg.logBufferOffset_ + rec1.GetSize,
             lastLsn_ := rec1.lsn_ }, rec1.lsn_, rec1)

/-- The member `LogManager::AppendLogRecord` up to the point where the caller
returns or goes to sleep on `appendCv_`: `some (lsn, record)` for a call that
returns, `none` for a caller asleep (with `needFlush_` set). -/
def AppendLogRecord (LOG_BUFFER_SIZE : Nat) (lg : LogManager) (log_record : LogRecord) :
    LogManager × Option (lsn_t × LogRecord) :=
  if lg.logBufferOffset_ + log_record.GetSize ≥ LOG_BUFFER_SIZE then
    ({ lg with needFlush_ := true }, none)
  else
    ((appendSerialize lg log_record).1, some (appendSerialize lg log_record).2)

/-- The rest of `LogManager::AppendLogRecord` for a caller asleep on
`appendCv_`: it continues once the predicate of the wait holds. -/
def AppendLogRecord.resume (LOG_BUFFER_SIZE : Nat) (lg : LogManager)
    (log_record : LogRecord) : Option (LogManager × lsn_t × LogRecord) :=
  if lg.logBufferOffset_ + log_record.GetSize < LOG_BUFFER_SIZE then
    some (appendSerialize lg log_record)
  else none

/-- One iteration of the loop of the flush thread in
`LogManager::RunFlushThread`, from the return of `wait_for` on (the latch is
held throughout).  `none` when the `assert` fails; otherwise the manager and
the bytes handed to `WriteLog`, if it was called. -/
def flushCycle (lg : LogManager) : Option (LogManager × Option (List Nat)) :=
  if lg.flushBufferSize_ ≠ 0 then none
  else if lg.logBufferOffset_ > 0 then
    some ({ lg with log_buffer_ := lg.flush_buffer_, flush_buffer_ := lg.log_buffer_,
                    logBufferOffset_ := lg.flushBufferSize_, flushBufferSize_ := 0,
                    persistent_lsn_ := lg.lastLsn_, needFlush_ := false },
          some (firstBytes lg.log_buffer_ lg.logBufferOffset_))
  else
    some ({ lg with needFlush_ := false }, none)

/-- The member `LogManager::Flush` up to the point where the caller returns or
goes to sleep on `appendCv_` (the flag of the result).  A forced caller asleep
returns once `needFlush_` is false. -/
def Flush (ENABLE_LOGGING : Bool) (lg : LogManager) (force : Bool) : LogManager × Bool :=
  if force then ({ lg with needFlush_ := true }, ENABLE_LOGGING)
  else (lg, true)

/-! ## The log manager with its threads -/

/-- The log manager, the calls of `WriteLog` so far (oldest first), the records
of the callers asleep in `AppendLogRecord`, and the returned LSN and record of
every `AppendLogRecord` call that has returned (oldest first). -/
structure LogWorld where
  lg : LogManager
  disk : List (List Nat)
  sleeping : List LogRecord
  returned : List (lsn_t × LogRecord)

/-- A call of `AppendLogRecord`, a sleeping appender continuing (`Resume k`, the
`k`-th sleeper), one iteration of the flush thread, and a call of `Flush` with
logging enabled. -/
inductive LogEvent where
  | Append (r : LogRecord)
  | Resume (k : Nat)
  | Cycle
  | Flush (force : Bool)

/-- One transition of the log manager.  `none`: the record of an `Append` is
shorter than the header every record starts with, there is no `k`-th sleeper
or the predicate of its wait does not hold, or the `assert` of the flush
thread fails. -/
def logStep (LOG_BUFFER_SIZE : Nat) (w : LogWorld) : LogEvent → Option LogWorld
  | LogEvent.Append r =>
    if r.GetSize < LogRecord.HEADER_SIZE then none
    else
      match AppendLogRecord LOG_BUFFER_SIZE w.lg r with
      | (lg1, none) => some { w with lg := lg1, sleeping := w.sleeping ++ [r] }
      | (lg1, some p) => some { w with lg := lg1, returned := w.returned ++ [p] }
  | LogEvent.Resume k =>
    match w.sleeping.get? k with
    | none => none
    | some r =>
      match AppendLogRecord.resume LOG_BUFFER_SIZE w.lg r with
      | none => none
      | some (lg1, p) =>
        some { w with lg := lg1, sleeping := w.sleeping.eraseIdx k,
                      returned := w.returned ++ [p] }
  | LogEvent.Cycle =>
    match flushCycle w.lg with
    | none => none
    | some (lg1, none) => some { w with lg := lg1 }
    | some (lg1, some bytes) => some { w with lg := lg1, disk := w.disk ++ [bytes] }
  | LogEvent.Flush force =>
    some { w with lg := (Flush true w.lg force).1 }

/-- Running a sequence of events of the log manager. -/
def logRun (LOG_BUFFER_SIZE : Nat) (w : LogWorld) : List LogEvent → Option LogWorld
  | [] => some w
  | e :: es =>
    match logStep LOG_BUFFER_SIZE w e with
    | none => none
    | some w1 => logRun LOG_BUFFER_SIZE w1 es

/-- Modelled from the spec: a log manager in which nothing waits to be flushed:
both buffers are empty and `persistent_lsn` has caught up with `last_lsn`
(before the first append both hold the sentinel), below `next_lsn`. -/
def LogManager.Idle (lg : LogManager) : Prop :=
  lg.logBufferOffset_ = 0 ∧ lg.flushBufferSize_ = 0 ∧
  lg.persistent_lsn_ = lg.lastLsn_ ∧ lg.lastLsn_ < lg.next_lsn_

/-- The log manager as constructed, with the given first LSN and a sentinel,
buffers filled with the byte `fill`. -/
def LogManager.fresh (first sentinel : lsn_t) (fill : Nat) : LogManager where
  next_lsn_ := first
  persistent_lsn_ := sentinel
  lastLsn_ := sentinel
  logBufferOffset_ := 0
  flushBufferSize_ := 0
  needFlush_ := false
  log_buffer_ := fun _ => fill
  flush_buffer_ := fun _ => fill

/-- The start of a run: no write, no sleeper, no returned call. -/
def LogWorld.start (lg : LogManager) : LogWorld := ⟨lg, [], [], []⟩

/-! ## The wire format of the log -/

/-- Modelled from the spec: the type-dependent payload of a record on the
wire. -/
inductive Payload where
  | empty
  | tuple (rid : RID) (t : Tuple)
  | update (rid : RID) (old new : Tuple)
  | newpage (prev page : page_id_t)
  deriving DecidableEq, Repr

/-- Modelled from the spec: a record as the wire format carries it: the five
header fields and the payload. -/
structure WireRecord where
  size : Nat
  lsn : lsn_t
  txn_id : txn_id_t
  prev_lsn : lsn_t
  type : LogRecordType
  payload : Payload
  deriving DecidableEq, Repr

/-- Modelled from the spec: the payload of a record by its type: INSERT and the
three DELETE types carry `rid` and a tuple, UPDATE carries `rid`, old and new
tuple, NEWPAGE two page ids, BEGIN, COMMIT and ABORT nothing. -/
def LogRecord.payload (r : LogRecord) : Payload :=
  match r.log_record_type_ with
  | LogRecordType.UPDATE => Payload.update r.insert_rid_ r.old_tuple_ r.new_tuple_
  | LogRecordType.NEWPAGE => Payload.newpage r.prev_page_id_ r.page_id_
  | LogRecordType.BEGIN => Payload.empty
  | LogRecordType.COMMIT => Payload.empty
  | LogRecordType.ABORT => Payload.empty
  | _ => Payload.tuple r.insert_rid_ r.insert_tuple_

/-- What the wire format carries of a record. -/
def LogRecord.wire (r : LogRecord) : WireRecord :=
  ⟨r.size_, r.lsn_, r.txn_id_, r.prev_lsn_, r.log_record_type_, r.payload⟩

/-- Modelled from the spec: the bytes of a payload. -/
def Payload.bytes : Payload → List Nat
  | Payload.empty => []
  | Payload.tuple rid t => ridBytes rid ++ t.SerializeTo
  | Payload.update rid old new => ridBytes rid ++ old.SerializeTo ++ new.SerializeTo
  | Payload.newpage prev page => le32 prev ++ le32 page

/-- Modelled from the spec: the serialization of a record: the 20-byte header,
then the payload. -/
def wireBytes (r : LogRecord) : List Nat :=
  headerBytes r ++ r.payload.bytes

/-- Modelled from the spec: a record whose `size` is the length of its
serialization and whose fields fit their wire widths. -/
structure LogRecord.WellFormed (r : LogRecord) : Prop where
  size_eq : r.size_ = LogRecord.HEADER_SIZE + r.payload.bytes.length
  size_lt : r.size_ < 2147483648
  txn_ge : -2147483648 ≤ r.txn_id_
  txn_lt : r.txn_id_ < 2147483648
  prev_ge : -2147483648 ≤ r.prev_lsn_
  prev_lt : r.prev_lsn_ < 2147483648
  rid_lt : r.insert_rid_ < 18446744073709551616
  ppage_ge : -2147483648 ≤ r.prev_page_id_
  ppage_lt : r.prev_page_id_ < 2147483648
  page_ge : -2147483648 ≤ r.page_id_
  page_lt : r.page_id_ < 2147483648

/-- Reading four little-endian bytes as an unsigned value. -/
def rd32u : List Nat → Option (Nat × List Nat)
  | b0 :: b1 :: b2 :: b3 :: rest => some (b0 + 256 * b1 + 65536 * b2 + 16777216 * b3, rest)
  | _ => none

/-- Reading an `i32`. -/
def rd32 (bs : List Nat) : Option (Int × List Nat) :=
  match rd32u bs with
  | none => none
  | some (u, rest) =>
    some (if u < 2147483648 then (u : Int) else (u : Int) - 4294967296, rest)

/-- Reading the eight bytes of a RID. -/
def rdRid (bs : List Nat) : Option (RID × List Nat) :=
  match rd32u bs with
  | none => none
  | some (lo, rest) =>
    match rd32u rest with
    | none => none
    | some (hi, rest1) => some (lo + 4294967296 * hi, rest1)

/-- Reading a length-prefixed tuple. -/
def rdTuple (bs : List Nat) : Option (Tuple × List Nat) :=
  match rd32 bs with
  | none => none
  | some (n, rest) =>
    if n < 0 ∨ rest.length < n.toNat then none
    else some (⟨rest.take n.toNat⟩, rest.drop n.toNat)

/-- The record type with a given number on the wire. -/
def LogRecordType.ofCode (c : Int) : Option LogRecordType :=
  if c = 1 then some LogRecordType.INSERT
  else if c = 2 then some LogRecordType.MARK_DELETE
  else if c = 3 then some LogRecordType.APPLY_DELETE
  else if c = 4 then some LogRecordType.ROLLBACK_DELETE
  else if c = 5 then some LogRecordType.UPDATE
  else if c = 6 then some LogRecordType.BEGIN
  else if c = 7 then some LogRecordType.COMMIT
  else if c = 8 then some LogRecordType.ABORT
  else if c = 9 then some LogRecordType.NEWPAGE
  else none

/-- Reading the payload of a record of the given type. -/
def rdPayload (ty : LogRecordType) (bs : List Nat) : Option (Payload × List Nat) :=
  match ty with
  | LogRecordType.BEGIN => some (Payload.empty, bs)
  | LogRecordType.COMMIT => some (Payload.empty, bs)
  | LogRecordType.ABORT => some (Payload.empty, bs)
  | LogRecordType.NEWPAGE =>
    match rd32 bs with
    | none => none
    | some (prev, b1) =>
      match rd32 b1 with
      | none => none
      | some (page, b2) => some (Payload.newpage prev page, b2)
  | LogRecordType.UPDATE =>
    match rdRid bs with
    | none => none
    | some (rid, b1) =>
      match rdTuple b1 with
      | none => none
      | some (old, b2) =>
        match rdTuple b2 with
        | none => none
        | some (new, b3) => some (Payload.update rid old new, b3)
  | _ =>
    match rdRid bs with
    | none => none
    | some (rid, b1) =>
      match rdTuple b1 with
      | none => none
      | some (t, b2) => some (Payload.tuple rid t, b2)

/-- Modelled from the spec: reading one record off the front of a byte
sequence: the header, then the payload its type calls for. -/
def decodeRecord (bs : List Nat) : Option (WireRecord × List Nat) :=
  match rd32 bs with
  | none => none
  | some (size, b1) =>
    match rd32 b1 with
    | none => none
    | some (lsn, b2) =>
      match rd32 b2 with
      | none => none
      | some (txn, b3) =>
        match rd32 b3 with
        | none => none
        | some (prev, b4) =>
          match rd32 b4 with
          | none => none
          | some (code, b5) =>
            match LogRecordType.ofCode code with
            | none => none
            | some ty =>
              match rdPayload ty b5 with
              | none => none
              | some (pl, b6) => some (⟨size.toNat, lsn, txn, prev, ty, pl⟩, b6)

/-- Reading records until the bytes are used up, at most `fuel` of them. -/
def decodeRecords : Nat → List Nat → Option (List WireRecord)
  | _, [] => some []
  | 0, _ :: _ => none
  | fuel + 1, b :: bs =>
    match decodeRecord (b :: bs) with
    | none => none
    | some (r, rest) =>
      match decodeRecords fuel rest with
      | none => none
      | some rs => some (r :: rs)

/-- Reading a flushed log record by record; every record takes at least one
byte, so the length of the log is fuel enough. -/
def decodeLog (bs : List Nat) : Option (List WireRecord) :=
  decodeRecords bs.length bs

/-- Modelled from the spec: the records of a sequence of appends with the LSNs
the specification gives them: the `i`-th carries the LSN `n + i`. -/
def stampLsn (n : lsn_t) : List LogRecord → List LogRecord
  | [] => []
  | r :: rs => { r with lsn_ := n } :: stampLsn (n + 1) rs

/-- The records of a sequence of appends as the callers see them afterwards:
each carries the value of the 32-bit counter `next_lsn_` at its call. -/
def stampWrap (n : lsn_t) : List LogRecord → List LogRecord
  | [] => []
  | r :: rs => { r with lsn_ := n } :: stampWrap (wrap32 (n + 1)) rs

/-- The bytes that `appendSerialize` writes for a record, in the order of the
`memcpy` calls: the header, then what the branch of its type writes. -/
def codeBytes (r : LogRecord) : List Nat :=
  headerBytes r ++
    (if r.log_record_type_ = LogRecordType.UPDATE then
      ridBytes r.insert_rid_ ++ r.old_tuple_.SerializeTo ++ r.new_tuple_.SerializeTo
    else if r.log_record_type_ = LogRecordType.NEWPAGE then
      le32 r.prev_page_id_ ++ le32 r.page_id_
    else
      ridBytes r.insert_rid_ ++ r.insert_tuple_.SerializeTo)

/-- The log manager after a sequence of records has been serialized by
`appendSerialize`, one after the other. -/
def appendMany (lg : LogManager) : List LogRecord → LogManager
  | [] => lg
  | r :: rs => appendMany (appendSerialize lg r).1 rs

/-- Every byte that `appendSerialize` writes for the records of a sequence,
appended one after the other from the offset `off`, lies inside a buffer of
`LOG_BUFFER_SIZE` bytes: a record at offset `o` is written to the indices from
`o` up to `o + (codeBytes r).length`, and the offset advances by its size. -/
def writesInBounds (LOG_BUFFER_SIZE : Nat) (off : Nat) : List LogRecord → Prop
  | [] => True
  | r :: rs => off + (codeBytes r).length ≤ LOG_BUFFER_SIZE ∧
      writesInBounds LOG_BUFFER_SIZE (off + r.GetSize) rs

/-- The condition `writesInBounds` can be computed. -/
instance writesInBounds.dec (L : Nat) : (off : Nat) → (rs : List LogRecord) →
    Decidable (writesInBounds L off rs)
  | _, [] => isTrue trivial
  | off, r :: rs =>
    have := writesInBounds.dec L (off + r.GetSize) rs
    inferInstanceAs (Decidable (off + (codeBytes r).length ≤ L ∧
      writesInBounds L (off + r.GetSize) rs))

/-- The facts about the log manager and the returned calls that every
transition keeps as long as the 32-bit LSN counter has not gone beyond
`2147483647`; `n` is `next_lsn_` at the start of the run. -/
structure LogInv (n : lsn_t) (w : LogWorld) : Prop where
  flushZero : w.lg.flushBufferSize_ = 0
  next_eq : w.lg.next_lsn_ = wrap32 (n + w.returned.length)
  persist_le : w.lg.persistent_lsn_ ≤ w.lg.lastLsn_
  last_lt : w.lg.lastLsn_ < n + w.returned.length
  caughtUp : w.lg.logBufferOffset_ = 0 → w.lg.lastLsn_ ≤ w.lg.persistent_lsn_
  returned_le : ∀ p ∈ w.returned, p.1 ≤ w.lg.lastLsn_
  sleepers : ∀ r ∈ w.sleeping, LogRecord.HEADER_SIZE ≤ r.GetSize

/-- The state a sequence of events leads to from the start with the given log
manager (the start itself when the sequence cannot be run). -/
def LogWorld.after (LOG_BUFFER_SIZE : Nat) (lg : LogManager) (es : List LogEvent) :
    LogWorld :=
  (logRun LOG_BUFFER_SIZE (LogWorld.start lg) es).getD (LogWorld.start lg)

/-- Modelled from the spec: a record of a header-only type (BEGIN, COMMIT or
ABORT) as its constructor leaves it: size 20, no LSN yet, the payload members
at their defaults. -/
def LogRecord.headerOnly (ty : LogRecordType) (txn : txn_id_t) (prev : lsn_t) : LogRecord :=
  ⟨20, -1, txn, prev, ty, 0, ⟨[]⟩, ⟨[]⟩, ⟨[]⟩, 0, 0⟩

/-- Modelled from the spec: a record with `rid` and a tuple (INSERT and the
DELETE types): size 20 + 8 + 4 + length of the tuple. -/
def LogRecord.withTuple (ty : LogRecordType) (txn : txn_id_t) (prev : lsn_t) (rid : RID)
    (t : Tuple) : LogRecord :=
  ⟨32 + t.GetLength, -1, txn, prev, ty, rid, t, ⟨[]⟩, ⟨[]⟩, 0, 0⟩

/-! ## Lists of requests -/

theorem isItemOf_iff (t : txn_id_t) (i : TxnItem) : isItemOf t i = true ↔ i.txnId_ = t := by
  simp [isItemOf]

theorem item_eq_of_nodup {l : List TxnItem} (hn : (l.map TxnItem.txnId_).Nodup)
    {a b : TxnItem} (ha : a ∈ l) (hb : b ∈ l) (h : a.txnId_ = b.txnId_) : a = b :=
  List.inj_on_of_nodup_map hn ha hb h

theorem find_eq_of_nodup {l : List TxnItem} (hn : (l.map TxnItem.txnId_).Nodup)
    {t : txn_id_t} {it j : TxnItem} (hf : l.find? (isItemOf t) = some it)
    (hj : j ∈ l) (hjt : j.txnId_ = t) : j = it := by
  have h1 := List.mem_of_find?_eq_some hf
  have h2 := (isItemOf_iff t it).1 (List.find?_some hf)
  exact item_eq_of_nodup hn hj h1 (hjt.trans h2.symm)

theorem find_of_mem {l : List TxnItem} (hn : (l.map TxnItem.txnId_).Nodup)
    {j : TxnItem} (hj : j ∈ l) : l.find? (isItemOf j.txnId_) = some j := by
  cases hf : l.find? (isItemOf j.txnId_) with
  | none =>
    rw [List.find?_eq_none] at hf
    exact absurd ((isItemOf_iff _ _).2 rfl) (hf j hj)
  | some it => rw [find_eq_of_nodup hn hf hj rfl]

theorem not_mem_eraseP_of_nodup {l : List TxnItem} (hn : (l.map TxnItem.txnId_).Nodup)
    {t : txn_id_t} {j : TxnItem} (hj : j ∈ l.eraseP (isItemOf t)) : j.txnId_ ≠ t := by
  intro hjt
  have hjl := List.mem_of_mem_eraseP hj
  obtain ⟨a, l1, l2, h1, h2, h3, h4⟩ := List.exists_of_eraseP hjl ((isItemOf_iff t j).2 hjt)
  rw [h4] at hj
  rw [h3, List.map_append, List.map_cons] at hn
  have hat : a.txnId_ = t := (isItemOf_iff t a).1 h2
  rcases List.mem_append.1 hj with hj1 | hj2
  · exact h1 j hj1 ((isItemOf_iff t j).2 hjt)
  · have hd := (List.nodup_append.1 hn).2.1
    rw [List.nodup_cons] at hd
    exact hd.1 (by rw [hat, ← hjt]; exact List.mem_map_of_mem _ hj2)

theorem mem_eraseP_of_ne {l : List TxnItem} {t : txn_id_t} {j : TxnItem} (hj : j ∈ l)
    (hne : j.txnId_ ≠ t) : j ∈ l.eraseP (isItemOf t) := by
  rw [List.mem_eraseP_of_neg]
  · exact hj
  · simpa [isItemOf] using hne

theorem all_granted_of_last {l : List TxnItem}
    (hp : l.Pairwise (fun a b => b.granted_ = true → a.granted_ = true))
    {last : TxnItem} (hl : l.getLast? = some last) (hg : last.granted_ = true) :
    ∀ i ∈ l, i.granted_ = true := by
  obtain ⟨ys, rfl⟩ := List.getLast?_eq_some_iff.1 hl
  intro i hi
  rcases List.mem_append.1 hi with h | h
  · exact (List.pairwise_append.1 hp).2.2 i h last (by simp) hg
  · simp at h; rw [h]; exact hg

/-! ## The grant loop of `Unlock` -/

theorem grantLoop_ids (l : List TxnItem) (up : Bool) :
    (grantLoop l up).1.map TxnItem.txnId_ = l.map TxnItem.txnId_ := by
  induction l with
  | nil => rfl
  | cons a l ih =>
    unfold grantLoop
    split_ifs <;> simp [ih]

theorem grantLoop_mem_fwd (l : List TxnItem) (up : Bool) (i : TxnItem) (hi : i ∈ l) :
    i ∈ (grantLoop l up).1 ∨
      (i.granted_ = false ∧
        (⟨i.txnId_, grantedType i.type_, true⟩ : TxnItem) ∈ (grantLoop l up).1) := by
  induction l with
  | nil => simp at hi
  | cons a l ih =>
    unfold grantLoop
    rcases List.mem_cons.1 hi with rfl | hi
    · split_ifs with h1 h2 h3
      · left; simp
      · right; simp [h1, h2, grantedType]
      · right; simp [h1, h3, grantedType]
      · right
        have : i.type_ = LockType.EXCLUSIVE := by
          cases hh : i.type_ <;> simp_all
        simp [h1, this, grantedType]
    · split_ifs with h1 h2 h3
      · left; simp [hi]
      · rcases ih hi with h | h
        · left; simp [h]
        · right; simp [h]
      · left; simp [hi]
      · left; simp [hi]

theorem grantLoop_mem_bwd (l : List TxnItem) (up : Bool) (j : TxnItem)
    (hj : j ∈ (grantLoop l up).1) :
    j ∈ l ∨ (j.granted_ = true ∧ ∃ i ∈ l, i.granted_ = false ∧ i.txnId_ = j.txnId_ ∧
      j.type_ = grantedType i.type_) := by
  induction l with
  | nil => simp [grantLoop] at hj
  | cons a l ih =>
    unfold grantLoop at hj
    split_ifs at hj with h1 h2 h3
    · left; exact hj
    · rcases List.mem_cons.1 hj with rfl | hj
      · right; exact ⟨rfl, a, by simp, by simpa using h1, rfl, by simp [h2, grantedType]⟩
      · rcases ih hj with h | ⟨hg, i, hi, h⟩
        · left; simp [h]
        · right; exact ⟨hg, i, by simp [hi], h⟩
    · rcases List.mem_cons.1 hj with rfl | hj
      · right; exact ⟨rfl, a, by simp, by simpa using h1, rfl, by simp [h3, grantedType]⟩
      · left; simp [hj]
    · rcases List.mem_cons.1 hj with rfl | hj
      · right
        have : a.type_ = LockType.EXCLUSIVE := by
          cases hh : a.type_ <;> simp_all
        exact ⟨rfl, a, by simp, by simpa using h1, rfl, by simp [this, grantedType]⟩
      · left; simp [hj]

theorem grantLoop_front (l : List TxnItem) (up : Bool)
    (hp : l.Pairwise (fun a b => b.granted_ = true → a.granted_ = true)) :
    (grantLoop l up).1.Pairwise (fun a b => b.granted_ = true → a.granted_ = true) := by
  induction l with
  | nil => simp [grantLoop]
  | cons a l ih =>
    unfold grantLoop
    rw [List.pairwise_cons] at hp
    split_ifs with h1 h2 h3
    · exact List.pairwise_cons.2 hp
    · exact List.pairwise_cons.2 ⟨fun _ _ _ => rfl, ih hp.2⟩
    · exact List.pairwise_cons.2 ⟨fun _ _ _ => rfl, hp.2⟩
    · exact List.pairwise_cons.2 ⟨fun _ _ _ => rfl, hp.2⟩

theorem grantLoop_upg (l : List TxnItem) (up : Bool)
    (hc : l.countP (fun i => decide (i.type_ = LockType.UPGRADING)) ≤ 1)
    (hf : up = true ↔ ∃ i ∈ l, i.type_ = LockType.UPGRADING) :
    (grantLoop l up).1.countP (fun i => decide (i.type_ = LockType.UPGRADING)) ≤ 1 ∧
    ((grantLoop l up).2 = true ↔
      ∃ i ∈ (grantLoop l up).1, i.type_ = LockType.UPGRADING) := by
  induction l with
  | nil => simpa [grantLoop] using hf
  | cons a l ih =>
    unfold grantLoop
    split_ifs with h1 h2 h3
    · exact ⟨hc, hf⟩
    · have hc1 : l.countP (fun i => decide (i.type_ = LockType.UPGRADING)) ≤ 1 := by
        rw [List.countP_cons] at hc; omega
      have hf1 : up = true ↔ ∃ i ∈ l, i.type_ = LockType.UPGRADING := by
        rw [hf]; simp [h2]
      obtain ⟨ih1, ih2⟩ := ih hc1 hf1
      refine ⟨?_, ?_⟩
      · rw [List.countP_cons]; simp [h2]; exact ih1
      · rw [ih2]; simp [h2]
    · have hc1 : l.countP (fun i => decide (i.type_ = LockType.UPGRADING)) = 0 := by
        rw [List.countP_cons] at hc; simp [h3] at hc; simpa using hc
      refine ⟨?_, ?_⟩
      · rw [List.countP_cons]; simp [hc1]
      · rw [List.countP_eq_zero] at hc1
        simp only [Bool.false_eq_true, false_iff, not_exists, not_and]
        intro i hi
        rcases List.mem_cons.1 hi with rfl | hi
        · simp
        · simpa using hc1 i hi
    · refine ⟨?_, ?_⟩
      · rw [List.countP_cons] at hc ⊢; simpa [h3] using hc
      · rw [hf]; simp [h3]

/-! ## Elementary changes of the system keep the invariant -/

theorem grantedType_ne_upgrading (ty : LockType) : grantedType ty ≠ LockType.UPGRADING := by
  cases ty <;> simp [grantedType]

theorem grantedType_shared_iff (ty : LockType) :
    grantedType ty = LockType.SHARED ↔ ty = LockType.SHARED := by
  cases ty <;> simp [grantedType]

theorem insertHeld_id (txn : Transaction) (rid : RID) (ty : LockType) :
    (insertHeld txn rid ty).txn_id = txn.txn_id := by
  unfold insertHeld; split_ifs <;> rfl

theorem insertHeld_state (txn : Transaction) (rid : RID) (ty : LockType) :
    (insertHeld txn rid ty).state = txn.state := by
  unfold insertHeld; split_ifs <;> rfl

theorem insertHeld_shared_mono (txn : Transaction) (rid : RID) (ty : LockType) (r : RID)
    (h : txn.shared_lock_set r = true) : (insertHeld txn rid ty).shared_lock_set r = true := by
  unfold insertHeld; split_ifs
  · by_cases hr : r = rid <;> simp [Function.update_apply, hr, h]
  · exact h

theorem insertHeld_excl_mono (txn : Transaction) (rid : RID) (ty : LockType) (r : RID)
    (h : txn.exclusive_lock_set r = true) :
    (insertHeld txn rid ty).exclusive_lock_set r = true := by
  unfold insertHeld; split_ifs
  · exact h
  · by_cases hr : r = rid <;> simp [Function.update_apply, hr, h]

theorem insertHeld_shared_inv (txn : Transaction) (rid : RID) (ty : LockType) (r : RID)
    (h : (insertHeld txn rid ty).shared_lock_set r = true) :
    txn.shared_lock_set r = true ∨ (r = rid ∧ ty = LockType.SHARED) := by
  unfold insertHeld at h; split_ifs at h with h1
  · by_cases hr : r = rid
    · exact Or.inr ⟨hr, h1⟩
    · left; simpa [Function.update_apply, hr] using h
  · exact Or.inl h

theorem insertHeld_excl_inv (txn : Transaction) (rid : RID) (ty : LockType) (r : RID)
    (h : (insertHeld txn rid ty).exclusive_lock_set r = true) :
    txn.exclusive_lock_set r = true ∨ (r = rid ∧ ty ≠ LockType.SHARED) := by
  unfold insertHeld at h; split_ifs at h with h1
  · exact Or.inl h
  · by_cases hr : r = rid
    · exact Or.inr ⟨hr, h1⟩
    · left; simpa [Function.update_apply, hr] using h

theorem insertHeld_sets (txn : Transaction) (rid : RID) (ty : LockType) :
    (ty = LockType.SHARED → (insertHeld txn rid ty).shared_lock_set rid = true) ∧
    (ty ≠ LockType.SHARED → (insertHeld txn rid ty).exclusive_lock_set rid = true) := by
  unfold insertHeld; constructor <;> intro h <;> simp [h]

theorem Inv.init : Inv (fun _ => TxnList.fresh)
    (fun t => ⟨t, TransactionState.GROWING, fun _ => false, fun _ => false⟩)
    (fun _ => none) where
  ids := fun _ => rfl
  queue := fun _ => ⟨by simp [TxnList.fresh], by simp [TxnList.fresh],
    by simp [TxnList.fresh], by simp [TxnList.fresh], by simp [TxnList.fresh]⟩
  shared := by simp
  excl := by simp
  waitItem := by simp
  ungranted := by simp [TxnList.fresh]
  held := by simp [TxnList.fresh]

/-- Replacing transaction objects by ones with the same id and held sets (a
state change). -/
theorem Inv.congr_txns {Q : RID → TxnList} {T T1 : txn_id_t → Transaction}
    {W : txn_id_t → Option (RID × LockType)} (h : Inv Q T W)
    (hid : ∀ t, (T1 t).txn_id = (T t).txn_id)
    (hs : ∀ t, (T1 t).shared_lock_set = (T t).shared_lock_set)
    (he : ∀ t, (T1 t).exclusive_lock_set = (T t).exclusive_lock_set) : Inv Q T1 W where
  ids := fun t => by rw [hid]; exact h.ids t
  queue := h.queue
  shared := fun t rid hh => h.shared t rid (by rw [← hs]; exact hh)
  excl := fun t rid hh => h.excl t rid (by rw [← he]; exact hh)
  waitItem := h.waitItem
  ungranted := h.ungranted
  held := fun rid i hi hg hw => by
    rw [hs, he]; exact h.held rid i hi hg hw

theorem Inv.setState {Q : RID → TxnList} {T : txn_id_t → Transaction}
    {W : txn_id_t → Option (RID × LockType)} (h : Inv Q T W) (t : txn_id_t)
    (s : TransactionState) : Inv Q (Function.update T t ((T t).SetState s)) W := by
  apply h.congr_txns <;> intro t1 <;> by_cases ht : t1 = t <;>
    simp [Function.update_apply, ht, Transaction.SetState]

theorem checkCanGrant_all_granted {tl : TxnList} {type : LockType}
    (hp : tl.list_.Pairwise (fun a b => b.granted_ = true → a.granted_ = true))
    (hc : tl.checkCanGrant type = true) : ∀ i ∈ tl.list_, i.granted_ = true := by
  unfold TxnList.checkCanGrant at hc
  cases hl : tl.list_.getLast? with
  | none =>
    rw [List.getLast?_eq_none_iff] at hl
    simp [hl]
  | some last =>
    rw [hl] at hc
    simp only at hc
    split_ifs at hc
    simp only [Bool.and_eq_true] at hc
    exact all_granted_of_last hp hl hc.1

/-- A granted request is appended and the rid is inserted into the held set. -/
theorem Inv.append_granted {Q : RID → TxnList} {T : txn_id_t → Transaction}
    {W : txn_id_t → Option (RID × LockType)} (h : Inv Q T W) (t : txn_id_t) (rid : RID)
    (type : LockType) (hnot : ∀ i ∈ (Q rid).list_, i.txnId_ ≠ t)
    (hcg : (Q rid).checkCanGrant type = true) :
    Inv (Function.update Q rid
          ⟨(Q rid).hasUpgrading_, (Q rid).list_ ++ [⟨t, grantedType type, true⟩]⟩)
      (Function.update T t (insertHeld (T t) rid (grantedType type))) W := by
  have hall := checkCanGrant_all_granted (h.queue rid).front hcg
  have mono : ∀ r i, i ∈ (Q r).list_ → i ∈ ((Function.update Q rid
      ⟨(Q rid).hasUpgrading_, (Q rid).list_ ++ [⟨t, grantedType type, true⟩]⟩) r).list_ := by
    intro r i hi
    by_cases hr : r = rid
    · subst hr; simp [hi]
    · simpa [Function.update_apply, hr] using hi
  have back : ∀ r i, i ∈ ((Function.update Q rid
      ⟨(Q rid).hasUpgrading_, (Q rid).list_ ++ [⟨t, grantedType type, true⟩]⟩) r).list_ →
      i ∈ (Q r).list_ ∨ (r = rid ∧ i = ⟨t, grantedType type, true⟩) := by
    intro r i hi
    by_cases hr : r = rid
    · subst hr
      simp only [Function.update_same, List.mem_append, List.mem_singleton] at hi
      rcases hi with hi | hi
      · exact Or.inl hi
      · exact Or.inr ⟨rfl, hi⟩
    · left; simpa [Function.update_apply, hr] using hi
  refine ⟨?_, ?_, ?_, ?_, ?_, ?_, ?_⟩
  · intro t1
    by_cases ht : t1 = t
    · subst ht; simp [insertHeld_id, h.ids]
    · simp [Function.update_apply, ht, h.ids]
  · intro r
    by_cases hr : r = rid
    · subst hr
      have hq := h.queue r
      simp only [Function.update_same]
      refine ⟨?_, ?_, ?_, ?_, ?_⟩
      · simp only [List.map_append, List.map_cons, List.map_nil]
        rw [List.nodup_append]
        refine ⟨hq.nodup, by simp, ?_⟩
        intro a ha hb
        simp only [List.mem_singleton] at hb
        obtain ⟨i, hi, rfl⟩ := List.mem_map.1 ha
        exact hnot i hi hb
      · rw [List.pairwise_append]
        refine ⟨hq.front, by simp, ?_⟩
        intro a ha b _ _
        exact hall a ha
      · intro i hi hg
        rcases List.mem_append.1 hi with hi | hi
        · exact hq.grantedNotUpg i hi hg
        · simp only [List.mem_singleton] at hi
          rw [hi]; exact grantedType_ne_upgrading type
      · rw [List.countP_append]
        have := grantedType_ne_upgrading type
        simp [List.countP_cons, this]
        exact hq.upgCount
      · rw [hq.flag]
        have hne := grantedType_ne_upgrading type
        constructor
        · rintro ⟨i, hi, hu⟩
          exact ⟨i, List.mem_append_left _ hi, hu⟩
        · rintro ⟨i, hi, hu⟩
          rcases List.mem_append.1 hi with hi | hi
          · exact ⟨i, hi, hu⟩
          · simp only [List.mem_singleton] at hi
            rw [hi] at hu
            exact absurd hu hne
    · simpa [Function.update_apply, hr] using h.queue r
  · intro t1 r hh
    by_cases ht : t1 = t
    · subst ht
      simp only [Function.update_same] at hh
      rcases insertHeld_shared_inv _ _ _ _ hh with h1 | ⟨h1, h2⟩
      · exact mono _ _ (h.shared _ _ h1)
      · subst h1; simp [h2]
    · simp only [Function.update_apply, ht, if_false] at hh
      exact mono _ _ (h.shared _ _ hh)
  · intro t1 r hh
    by_cases ht : t1 = t
    · subst ht
      simp only [Function.update_same] at hh
      rcases insertHeld_excl_inv _ _ _ _ hh with h1 | ⟨h1, h2⟩
      · exact mono _ _ (h.excl _ _ h1)
      · subst h1
        have h3 : grantedType type = LockType.EXCLUSIVE := by
          revert h2; cases type <;> simp [grantedType]
        simp [h3]
    · simp only [Function.update_apply, ht, if_false] at hh
      exact mono _ _ (h.excl _ _ hh)
  · intro t1 r ty hw
    rcases h.waitItem t1 r ty hw with h1 | h1
    · exact Or.inl (mono _ _ h1)
    · exact Or.inr (mono _ _ h1)
  · intro r i hi hg
    rcases back r i hi with h1 | ⟨_, h1⟩
    · exact h.ungranted r i h1 hg
    · rw [h1] at hg; simp at hg
  · intro r i hi hg hw
    rcases back r i hi with h1 | ⟨h1, h2⟩
    · obtain ⟨a, b⟩ := h.held r i h1 hg hw
      by_cases ht : i.txnId_ = t
      · rw [ht] at a b ⊢
        simp only [Function.update_same]
        exact ⟨fun x => insertHeld_shared_mono _ _ _ _ (a x),
          fun x => insertHeld_excl_mono _ _ _ _ (b x)⟩
      · simpa [Function.update_apply, ht] using And.intro a b
    · subst h1; subst h2
      simp only [Function.update_same]
      exact insertHeld_sets _ _ _

/-- An ungranted request is appended and the thread goes to sleep. -/
theorem Inv.append_waiting {Q : RID → TxnList} {T : txn_id_t → Transaction}
    {W : txn_id_t → Option (RID × LockType)} (h : Inv Q T W) (t : txn_id_t) (rid : RID)
    (type : LockType) (hw : W t = none) (hnot : ∀ i ∈ (Q rid).list_, i.txnId_ ≠ t)
    (hup : type = LockType.UPGRADING → (Q rid).hasUpgrading_ = false) :
    Inv (Function.update Q rid
          ⟨(Q rid).hasUpgrading_ || decide (type = LockType.UPGRADING),
            (Q rid).list_ ++ [⟨t, type, false⟩]⟩)
      T (Function.update W t (some (rid, type))) := by
  have mono : ∀ r i, i ∈ (Q r).list_ → i ∈ ((Function.update Q rid
      ⟨(Q rid).hasUpgrading_ || decide (type = LockType.UPGRADING),
        (Q rid).list_ ++ [⟨t, type, false⟩]⟩) r).list_ := by
    intro r i hi
    by_cases hr : r = rid
    · subst hr; simp [hi]
    · simpa [Function.update_apply, hr] using hi
  have back : ∀ r i, i ∈ ((Function.update Q rid
      ⟨(Q rid).hasUpgrading_ || decide (type = LockType.UPGRADING),
        (Q rid).list_ ++ [⟨t, type, false⟩]⟩) r).list_ →
      i ∈ (Q r).list_ ∨ (r = rid ∧ i = ⟨t, type, false⟩) := by
    intro r i hi
    by_cases hr : r = rid
    · subst hr
      simp only [Function.update_same, List.mem_append, List.mem_singleton] at hi
      rcases hi with hi | hi
      · exact Or.inl hi
      · exact Or.inr ⟨rfl, hi⟩
    · left; simpa [Function.update_apply, hr] using hi
  refine ⟨h.ids, ?_, ?_, ?_, ?_, ?_, ?_⟩
  · intro r
    by_cases hr : r = rid
    · subst hr
      have hq := h.queue r
      simp only [Function.update_same]
      refine ⟨?_, ?_, ?_, ?_, ?_⟩
      · simp only [List.map_append, List.map_cons, List.map_nil]
        rw [List.nodup_append]
        refine ⟨hq.nodup, by simp, ?_⟩
        intro a ha hb
        simp only [List.mem_singleton] at hb
        obtain ⟨i, hi, rfl⟩ := List.mem_map.1 ha
        exact hnot i hi hb
      · rw [List.pairwise_append]
        refine ⟨hq.front, by simp, ?_⟩
        intro a _ b hb hg
        simp only [List.mem_singleton] at hb
        rw [hb] at hg; simp at hg
      · intro i hi hg
        rcases List.mem_append.1 hi with hi | hi
        · exact hq.grantedNotUpg i hi hg
        · simp only [List.mem_singleton] at hi
          rw [hi] at hg; simp at hg
      · rw [List.countP_append]
        by_cases hu : type = LockType.UPGRADING
        · have hno : ¬ ∃ i ∈ (Q r).list_, i.type_ = LockType.UPGRADING := by
            rw [← hq.flag, hup hu]; simp
          have hz : (Q r).list_.countP (fun i => decide (i.type_ = LockType.UPGRADING)) = 0 := by
            rw [List.countP_eq_zero]
            intro a ha hc
            exact hno ⟨a, ha, by simpa using hc⟩
          rw [hz]; simp [List.countP_cons, hu]
        · simp [List.countP_cons, hu]
          exact hq.upgCount
      · simp only [Bool.or_eq_true, decide_eq_true_eq]
        rw [hq.flag]
        constructor
        · rintro (⟨i, hi, hu⟩ | hu)
          · exact ⟨i, List.mem_append_left _ hi, hu⟩
          · exact ⟨⟨t, type, false⟩, by simp, hu⟩
        · rintro ⟨i, hi, hu⟩
          rcases List.mem_append.1 hi with hi | hi
          · exact Or.inl ⟨i, hi, hu⟩
          · simp only [List.mem_singleton] at hi
            rw [hi] at hu
            exact Or.inr hu
    · simpa [Function.update_apply, hr] using h.queue r
  · intro t1 r hh
    exact mono _ _ (h.shared _ _ hh)
  · intro t1 r hh
    exact mono _ _ (h.excl _ _ hh)
  · intro t1 r ty hw1
    by_cases ht : t1 = t
    · subst ht
      simp only [Function.update_same, Option.some.injEq, Prod.mk.injEq] at hw1
      obtain ⟨rfl, rfl⟩ := hw1
      left; simp
    · simp only [Function.update_apply, ht, if_false] at hw1
      rcases h.waitItem t1 r ty hw1 with h1 | h1
      · exact Or.inl (mono _ _ h1)
      · exact Or.inr (mono _ _ h1)
  · intro r i hi hg
    rcases back r i hi with h1 | ⟨h1, h2⟩
    · obtain ⟨ty, hty⟩ := h.ungranted r i h1 hg
      have ht : i.txnId_ ≠ t := by
        intro hc; rw [hc, hw] at hty; simp at hty
      exact ⟨ty, by simpa [Function.update_apply, ht] using hty⟩
    · subst h1; subst h2
      exact ⟨type, by simp⟩
  · intro r i hi hg hw1
    rcases back r i hi with h1 | ⟨_, h2⟩
    · apply h.held r i h1 hg
      intro ty hc
      by_cases ht : i.txnId_ = t
      · rw [ht, hw] at hc; simp at hc
      · exact hw1 ty (by simpa [Function.update_apply, ht] using hc)
    · rw [h2] at hg; simp at hg

/-- What a successful `eraseHeld` on the request found by `find_if` tells:
the request is granted and not UPGRADING, and afterwards the rid is in neither
held set. -/
theorem erase_facts {Q : RID → TxnList} {T : txn_id_t → Transaction}
    {W : txn_id_t → Option (RID × LockType)} (h : Inv Q T W) {t : txn_id_t} {rid : RID}
    {it : TxnItem} {txn1 txn2 : Transaction}
    (hf : (Q rid).list_.find? (isItemOf t) = some it)
    (hs : txn1.shared_lock_set = (T t).shared_lock_set)
    (he : txn1.exclusive_lock_set = (T t).exclusive_lock_set)
    (her : eraseHeld txn1 rid (decide (it.type_ = LockType.SHARED)) = some txn2) :
    it.granted_ = true ∧ it.type_ ≠ LockType.UPGRADING ∧
    txn2.txn_id = txn1.txn_id ∧ txn2.state = txn1.state ∧
    txn2.shared_lock_set rid = false ∧ txn2.exclusive_lock_set rid = false ∧
    (∀ r, r ≠ rid → txn2.shared_lock_set r = (T t).shared_lock_set r ∧
      txn2.exclusive_lock_set r = (T t).exclusive_lock_set r) := by
  have hn := (h.queue rid).nodup
  unfold eraseHeld at her
  by_cases hty : it.type_ = LockType.SHARED
  · simp only [hty, decide_True, if_true] at her
    split_ifs at her with hm
    simp only [Option.some.injEq] at her
    subst her
    rw [hs] at hm
    have e1 := find_eq_of_nodup hn hf (h.shared t rid hm) rfl
    have hx : (T t).exclusive_lock_set rid = false := by
      by_contra hc
      simp only [Bool.not_eq_false] at hc
      have e2 := find_eq_of_nodup hn hf (h.excl t rid hc) rfl
      rw [← e2] at e1; simp at e1
    refine ⟨by rw [← e1], by rw [← e1]; simp, rfl, rfl, by simp, by simp [he, hx], ?_⟩
    intro r hr
    simp [Function.update_apply, hr, hs, he]
  · simp only [hty, decide_False, Bool.false_eq_true, if_false] at her
    split_ifs at her with hm
    simp only [Option.some.injEq] at her
    subst her
    rw [he] at hm
    have e1 := find_eq_of_nodup hn hf (h.excl t rid hm) rfl
    have hx : (T t).shared_lock_set rid = false := by
      by_contra hc
      simp only [Bool.not_eq_false] at hc
      have e2 := find_eq_of_nodup hn hf (h.shared t rid hc) rfl
      rw [← e2] at e1; simp at e1
    refine ⟨by rw [← e1], by rw [← e1]; simp, rfl, rfl, by simp [hs, hx], by simp, ?_⟩
    intro r hr
    simp [Function.update_apply, hr, hs, he]

/-- The caller's request is erased from the queue and the rid from its held
set. -/
theorem Inv.erase {Q : RID → TxnList} {T : txn_id_t → Transaction}
    {W : txn_id_t → Option (RID × LockType)} (h : Inv Q T W) {t : txn_id_t} {rid : RID}
    {it : TxnItem} {txn1 txn2 : Transaction} (hw : W t = none)
    (hf : (Q rid).list_.find? (isItemOf t) = some it)
    (hid : txn1.txn_id = t)
    (hs : txn1.shared_lock_set = (T t).shared_lock_set)
    (he : txn1.exclusive_lock_set = (T t).exclusive_lock_set)
    (her : eraseHeld txn1 rid (decide (it.type_ = LockType.SHARED)) = some txn2) :
    Inv (Function.update Q rid ⟨(Q rid).hasUpgrading_, (Q rid).list_.eraseP (isItemOf t)⟩)
      (Function.update T t txn2) W := by
  obtain ⟨f1, f2, f3, _, f5, f6, f7⟩ := erase_facts h hf hs he her
  have hq := h.queue rid
  have hitm := List.mem_of_find?_eq_some hf
  have hitt : it.txnId_ = t := (isItemOf_iff t it).1 (List.find?_some hf)
  have mono : ∀ r i, i ∈ (Q r).list_ → i.txnId_ ≠ t → i ∈ ((Function.update Q rid
      ⟨(Q rid).hasUpgrading_, (Q rid).list_.eraseP (isItemOf t)⟩) r).list_ := by
    intro r i hi hne
    by_cases hr : r = rid
    · subst hr; simpa using mem_eraseP_of_ne hi hne
    · simpa [Function.update_apply, hr] using hi
  have back : ∀ r i, i ∈ ((Function.update Q rid
      ⟨(Q rid).hasUpgrading_, (Q rid).list_.eraseP (isItemOf t)⟩) r).list_ →
      i ∈ (Q r).list_ ∧ (r = rid → i.txnId_ ≠ t) := by
    intro r i hi
    by_cases hr : r = rid
    · subst hr
      simp only [Function.update_same] at hi
      exact ⟨List.mem_of_mem_eraseP hi, fun _ => not_mem_eraseP_of_nodup hq.nodup hi⟩
    · simp only [Function.update_apply, hr, if_false] at hi
      exact ⟨hi, fun hc => absurd hc hr⟩
  have hsub := List.eraseP_sublist (p := isItemOf t) (Q rid).list_
  refine ⟨?_, ?_, ?_, ?_, ?_, ?_, ?_⟩
  · intro t1
    by_cases ht : t1 = t
    · subst ht; simp [f3, hid]
    · simp [Function.update_apply, ht, h.ids]
  · intro r
    by_cases hr : r = rid
    · subst hr
      simp only [Function.update_same]
      refine ⟨hq.nodup.sublist (hsub.map _), hq.front.sublist hsub, ?_, ?_, ?_⟩
      · intro i hi hg
        exact hq.grantedNotUpg i (List.mem_of_mem_eraseP hi) hg
      · exact le_trans (hsub.countP_le _) hq.upgCount
      · rw [hq.flag]
        constructor
        · rintro ⟨i, hi, hu⟩
          refine ⟨i, mem_eraseP_of_ne hi ?_, hu⟩
          intro hc
          have := find_eq_of_nodup hq.nodup hf hi hc
          rw [this] at hu
          exact f2 hu
        · rintro ⟨i, hi, hu⟩
          exact ⟨i, List.mem_of_mem_eraseP hi, hu⟩
    · simpa [Function.update_apply, hr] using h.queue r
  · intro t1 r hh
    by_cases ht : t1 = t
    · subst ht
      simp only [Function.update_same] at hh
      have hr : r ≠ rid := by
        intro hc; rw [hc, f5] at hh; simp at hh
      rw [(f7 r hr).1] at hh
      simpa [Function.update_apply, hr] using h.shared _ _ hh
    · simp only [Function.update_apply, ht, if_false] at hh
      exact mono _ _ (h.shared _ _ hh) ht
  · intro t1 r hh
    by_cases ht : t1 = t
    · subst ht
      simp only [Function.update_same] at hh
      have hr : r ≠ rid := by
        intro hc; rw [hc, f6] at hh; simp at hh
      rw [(f7 r hr).2] at hh
      simpa [Function.update_apply, hr] using h.excl _ _ hh
    · simp only [Function.update_apply, ht, if_false] at hh
      exact mono _ _ (h.excl _ _ hh) ht
  · intro t1 r ty hw1
    have ht : t1 ≠ t := by
      intro hc; rw [hc, hw] at hw1; simp at hw1
    rcases h.waitItem t1 r ty hw1 with h1 | h1
    · exact Or.inl (mono _ _ h1 ht)
    · exact Or.inr (mono _ _ h1 ht)
  · intro r i hi hg
    exact h.ungranted r i (back r i hi).1 hg
  · intro r i hi hg hw1
    obtain ⟨h1, h2⟩ := back r i hi
    obtain ⟨a, b⟩ := h.held r i h1 hg hw1
    by_cases ht : i.txnId_ = t
    · have hr : r ≠ rid := fun hc => h2 hc ht
      rw [ht] at a b ⊢
      simp only [Function.update_same]
      rw [(f7 r hr).1, (f7 r hr).2]
      exact ⟨a, b⟩
    · simpa [Function.update_apply, ht] using And.intro a b

/-- The grant loop of `Unlock` runs over the queue of `rid`. -/
theorem Inv.grant {Q : RID → TxnList} {T : txn_id_t → Transaction}
    {W : txn_id_t → Option (RID × LockType)} (h : Inv Q T W) (rid : RID) :
    Inv (Function.update Q rid
          ⟨(grantLoop (Q rid).list_ (Q rid).hasUpgrading_).2,
            (grantLoop (Q rid).list_ (Q rid).hasUpgrading_).1⟩) T W := by
  have hq := h.queue rid
  have fwd : ∀ r i, i ∈ (Q r).list_ →
      i ∈ ((Function.update Q rid ⟨(grantLoop (Q rid).list_ (Q rid).hasUpgrading_).2,
            (grantLoop (Q rid).list_ (Q rid).hasUpgrading_).1⟩) r).list_ ∨
      (i.granted_ = false ∧ (⟨i.txnId_, grantedType i.type_, true⟩ : TxnItem) ∈
        ((Function.update Q rid ⟨(grantLoop (Q rid).list_ (Q rid).hasUpgrading_).2,
            (grantLoop (Q rid).list_ (Q rid).hasUpgrading_).1⟩) r).list_) := by
    intro r i hi
    by_cases hr : r = rid
    · subst hr
      simpa using grantLoop_mem_fwd _ (Q r).hasUpgrading_ i hi
    · left; simpa [Function.update_apply, hr] using hi
  have bwd : ∀ r j,
      j ∈ ((Function.update Q rid ⟨(grantLoop (Q rid).list_ (Q rid).hasUpgrading_).2,
            (grantLoop (Q rid).list_ (Q rid).hasUpgrading_).1⟩) r).list_ →
      j ∈ (Q r).list_ ∨ (j.granted_ = true ∧ ∃ i ∈ (Q r).list_, i.granted_ = false ∧
        i.txnId_ = j.txnId_ ∧ j.type_ = grantedType i.type_) := by
    intro r j hj
    by_cases hr : r = rid
    · subst hr
      simp only [Function.update_same] at hj
      exact grantLoop_mem_bwd _ _ j hj
    · left; simpa [Function.update_apply, hr] using hj
  refine ⟨h.ids, ?_, ?_, ?_, ?_, ?_, ?_⟩
  · intro r
    by_cases hr : r = rid
    · subst hr
      simp only [Function.update_same]
      have hu := grantLoop_upg (Q r).list_ (Q r).hasUpgrading_ hq.upgCount hq.flag
      refine ⟨by rw [grantLoop_ids]; exact hq.nodup, grantLoop_front _ _ hq.front, ?_,
        hu.1, hu.2⟩
      intro j hj hg
      rcases grantLoop_mem_bwd _ _ j hj with h1 | ⟨_, i, _, _, _, h2⟩
      · exact hq.grantedNotUpg j h1 hg
      · rw [h2]; exact grantedType_ne_upgrading _
    · simpa [Function.update_apply, hr] using h.queue r
  · intro t r hh
    rcases fwd r _ (h.shared t r hh) with h1 | ⟨h1, _⟩
    · exact h1
    · simp at h1
  · intro t r hh
    rcases fwd r _ (h.excl t r hh) with h1 | ⟨h1, _⟩
    · exact h1
    · simp at h1
  · intro t r ty hw
    rcases h.waitItem t r ty hw with h1 | h1
    · rcases fwd r _ h1 with h2 | ⟨_, h2⟩
      · exact Or.inl h2
      · exact Or.inr h2
    · rcases fwd r _ h1 with h2 | ⟨h2, _⟩
      · exact Or.inr h2
      · simp at h2
  · intro r j hj hg
    rcases bwd r j hj with h1 | ⟨h1, _⟩
    · exact h.ungranted r j h1 hg
    · rw [hg] at h1; simp at h1
  · intro r j hj hg hw
    rcases bwd r j hj with h1 | ⟨_, i, hi, hig, hit, _⟩
    · exact h.held r j h1 hg hw
    · obtain ⟨ty, hty⟩ := h.ungranted r i hi hig
      rw [hit] at hty
      exact absurd hty (hw ty)

/-- A sleeping thread whose request has been granted continues with the
held-set insertion of `TxnList::insert`. -/
theorem Inv.resume {Q : RID → TxnList} {T : txn_id_t → Transaction}
    {W : txn_id_t → Option (RID × LockType)} (h : Inv Q T W) {t : txn_id_t} {rid : RID}
    {ty : LockType} {it : TxnItem} (hw : W t = some (rid, ty))
    (hf : (Q rid).list_.find? (isItemOf t) = some it) (hg : it.granted_ = true) :
    Inv Q (Function.update T t (insertHeld (T t) rid ty)) (Function.update W t none) := by
  have hq := h.queue rid
  have hit : it = ⟨t, grantedType ty, true⟩ := by
    rcases h.waitItem t rid ty hw with h1 | h1
    · have := find_eq_of_nodup hq.nodup hf h1 rfl
      rw [← this] at hg; simp at hg
    · exact (find_eq_of_nodup hq.nodup hf h1 rfl).symm
  have hitm := List.mem_of_find?_eq_some hf
  refine ⟨?_, h.queue, ?_, ?_, ?_, ?_, ?_⟩
  · intro t1
    by_cases ht : t1 = t
    · subst ht; simp [insertHeld_id, h.ids]
    · simp [Function.update_apply, ht, h.ids]
  · intro t1 r hh
    by_cases ht : t1 = t
    · subst ht
      simp only [Function.update_same] at hh
      rcases insertHeld_shared_inv _ _ _ _ hh with h1 | ⟨h1, h2⟩
      · exact h.shared _ _ h1
      · subst h1
        have h3 : grantedType ty = LockType.SHARED := (grantedType_shared_iff ty).2 h2
        rw [h3] at hit
        rw [← hit]; exact hitm
    · simp only [Function.update_apply, ht, if_false] at hh
      exact h.shared _ _ hh
  · intro t1 r hh
    by_cases ht : t1 = t
    · subst ht
      simp only [Function.update_same] at hh
      rcases insertHeld_excl_inv _ _ _ _ hh with h1 | ⟨h1, h2⟩
      · exact h.excl _ _ h1
      · subst h1
        have h3 : grantedType ty = LockType.EXCLUSIVE := by
          revert h2; cases ty <;> simp [grantedType]
        rw [h3] at hit
        rw [← hit]; exact hitm
    · simp only [Function.update_apply, ht, if_false] at hh
      exact h.excl _ _ hh
  · intro t1 r ty1 hw1
    by_cases ht : t1 = t
    · subst ht; simp at hw1
    · simp only [Function.update_apply, ht, if_false] at hw1
      exact h.waitItem t1 r ty1 hw1
  · intro r i hi hig
    obtain ⟨ty1, hty⟩ := h.ungranted r i hi hig
    by_cases ht : i.txnId_ = t
    · rw [ht, hw] at hty
      simp only [Option.some.injEq, Prod.mk.injEq] at hty
      obtain ⟨rfl, _⟩ := hty
      have := find_eq_of_nodup hq.nodup hf hi ht
      rw [this, hg] at hig; simp at hig
    · exact ⟨ty1, by simpa [Function.update_apply, ht] using hty⟩
  · intro r i hi hig hw1
    by_cases ht : i.txnId_ = t
    · rw [ht]
      simp only [Function.update_same]
      by_cases hr : r = rid
      · subst hr
        have e := find_eq_of_nodup hq.nodup hf hi ht
        rw [e, hit]
        simp only
        obtain ⟨a, b⟩ := insertHeld_sets (T t) r ty
        refine ⟨fun x => a ((grantedType_shared_iff ty).1 x), fun x => b ?_⟩
        intro hc; exact x ((grantedType_shared_iff ty).2 hc)
      · have hold : ∀ ty1, W i.txnId_ ≠ some (r, ty1) := by
          intro ty1 hc
          rw [ht, hw] at hc
          simp only [Option.some.injEq, Prod.mk.injEq] at hc
          exact hr hc.1.symm
        obtain ⟨a, b⟩ := h.held r i hi hig hold
        rw [ht] at a b
        exact ⟨fun x => insertHeld_shared_mono _ _ _ _ (a x),
          fun x => insertHeld_excl_mono _ _ _ _ (b x)⟩
    · have hold : ∀ ty1, W i.txnId_ ≠ some (r, ty1) := by
        intro ty1 hc
        exact hw1 ty1 (by simpa [Function.update_apply, ht] using hc)
      simpa [Function.update_apply, ht] using h.held r i hi hig hold

/-! ## The lock table as a total map of queues -/

theorem lookup_store (lm : LockManager) (rid : RID) (tl : TxnList) :
    (lm.store rid tl).lookup = Function.update lm.lookup rid tl := by
  funext r
  by_cases hr : r = rid <;>
    simp [LockManager.store, LockManager.lookup, Function.update_apply, hr]

theorem lookup_eraseKey (lm : LockManager) (rid : RID) :
    (lm.eraseKey rid).lookup = Function.update lm.lookup rid TxnList.fresh := by
  funext r
  by_cases hr : r = rid <;>
    simp [LockManager.eraseKey, LockManager.lookup, Function.update_apply, hr]

theorem lookup_store_self (lm : LockManager) (rid : RID) :
    (lm.store rid (lm.lookup rid)).lookup = lm.lookup := by
  rw [lookup_store, Function.update_eq_self]

/-! ## The member functions keep the invariant -/

/-- The three ways `lockTail` ends: the caller dies (wait-die), the request is
granted at once, or it is appended ungranted and the caller sleeps. -/
theorem lockTail_cases (lm : LockManager) (tl : TxnList) (txn : Transaction) (rid : RID)
    (type : LockType) :
    (tl.checkCanGrant type = false ∧
      (∃ back, tl.list_.getLast? = some back ∧ back.txnId_ < txn.txn_id) ∧
      lockTail lm tl txn rid type
        = some (lm.store rid tl, txn.SetState TransactionState.ABORTED,
            Outcome.returned false)) ∨
    (tl.checkCanGrant type = true ∧
      lockTail lm tl txn rid type
        = some (lm.store rid
              ⟨tl.hasUpgrading_, tl.list_ ++ [⟨txn.txn_id, grantedType type, true⟩]⟩,
            insertHeld txn rid (grantedType type), Outcome.returned true)) ∨
    (tl.checkCanGrant type = false ∧
      (∀ back, tl.list_.getLast? = some back → ¬ back.txnId_ < txn.txn_id) ∧
      lockTail lm tl txn rid type
        = some (lm.store rid
              ⟨tl.hasUpgrading_ || decide (type = LockType.UPGRADING),
                tl.list_ ++ [⟨txn.txn_id, type, false⟩]⟩,
            txn, Outcome.blocked type)) := by
  cases hc : tl.checkCanGrant type with
  | true =>
    right; left
    refine ⟨rfl, ?_⟩
    cases type <;> simp [lockTail, hc, TxnList.insert, grantedType]
  | false =>
    cases hl : tl.list_.getLast? with
    | none =>
      simp [TxnList.checkCanGrant, hl] at hc
    | some back =>
      by_cases hy : back.txnId_ < txn.txn_id
      · left
        refine ⟨rfl, ⟨back, rfl, hy⟩, ?_⟩
        simp [lockTail, hc, hl, hy]
      · right; right
        refine ⟨rfl, ?_, ?_⟩
        · intro b hb
          simp only [Option.some.injEq] at hb
          rw [← hb]; exact hy
        · simp [lockTail, hc, hl, hy, TxnList.insert]

theorem lockTail_Inv {Q : RID → TxnList} {T : txn_id_t → Transaction}
    {W : txn_id_t → Option (RID × LockType)} (h : Inv Q T W) {lm : LockManager}
    {tl : TxnList} {t : txn_id_t} {rid : RID} {type : LockType} {lm1 : LockManager}
    {txn1 : Transaction} {o : Outcome}
    (hQ : Q = Function.update lm.lookup rid tl) (hw : W t = none)
    (hnot : ∀ i ∈ tl.list_, i.txnId_ ≠ t)
    (hup : type = LockType.UPGRADING → tl.hasUpgrading_ = false)
    (hr : lockTail lm tl (T t) rid type = some (lm1, txn1, o)) :
    Inv lm1.lookup (Function.update T t txn1) (sleepOn W t rid o) := by
  have hQr : Q rid = tl := by rw [hQ]; simp
  have hupd : ∀ x, Function.update lm.lookup rid x = Function.update Q rid x := by
    intro x; rw [hQ]; simp
  have hid := h.ids t
  rcases lockTail_cases lm tl (T t) rid type with ⟨_, _, e⟩ | ⟨hc, e⟩ | ⟨_, _, e⟩
  · rw [e] at hr
    simp only [Option.some.injEq, Prod.mk.injEq] at hr
    obtain ⟨rfl, rfl, rfl⟩ := hr
    rw [lookup_store, ← hQ]
    exact h.setState t _
  · rw [e] at hr
    simp only [Option.some.injEq, Prod.mk.injEq] at hr
    obtain ⟨rfl, rfl, rfl⟩ := hr
    rw [lookup_store, hupd, hid]
    have := h.append_granted t rid type (by rw [hQr]; exact hnot) (by rw [hQr]; exact hc)
    rw [hQr] at this
    exact this
  · rw [e] at hr
    simp only [Option.some.injEq, Prod.mk.injEq] at hr
    obtain ⟨rfl, rfl, rfl⟩ := hr
    rw [lookup_store, hupd, hid, Function.update_eq_self]
    have := h.append_waiting t rid type hw (by rw [hQr]; exact hnot) (by rw [hQr]; exact hup)
    rw [hQr] at this
    exact this

theorem lockTemplate_Inv {w : World} (h : w.Inv) {t : txn_id_t} {rid : RID}
    {type : LockType} {lm1 : LockManager} {txn1 : Transaction} {o : Outcome}
    (hw : w.waiting t = none)
    (hnot : type ≠ LockType.UPGRADING → (w.txns t).state = TransactionState.GROWING →
      w.hasRequest t rid = false)
    (hr : lockTemplate w.lm (w.txns t) rid type = some (lm1, txn1, o)) :
    Inv lm1.lookup (Function.update w.txns t txn1) (sleepOn w.waiting t rid o) := by
  unfold lockTemplate at hr
  by_cases hg : (w.txns t).state = TransactionState.GROWING
  swap
  · simp only [ne_eq, hg, not_false_eq_true, if_true, Option.some.injEq, Prod.mk.injEq] at hr
    obtain ⟨rfl, rfl, rfl⟩ := hr
    exact Inv.setState h t _
  simp only [ne_eq, hg, not_true_eq_false, if_false] at hr
  by_cases hty : type = LockType.UPGRADING
  swap
  · simp only [hty, if_false] at hr
    refine lockTail_Inv h (by rw [Function.update_eq_self]) hw ?_ (fun x => absurd x hty) hr
    have := hnot hty hg
    simp only [World.hasRequest, World.queue, List.any_eq_false] at this
    intro i hi hc
    exact this i hi ((isItemOf_iff t i).2 hc)
  simp only [hty, if_true] at hr
  have hid := h.ids t
  rw [hid] at hr
  by_cases hu : (w.lm.lookup rid).hasUpgrading_ = true
  · simp only [hu, if_true, Option.some.injEq, Prod.mk.injEq] at hr
    obtain ⟨rfl, rfl, rfl⟩ := hr
    rw [lookup_store_self]
    exact Inv.setState h t _
  simp only [hu, Bool.false_eq_true, if_false] at hr
  cases hf : (w.lm.lookup rid).list_.find? (isItemOf t) with
  | none =>
    rw [hf] at hr
    simp only [Option.some.injEq, Prod.mk.injEq] at hr
    obtain ⟨rfl, rfl, rfl⟩ := hr
    rw [lookup_store_self]
    exact Inv.setState h t _
  | some it =>
    rw [hf] at hr
    simp only at hr
    split_ifs at hr with hc
    · simp only [Option.some.injEq, Prod.mk.injEq] at hr
      obtain ⟨rfl, rfl, rfl⟩ := hr
      rw [lookup_store_self]
      exact Inv.setState h t _
    · simp only [Bool.or_eq_true, Bool.not_eq_true', decide_eq_true_eq, not_or,
        Bool.not_eq_false, not_not] at hc
      cases he : eraseHeld (w.txns t) rid true with
      | none => rw [he] at hr; simp at hr
      | some txn2 =>
        rw [he] at hr
        simp only at hr
        have he1 : eraseHeld (w.txns t) rid (decide (it.type_ = LockType.SHARED)) = some txn2 := by
          rw [hc.2]; simpa using he
        have E := Inv.erase h hw hf hid rfl rfl he1
        have hfl : (w.lm.lookup rid).hasUpgrading_ = false := by simpa using hu
        rw [hfl] at E
        have hr1 : lockTail w.lm
            ⟨false, (w.lm.lookup rid).list_.eraseP (isItemOf t)⟩
            (Function.update w.txns t txn2 t) rid LockType.UPGRADING = some (lm1, txn1, o) := by
          simpa using hr
        have := lockTail_Inv E rfl hw
          (fun i hi => not_mem_eraseP_of_nodup (h.queue rid).nodup hi)
          (fun _ => rfl) hr1
        simpa using this

theorem Unlock_Inv {w : World} (h : w.Inv) {t : txn_id_t} {rid : RID}
    {lm1 : LockManager} {txn1 : Transaction} {b : Bool} (hw : w.waiting t = none)
    (hr : Unlock w.lm (w.txns t) rid = some (lm1, txn1, b)) :
    Inv lm1.lookup (Function.update w.txns t txn1) w.waiting := by
  unfold Unlock at hr
  by_cases hc : w.lm.strict_2PL_ = true ∧ (w.txns t).state ≠ TransactionState.ABORTED
      ∧ (w.txns t).state ≠ TransactionState.COMMITTED
  · rw [if_pos hc] at hr
    simp only [Option.some.injEq, Prod.mk.injEq] at hr
    obtain ⟨rfl, rfl, rfl⟩ := hr
    exact Inv.setState h t _
  · rw [if_neg hc] at hr
    dsimp only at hr
    have hid := h.ids t
    rw [hid] at hr
    cases hf : (w.lm.lookup rid).list_.find? (isItemOf t) with
    | none => rw [hf] at hr; simp at hr
    | some it =>
      rw [hf] at hr
      simp only at hr
      generalize htx : (if ¬ w.lm.strict_2PL_ = true ∧
          (w.txns t).state = TransactionState.GROWING then
          (w.txns t).SetState TransactionState.SHRINKING else w.txns t) = txn0 at hr
      have h0 : txn0.txn_id = t ∧ txn0.shared_lock_set = (w.txns t).shared_lock_set ∧
          txn0.exclusive_lock_set = (w.txns t).exclusive_lock_set := by
        rw [← htx]; split_ifs <;> simp [Transaction.SetState, hid]
      cases he : eraseHeld txn0 rid (decide (it.type_ = LockType.SHARED)) with
      | none => rw [he] at hr; simp at hr
      | some txn2 =>
        rw [he] at hr
        simp only at hr
        have E := Inv.erase h hw hf h0.1 h0.2.1 h0.2.2 he
        split_ifs at hr with hemp
        · simp only [Option.some.injEq, Prod.mk.injEq] at hr
          obtain ⟨rfl, rfl, rfl⟩ := hr
          rw [lookup_eraseKey]
          have hq := E.queue rid
          simp only [Function.update_same] at hq
          rw [List.isEmpty_iff] at hemp
          have hfl : (w.lm.lookup rid).hasUpgrading_ = false := by
            have := hq.flag
            simp only [hemp] at this
            simpa using this
          rw [hemp, hfl] at E
          exact E
        · simp only [Option.some.injEq, Prod.mk.injEq] at hr
          obtain ⟨rfl, rfl, rfl⟩ := hr
          rw [lookup_store]
          have := Inv.grant E rid
          simpa using this

theorem step_Inv {w w1 : World} (h : w.Inv) (e : Event) (hs : step w e = some w1) :
    w1.Inv := by
  cases e with
  | LockShared t rid =>
    simp only [step] at hs
    split_ifs at hs with h1 h2
    cases hr : LockShared w.lm (w.txns t) rid with
    | none => rw [hr] at hs; simp [World.afterLock] at hs
    | some r =>
      obtain ⟨lm1, txn1, o⟩ := r
      rw [hr] at hs
      simp only [World.afterLock, Option.some.injEq] at hs
      subst hs
      refine lockTemplate_Inv h (by simpa using h1) ?_ hr
      intro _ hg
      by_contra hc
      exact h2 ⟨hg, by simpa using hc⟩
  | LockExclusive t rid =>
    simp only [step] at hs
    split_ifs at hs with h1 h2
    cases hr : LockExclusive w.lm (w.txns t) rid with
    | none => rw [hr] at hs; simp [World.afterLock] at hs
    | some r =>
      obtain ⟨lm1, txn1, o⟩ := r
      rw [hr] at hs
      simp only [World.afterLock, Option.some.injEq] at hs
      subst hs
      refine lockTemplate_Inv h (by simpa using h1) ?_ hr
      intro _ hg
      by_contra hc
      exact h2 ⟨hg, by simpa using hc⟩
  | LockUpgrade t rid =>
    simp only [step] at hs
    split_ifs at hs with h1
    cases hr : LockUpgrade w.lm (w.txns t) rid with
    | none => rw [hr] at hs; simp [World.afterLock] at hs
    | some r =>
      obtain ⟨lm1, txn1, o⟩ := r
      rw [hr] at hs
      simp only [World.afterLock, Option.some.injEq] at hs
      subst hs
      exact lockTemplate_Inv h (by simpa using h1) (fun x => absurd rfl x) hr
  | Unlock t rid =>
    simp only [step] at hs
    split_ifs at hs with h1
    cases hr : Unlock w.lm (w.txns t) rid with
    | none => rw [hr] at hs; simp at hs
    | some r =>
      obtain ⟨lm1, txn1, b⟩ := r
      rw [hr] at hs
      simp only [Option.some.injEq] at hs
      subst hs
      exact Unlock_Inv h (by simpa using h1) hr
  | Resume t =>
    simp only [step] at hs
    cases hw : w.waiting t with
    | none => rw [hw] at hs; simp at hs
    | some p =>
      obtain ⟨rid, ty⟩ := p
      rw [hw] at hs
      simp only at hs
      cases hf : (w.queue rid).find? (isItemOf t) with
      | none => rw [hf] at hs; simp at hs
      | some it =>
        rw [hf] at hs
        simp only at hs
        split_ifs at hs with hg
        simp only [Option.some.injEq] at hs
        subst hs
        exact Inv.resume h hw hf hg
  | Finish t commit =>
    simp only [step] at hs
    by_cases h1 : (w.waiting t).isSome = true
    · rw [if_pos h1] at hs; simp at hs
    rw [if_neg h1] at hs
    simp only [Option.some.injEq] at hs
    subst hs
    exact Inv.setState h t _

theorem run_Inv {w w1 : World} (h : w.Inv) (es : List Event) (hs : run w es = some w1) :
    w1.Inv := by
  induction es generalizing w with
  | nil =>
    simp only [run, Option.some.injEq] at hs
    subst hs; exact h
  | cons e es ih =>
    simp only [run] at hs
    cases hst : step w e with
    | none => rw [hst] at hs; simp at hs
    | some w2 =>
      rw [hst] at hs
      exact ih (step_Inv h e hst) hs

theorem Reachable.inv {strict : Bool} {w : World} (h : Reachable strict w) : w.Inv := by
  obtain ⟨es, hes⟩ := h
  exact run_Inv (w := World.init strict) Inv.init es hes

/-! ## Transaction states along a run -/

theorem Unlock_not_growing {lm lm1 : LockManager} {txn txn1 : Transaction} {rid : RID}
    {b : Bool} (h : Unlock lm txn rid = some (lm1, txn1, b)) :
    txn1.state ≠ TransactionState.GROWING := by
  unfold Unlock at h
  by_cases hc : lm.strict_2PL_ = true ∧ txn.state ≠ TransactionState.ABORTED
      ∧ txn.state ≠ TransactionState.COMMITTED
  · rw [if_pos hc] at h
    simp only [Option.some.injEq, Prod.mk.injEq] at h
    obtain ⟨_, rfl, _⟩ := h
    simp [Transaction.SetState]
  · rw [if_neg hc] at h
    dsimp only at h
    generalize htx : (if ¬ lm.strict_2PL_ = true ∧ txn.state = TransactionState.GROWING then
        txn.SetState TransactionState.SHRINKING else txn) = txn0 at h
    have h0 : txn0.state ≠ TransactionState.GROWING := by
      rw [← htx]
      split_ifs with h1
      · simp [Transaction.SetState]
      · intro hg
        by_cases hs : lm.strict_2PL_ = true
        · exact hc ⟨hs, by simp [hg], by simp [hg]⟩
        · exact h1 ⟨hs, hg⟩
    cases hf : (lm.lookup rid).list_.find? (isItemOf txn.txn_id) with
    | none => rw [hf] at h; simp at h
    | some it =>
      rw [hf] at h
      dsimp only at h
      cases he : eraseHeld txn0 rid (decide (it.type_ = LockType.SHARED)) with
      | none => rw [he] at h; simp at h
      | some txn2 =>
        rw [he] at h
        dsimp only at h
        have h2 : txn2.state = txn0.state := by
          unfold eraseHeld at he
          split_ifs at he <;> simp only [Option.some.injEq] at he <;> subst he <;> rfl
        split_ifs at h <;> simp only [Option.some.injEq, Prod.mk.injEq] at h <;>
          obtain ⟨_, rfl, _⟩ := h <;> rw [h2] <;> exact h0

theorem lockTemplate_not_growing (lm : LockManager) (txn : Transaction) (rid : RID)
    (type : LockType) (h : txn.state ≠ TransactionState.GROWING) :
    lockTemplate lm txn rid type
      = some (lm, txn.SetState TransactionState.ABORTED, Outcome.returned false) := by
  simp [lockTemplate, h]

theorem step_not_growing {w w1 : World} {t : txn_id_t} (e : Event)
    (h : (w.txns t).state ≠ TransactionState.GROWING) (hs : step w e = some w1) :
    (w1.txns t).state ≠ TransactionState.GROWING := by
  have lockCase : ∀ (t1 : txn_id_t) (rid : RID) (type : LockType),
      w.afterLock t1 rid (lockTemplate w.lm (w.txns t1) rid type) = some w1 →
      (w1.txns t).state ≠ TransactionState.GROWING := by
    intro t1 rid type hs
    by_cases ht : t = t1
    · subst ht
      rw [lockTemplate_not_growing _ _ _ _ h] at hs
      simp only [World.afterLock, Option.some.injEq] at hs
      subst hs
      simp [Transaction.SetState]
    · cases hr : lockTemplate w.lm (w.txns t1) rid type with
      | none => rw [hr] at hs; simp [World.afterLock] at hs
      | some r =>
        rw [hr] at hs
        simp only [World.afterLock, Option.some.injEq] at hs
        subst hs
        simpa [Function.update_apply, ht] using h
  cases e with
  | LockShared t1 rid =>
    simp only [step] at hs
    split_ifs at hs
    exact lockCase t1 rid _ hs
  | LockExclusive t1 rid =>
    simp only [step] at hs
    split_ifs at hs
    exact lockCase t1 rid _ hs
  | LockUpgrade t1 rid =>
    simp only [step] at hs
    split_ifs at hs
    exact lockCase t1 rid _ hs
  | Unlock t1 rid =>
    simp only [step] at hs
    split_ifs at hs
    cases hr : Unlock w.lm (w.txns t1) rid with
    | none => rw [hr] at hs; simp at hs
    | some r =>
      obtain ⟨lm1, txn1, b⟩ := r
      rw [hr] at hs
      simp only [Option.some.injEq] at hs
      subst hs
      by_cases ht : t = t1
      · subst ht
        simpa using Unlock_not_growing hr
      · simpa [Function.update_apply, ht] using h
  | Resume t1 =>
    simp only [step] at hs
    cases hw : w.waiting t1 with
    | none => rw [hw] at hs; simp at hs
    | some p =>
      obtain ⟨rid, ty⟩ := p
      rw [hw] at hs
      dsimp only at hs
      cases hf : (w.queue rid).find? (isItemOf t1) with
      | none => rw [hf] at hs; simp at hs
      | some it =>
        rw [hf] at hs
        dsimp only at hs
        split_ifs at hs
        simp only [Option.some.injEq] at hs
        subst hs
        by_cases ht : t = t1
        · subst ht
          simpa [insertHeld_state] using h
        · simpa [Function.update_apply, ht] using h
  | Finish t1 commit =>
    simp only [step] at hs
    by_cases h1 : (w.waiting t1).isSome = true
    · rw [if_pos h1] at hs; simp at hs
    rw [if_neg h1] at hs
    simp only [Option.some.injEq] at hs
    subst hs
    by_cases ht : t = t1
    · subst ht
      cases commit <;> simp [Transaction.SetState]
    · simpa [Function.update_apply, ht] using h

theorem run_not_growing {w w1 : World} {t : txn_id_t} (es : List Event)
    (h : (w.txns t).state ≠ TransactionState.GROWING) (hs : run w es = some w1) :
    (w1.txns t).state ≠ TransactionState.GROWING := by
  induction es generalizing w with
  | nil =>
    simp only [run, Option.some.injEq] at hs
    subst hs; exact h
  | cons e es ih =>
    simp only [run] at hs
    cases hst : step w e with
    | none => rw [hst] at hs; simp at hs
    | some w2 =>
      rw [hst] at hs
      exact ih (step_not_growing e h hst) hs

theorem step_Unlock_not_growing {w w1 : World} {t : txn_id_t} {rid : RID}
    (hs : step w (Event.Unlock t rid) = some w1) :
    (w1.txns t).state ≠ TransactionState.GROWING := by
  simp only [step] at hs
  split_ifs at hs
  cases hr : Unlock w.lm (w.txns t) rid with
  | none => rw [hr] at hs; simp at hs
  | some r =>
    obtain ⟨lm1, txn1, b⟩ := r
    rw [hr] at hs
    simp only [Option.some.injEq] at hs
    subst hs
    simpa using Unlock_not_growing hr

/-! ## The claims of the specification -/

/-- C1 (I1, mode compatibility of the granted requests) fails: after T9 takes
the EXCLUSIVE lock on rid 0 and T5 (SHARED) and T3 (EXCLUSIVE) queue up, the
grant loop of `Unlock(T9, 0)` grants T5 and then T3 as well, so a SHARED and an
EXCLUSIVE request are granted together. -/
theorem C1_unlock_grants_exclusive_beside_shared :
    ∃ w, run (World.init false)
        [Event.LockExclusive 9 0, Event.LockShared 5 0, Event.LockExclusive 3 0,
          Event.Unlock 9 0] = some w ∧
      w.queue 0 = [⟨5, LockType.SHARED, true⟩, ⟨3, LockType.EXCLUSIVE, true⟩] ∧
      ¬ ModeCompatible (w.queue 0) := by
  refine ⟨_, rfl, ?_, ?_⟩
  · decide
  · decide

/-- C2 (I3, waits flow from older to younger) fails: with T5 and T9 holding
SHARED on rid 0, `LockExclusive(T7, 0)` compares T7 with the tail T9 only and
enqueues T7 behind the older holder T5.  With T7 holding rid 1 the same
calls end in a deadlock: T7 sleeps on rid 0 held by T5, and T5 sleeps on rid 1
held by T7. -/
theorem C2_younger_waits_for_older_holder :
    (∃ w, run (World.init false)
        [Event.LockShared 5 0, Event.LockShared 9 0, Event.LockExclusive 7 0] = some w ∧
      w.queue 0 = [⟨5, LockType.SHARED, true⟩, ⟨9, LockType.SHARED, true⟩,
        ⟨7, LockType.EXCLUSIVE, false⟩] ∧
      w.waiting 7 = some (0, LockType.EXCLUSIVE) ∧
      ¬ WaitsOldToYoung (w.queue 0)) ∧
    (∃ w, run (World.init false)
        [Event.LockExclusive 7 1, Event.LockShared 5 0, Event.LockShared 9 0,
          Event.LockExclusive 7 0, Event.LockShared 5 1] = some w ∧
      w.queue 0 = [⟨5, LockType.SHARED, true⟩, ⟨9, LockType.SHARED, true⟩,
        ⟨7, LockType.EXCLUSIVE, false⟩] ∧
      w.queue 1 = [⟨7, LockType.EXCLUSIVE, true⟩, ⟨5, LockType.SHARED, false⟩] ∧
      w.waiting 7 = some (0, LockType.EXCLUSIVE) ∧
      w.waiting 5 = some (1, LockType.SHARED)) := by
  constructor
  · refine ⟨_, rfl, ?_, ?_, ?_⟩
    · decide
    · decide
    · decide
  · refine ⟨_, rfl, ?_, ?_, ?_, ?_⟩
    · decide
    · decide
    · decide
    · decide

/-- C3 (L1, 2PL legality): once `Unlock(T, r)` has returned true (state `w` to
`w1`; in non-strict mode, and in strict mode as well), after any further
events (`w1` to `w2`) each of `LockShared`,
`LockExclusive` and `LockUpgrade` on T, for any rid, returns false, leaves the
lock manager as it is and changes nothing of T but its state, which is
ABORTED.  More generally every `lockTemplate` call on a transaction that is
not GROWING does so. -/
theorem C3_no_lock_after_unlock (w w1 w2 : World) (t : txn_id_t) (rid : RID)
    (lm1 : LockManager) (txn1 : Transaction) (es : List Event)
    (hret : Unlock w.lm (w.txns t) rid = some (lm1, txn1, true))
    (hstep : step w (Event.Unlock t rid) = some w1)
    (hrun : run w1 es = some w2) :
    (∀ rid1 : RID,
      LockShared w2.lm (w2.txns t) rid1
        = some (w2.lm, (w2.txns t).SetState TransactionState.ABORTED,
            Outcome.returned false) ∧
      LockExclusive w2.lm (w2.txns t) rid1
        = some (w2.lm, (w2.txns t).SetState TransactionState.ABORTED,
            Outcome.returned false) ∧
      LockUpgrade w2.lm (w2.txns t) rid1
        = some (w2.lm, (w2.txns t).SetState TransactionState.ABORTED,
            Outcome.returned false)) ∧
    (w1.lm = lm1 ∧ w1.txns t = txn1) ∧
    (∀ (lm : LockManager) (txn : Transaction) (rid1 : RID) (type : LockType),
      txn.state ≠ TransactionState.GROWING →
      lockTemplate lm txn rid1 type
        = some (lm, txn.SetState TransactionState.ABORTED, Outcome.returned false)) := by
  have hng := run_not_growing es (step_Unlock_not_growing hstep) hrun
  refine ⟨fun rid1 => ⟨?_, ?_, ?_⟩, ?_, ?_⟩
  · exact lockTemplate_not_growing _ _ _ _ hng
  · exact lockTemplate_not_growing _ _ _ _ hng
  · exact lockTemplate_not_growing _ _ _ _ hng
  · simp only [step] at hstep
    split_ifs at hstep
    rw [hret] at hstep
    simp only [Option.some.injEq] at hstep
    subst hstep
    simp
  · intro lm txn rid1 type h
    exact lockTemplate_not_growing lm txn rid1 type h

/-- C3 at work: T1 locks rid 0 SHARED and unlocks it in a non-strict manager;
T2 then locks rid 3; every later lock call of T1 returns false. -/
theorem C3_no_lock_after_unlock_witness :
    (World.after false [Event.LockShared 1 0]).lm.strict_2PL_ = false ∧
    LockExclusive (World.after false [Event.LockShared 1 0, Event.Unlock 1 0,
        Event.LockShared 2 3]).lm
      ((World.after false [Event.LockShared 1 0, Event.Unlock 1 0,
        Event.LockShared 2 3]).txns 1) 7
      = some ((World.after false [Event.LockShared 1 0, Event.Unlock 1 0,
          Event.LockShared 2 3]).lm,
        ((World.after false [Event.LockShared 1 0, Event.Unlock 1 0,
          Event.LockShared 2 3]).txns 1).SetState TransactionState.ABORTED,
        Outcome.returned false) :=
  ⟨rfl, ((C3_no_lock_after_unlock (World.after false [Event.LockShared 1 0])
    (World.after false [Event.LockShared 1 0, Event.Unlock 1 0])
    (World.after false [Event.LockShared 1 0, Event.Unlock 1 0, Event.LockShared 2 3])
    1 0 (World.after false [Event.LockShared 1 0, Event.Unlock 1 0]).lm
    ((World.after false [Event.LockShared 1 0, Event.Unlock 1 0]).txns 1)
    [Event.LockShared 2 3] rfl rfl rfl).1 7).2.1⟩

/-- C4 (L2, strict 2PL): in a strict manager `Unlock` returns true only for a
COMMITTED or ABORTED transaction; for a GROWING or SHRINKING one it returns
false, leaves the lock manager (hence the queue of the rid) as it is and
changes nothing of the transaction but its state, which is ABORTED. -/
theorem C4_strict_unlock (lm : LockManager) (txn : Transaction) (rid : RID)
    (hs : lm.strict_2PL_ = true) :
    (∀ lm1 txn1, Unlock lm txn rid = some (lm1, txn1, true) →
      txn.state = TransactionState.COMMITTED ∨ txn.state = TransactionState.ABORTED) ∧
    (txn.state = TransactionState.GROWING ∨ txn.state = TransactionState.SHRINKING →
      Unlock lm txn rid = some (lm, txn.SetState TransactionState.ABORTED, false) ∧
      (txn.SetState TransactionState.ABORTED).state = TransactionState.ABORTED ∧
      (txn.SetState TransactionState.ABORTED).shared_lock_set = txn.shared_lock_set ∧
      (txn.SetState TransactionState.ABORTED).exclusive_lock_set
        = txn.exclusive_lock_set) := by
  constructor
  · intro lm1 txn1 h
    by_contra hc
    push_neg at hc
    simp [Unlock, hs, hc.1, hc.2] at h
  · intro h
    refine ⟨?_, rfl, rfl, rfl⟩
    rcases h with h | h <;> simp [Unlock, hs, h]

/-- C4 at work: in a strict manager T1 holds SHARED on rid 0 and is GROWING;
`Unlock(T1, 0)` returns false and the queue still holds the request. -/
theorem C4_strict_unlock_witness :
    (World.after true [Event.LockShared 1 0]).lm.strict_2PL_ = true ∧
    ((World.after true [Event.LockShared 1 0]).txns 1).state = TransactionState.GROWING ∧
    Unlock (World.after true [Event.LockShared 1 0]).lm
        ((World.after true [Event.LockShared 1 0]).txns 1) 0
      = some ((World.after true [Event.LockShared 1 0]).lm,
          ((World.after true [Event.LockShared 1 0]).txns 1).SetState
            TransactionState.ABORTED, false) :=
  ⟨rfl, rfl, ((C4_strict_unlock (World.after true [Event.LockShared 1 0]).lm
    ((World.after true [Event.LockShared 1 0]).txns 1) 0 rfl).2 (Or.inl rfl)).1⟩

/-- C5 (I4): in a reachable state, when `Unlock(T, r)` returns true, `r` is in
neither held set of T afterwards and the queue of `r` holds no request of T. -/
theorem C5_unlock_releases (strict : Bool) (w : World) (hreach : Reachable strict w)
    (t : txn_id_t) (rid : RID) (lm1 : LockManager) (txn1 : Transaction)
    (hret : Unlock w.lm (w.txns t) rid = some (lm1, txn1, true)) :
    txn1.shared_lock_set rid = false ∧ txn1.exclusive_lock_set rid = false ∧
    ∀ i ∈ (lm1.lookup rid).list_, i.txnId_ ≠ t := by
  have h := hreach.inv
  have hid := h.ids t
  unfold Unlock at hret
  by_cases hc : w.lm.strict_2PL_ = true ∧ (w.txns t).state ≠ TransactionState.ABORTED
      ∧ (w.txns t).state ≠ TransactionState.COMMITTED
  · rw [if_pos hc] at hret
    simp at hret
  · rw [if_neg hc, hid] at hret
    dsimp only at hret
    generalize htx : (if ¬ w.lm.strict_2PL_ = true ∧
        (w.txns t).state = TransactionState.GROWING then
        (w.txns t).SetState TransactionState.SHRINKING else w.txns t) = txn0 at hret
    have h0 : txn0.shared_lock_set = (w.txns t).shared_lock_set ∧
        txn0.exclusive_lock_set = (w.txns t).exclusive_lock_set := by
      rw [← htx]; split_ifs <;> simp [Transaction.SetState]
    cases hf : (w.lm.lookup rid).list_.find? (isItemOf t) with
    | none => rw [hf] at hret; simp at hret
    | some it =>
      rw [hf] at hret
      dsimp only at hret
      cases he : eraseHeld txn0 rid (decide (it.type_ = LockType.SHARED)) with
      | none => rw [he] at hret; simp at hret
      | some txn2 =>
        rw [he] at hret
        dsimp only at hret
        obtain ⟨_, _, _, _, f5, f6, _⟩ := erase_facts h hf h0.1 h0.2 he
        have hn := (h.queue rid).nodup
        split_ifs at hret with hemp
        · simp only [Option.some.injEq, Prod.mk.injEq, and_true] at hret
          obtain ⟨rfl, rfl⟩ := hret
          refine ⟨f5, f6, ?_⟩
          rw [lookup_eraseKey]
          simp [TxnList.fresh]
        · simp only [Option.some.injEq, Prod.mk.injEq, and_true] at hret
          obtain ⟨rfl, rfl⟩ := hret
          refine ⟨f5, f6, ?_⟩
          rw [lookup_store]
          simp only [Function.update_same]
          intro i hi
          have hm : i.txnId_ ∈ (grantLoop ((w.lm.lookup rid).list_.eraseP (isItemOf t))
              (w.lm.lookup rid).hasUpgrading_).1.map TxnItem.txnId_ :=
            List.mem_map_of_mem _ hi
          rw [grantLoop_ids] at hm
          obtain ⟨j, hj, hji⟩ := List.mem_map.1 hm
          rw [← hji]
          exact not_mem_eraseP_of_nodup hn hj

/-- C5 at work: T1 and T2 hold SHARED on rid 0, the upgrade of T1 waits until
T2 unlocks and is then granted as EXCLUSIVE; after `Unlock(T1, 0)` rid 0 is in
neither held set of T1 and T1 has no request in the queue. -/
theorem C5_unlock_releases_witness :
    ((World.after false [Event.LockShared 1 0, Event.LockShared 2 0,
        Event.LockUpgrade 1 0, Event.Unlock 2 0, Event.Resume 1]).txns 1).exclusive_lock_set 0
      = true ∧
    ((World.after false [Event.LockShared 1 0, Event.LockShared 2 0, Event.LockUpgrade 1 0,
        Event.Unlock 2 0, Event.Resume 1, Event.Unlock 1 0]).txns 1).shared_lock_set 0
      = false ∧
    ((World.after false [Event.LockShared 1 0, Event.LockShared 2 0, Event.LockUpgrade 1 0,
        Event.Unlock 2 0, Event.Resume 1, Event.Unlock 1 0]).txns 1).exclusive_lock_set 0
      = false ∧
    ∀ i ∈ ((World.after false [Event.LockShared 1 0, Event.LockShared 2 0,
        Event.LockUpgrade 1 0, Event.Unlock 2 0, Event.Resume 1,
        Event.Unlock 1 0]).lm.lookup 0).list_, i.txnId_ ≠ 1 :=
  ⟨rfl, C5_unlock_releases false
    (World.after false [Event.LockShared 1 0, Event.LockShared 2 0, Event.LockUpgrade 1 0,
      Event.Unlock 2 0, Event.Resume 1])
    ⟨[Event.LockShared 1 0, Event.LockShared 2 0, Event.LockUpgrade 1 0,
      Event.Unlock 2 0, Event.Resume 1], rfl⟩ 1 0
    (World.after false [Event.LockShared 1 0, Event.LockShared 2 0, Event.LockUpgrade 1 0,
      Event.Unlock 2 0, Event.Resume 1, Event.Unlock 1 0]).lm
    ((World.after false [Event.LockShared 1 0, Event.LockShared 2 0, Event.LockUpgrade 1 0,
      Event.Unlock 2 0, Event.Resume 1, Event.Unlock 1 0]).txns 1) rfl⟩

/-- C6 (wait-die): a GROWING transaction asks for SHARED or EXCLUSIVE on a rid
whose queue cannot grant it at once, and `back` is the tail of the queue.  If
the caller is older than `back`, its request is appended ungranted at the tail,
the caller sleeps and the transaction object is untouched (still GROWING).  If
it is younger, the call returns false, the transaction is ABORTED with its held
sets as before, and every queue and flag is as before. -/
theorem C6_wait_die (lm : LockManager) (txn : Transaction) (rid : RID) (type : LockType)
    (back : TxnItem) (hg : txn.state = TransactionState.GROWING)
    (hty : type = LockType.SHARED ∨ type = LockType.EXCLUSIVE)
    (hc : (lm.lookup rid).checkCanGrant type = false)
    (hb : (lm.lookup rid).list_.getLast? = some back) :
    (txn.txn_id < back.txnId_ →
      ∃ lm1, lockTemplate lm txn rid type = some (lm1, txn, Outcome.blocked type) ∧
        (lm1.lookup rid).list_ = (lm.lookup rid).list_ ++ [⟨txn.txn_id, type, false⟩] ∧
        (lm1.lookup rid).hasUpgrading_ = (lm.lookup rid).hasUpgrading_ ∧
        (∀ r, r ≠ rid → lm1.lookup r = lm.lookup r) ∧
        txn.state = TransactionState.GROWING) ∧
    (back.txnId_ < txn.txn_id →
      ∃ lm1, lockTemplate lm txn rid type
          = some (lm1, txn.SetState TransactionState.ABORTED, Outcome.returned false) ∧
        lm1.lookup = lm.lookup ∧
        (txn.SetState TransactionState.ABORTED).state = TransactionState.ABORTED ∧
        (txn.SetState TransactionState.ABORTED).shared_lock_set = txn.shared_lock_set ∧
        (txn.SetState TransactionState.ABORTED).exclusive_lock_set
          = txn.exclusive_lock_set) := by
  have hnu : type ≠ LockType.UPGRADING := by
    rcases hty with h | h <;> simp [h]
  have hlt : lockTemplate lm txn rid type = lockTail lm (lm.lookup rid) txn rid type := by
    simp [lockTemplate, hg, hnu]
  constructor
  · intro hlt1
    refine ⟨lm.store rid ⟨(lm.lookup rid).hasUpgrading_,
      (lm.lookup rid).list_ ++ [⟨txn.txn_id, type, false⟩]⟩, ?_, ?_, ?_, ?_, hg⟩
    · rw [hlt]
      have hny : ¬ back.txnId_ < txn.txn_id := lt_asymm hlt1
      simp [lockTail, hc, hb, hny, TxnList.insert, hnu]
    · rw [lookup_store]; simp
    · rw [lookup_store]; simp
    · intro r hr
      rw [lookup_store]; simp [Function.update_apply, hr]
  · intro hlt1
    refine ⟨lm.store rid (lm.lookup rid), ?_, lookup_store_self lm rid, rfl, rfl, rfl⟩
    rw [hlt]
    simp [lockTail, hc, hb, hlt1]

/-- C6 at work: T5 holds EXCLUSIVE on rid 0; the older T2 asking for SHARED is
enqueued and sleeps, the younger T8 is aborted. -/
theorem C6_wait_die_witness :
    (∃ lm1, lockTemplate (World.after false [Event.LockExclusive 5 0]).lm
        ((World.after false [Event.LockExclusive 5 0]).txns 2) 0 LockType.SHARED
        = some (lm1, (World.after false [Event.LockExclusive 5 0]).txns 2,
            Outcome.blocked LockType.SHARED) ∧
      (lm1.lookup 0).list_ = [⟨5, LockType.EXCLUSIVE, true⟩, ⟨2, LockType.SHARED, false⟩]) ∧
    (∃ lm1, lockTemplate (World.after false [Event.LockExclusive 5 0]).lm
        ((World.after false [Event.LockExclusive 5 0]).txns 8) 0 LockType.SHARED
        = some (lm1, ((World.after false [Event.LockExclusive 5 0]).txns 8).SetState
            TransactionState.ABORTED, Outcome.returned false) ∧
      (lm1.lookup 0).list_ = [⟨5, LockType.EXCLUSIVE, true⟩]) := by
  constructor
  · obtain ⟨lm1, h1, h2, _⟩ := (C6_wait_die (World.after false [Event.LockExclusive 5 0]).lm
      ((World.after false [Event.LockExclusive 5 0]).txns 2) 0 LockType.SHARED
      ⟨5, LockType.EXCLUSIVE, true⟩ rfl (Or.inl rfl) rfl rfl).1 (by decide)
    exact ⟨lm1, h1, h2⟩
  · obtain ⟨lm1, h1, h2, _⟩ := (C6_wait_die (World.after false [Event.LockExclusive 5 0]).lm
      ((World.after false [Event.LockExclusive 5 0]).txns 8) 0 LockType.SHARED
      ⟨5, LockType.EXCLUSIVE, true⟩ rfl (Or.inl rfl) rfl rfl).2 (by decide)
    exact ⟨lm1, h1, by rw [h2]; rfl⟩

/-- On a queue whose granted requests come first, `checkCanGrant` (which looks
at the tail only) holds exactly when the queue is empty, or every request is
granted and both the new request and the tail are SHARED. -/
theorem checkCanGrant_iff (tl : TxnList) (type : LockType)
    (hp : tl.list_.Pairwise (fun a b => b.granted_ = true → a.granted_ = true)) :
    tl.checkCanGrant type = true ↔
      (tl.list_ = [] ∨ ((∀ i ∈ tl.list_, i.granted_ = true) ∧ type = LockType.SHARED ∧
        ∃ last, tl.list_.getLast? = some last ∧ last.type_ = LockType.SHARED)) := by
  constructor
  · intro hc
    have hall := checkCanGrant_all_granted hp hc
    unfold TxnList.checkCanGrant at hc
    cases hl : tl.list_.getLast? with
    | none => left; exact List.getLast?_eq_none_iff.1 hl
    | some last =>
      right
      rw [hl] at hc
      dsimp only at hc
      split_ifs at hc with hs
      simp only [Bool.and_eq_true, decide_eq_true_eq] at hc
      exact ⟨hall, hs, last, rfl, hc.2⟩
  · rintro (h | ⟨hall, hs, last, hl, hlt⟩)
    · simp [TxnList.checkCanGrant, h]
    · have := hall last (List.mem_of_getLast?_eq_some hl)
      simp [TxnList.checkCanGrant, hl, hs, this, hlt]

/-- A queue that is empty once the first request of a transaction is removed
holds that request only. -/
theorem eq_singleton_of_eraseP_nil {l : List TxnItem} {t : txn_id_t} {it : TxnItem}
    (hf : l.find? (isItemOf t) = some it) (he : l.eraseP (isItemOf t) = []) : l = [it] := by
  cases l with
  | nil => simp at hf
  | cons a l =>
    by_cases ha : isItemOf t a = true
    · rw [List.eraseP_cons_of_pos ha] at he
      rw [List.find?_cons_of_pos _ ha] at hf
      simp only [Option.some.injEq] at hf
      rw [he, hf]
    · rw [List.eraseP_cons_of_neg ha] at he
      exact List.noConfusion he

/-- C7, as stated, fails for a request of mode UPGRADING: T1 holds the only
lock on rid 0, SHARED, and is GROWING.  Its upgrade request arrives at a queue
that is not empty and its mode is not SHARED, so the stated condition is
false; yet `lockTemplate` grants it at once (it returns true without
sleeping). -/
theorem C7_upgrade_granted_on_nonempty_queue :
    Reachable false (World.after false [Event.LockShared 1 0]) ∧
    ((World.after false [Event.LockShared 1 0]).txns 1).state = TransactionState.GROWING ∧
    (World.after false [Event.LockShared 1 0]).queue 0 = [⟨1, LockType.SHARED, true⟩] ∧
    (∃ lm1 txn1, lockTemplate (World.after false [Event.LockShared 1 0]).lm
        ((World.after false [Event.LockShared 1 0]).txns 1) 0 LockType.UPGRADING
      = some (lm1, txn1, Outcome.returned true)) ∧
    ¬ ((World.after false [Event.LockShared 1 0]).queue 0 = [] ∨
        ((∀ i ∈ (World.after false [Event.LockShared 1 0]).queue 0, i.granted_ = true) ∧
          LockType.UPGRADING = LockType.SHARED ∧
          ∃ last, ((World.after false [Event.LockShared 1 0]).queue 0).getLast? = some last ∧
            last.type_ = LockType.SHARED)) ∧
    ¬ ((∃ lm1 txn1, lockTemplate (World.after false [Event.LockShared 1 0]).lm
          ((World.after false [Event.LockShared 1 0]).txns 1) 0 LockType.UPGRADING
        = some (lm1, txn1, Outcome.returned true)) ↔
      ((World.after false [Event.LockShared 1 0]).queue 0 = [] ∨
        ((∀ i ∈ (World.after false [Event.LockShared 1 0]).queue 0, i.granted_ = true) ∧
          LockType.UPGRADING = LockType.SHARED ∧
          ∃ last, ((World.after false [Event.LockShared 1 0]).queue 0).getLast? = some last ∧
            last.type_ = LockType.SHARED))) := by
  have hq : (World.after false [Event.LockShared 1 0]).queue 0
      = [⟨1, LockType.SHARED, true⟩] := by decide
  have hl : ∃ lm1 txn1, lockTemplate (World.after false [Event.LockShared 1 0]).lm
      ((World.after false [Event.LockShared 1 0]).txns 1) 0 LockType.UPGRADING
      = some (lm1, txn1, Outcome.returned true) := ⟨_, _, rfl⟩
  have hr : ¬ ((World.after false [Event.LockShared 1 0]).queue 0 = [] ∨
      ((∀ i ∈ (World.after false [Event.LockShared 1 0]).queue 0, i.granted_ = true) ∧
        LockType.UPGRADING = LockType.SHARED ∧
        ∃ last, ((World.after false [Event.LockShared 1 0]).queue 0).getLast? = some last ∧
          last.type_ = LockType.SHARED)) := by
    rintro (h | ⟨_, h, _⟩)
    · rw [hq] at h
      exact List.noConfusion h
    · exact LockType.noConfusion h
  exact ⟨⟨[Event.LockShared 1 0], rfl⟩, rfl, hq, hl, hr, fun h => hr (h.1 hl)⟩

/-- C7 (grant policy), with the upgrade set apart: in a reachable state a
SHARED or EXCLUSIVE request of a GROWING transaction is granted at once
(`lockTemplate` returns true without sleeping) exactly when the queue of the rid
is empty, or every request in it is granted and the new request and the tail
request are both SHARED.  An upgrade request of an awake GROWING transaction is
granted at once exactly when the queue holds nothing but the granted SHARED
request of that transaction.  The tail-only test `checkCanGrant` agrees with
the all-requests condition for every mode. -/
theorem C7_grant_iff (strict : Bool) (w : World) (hreach : Reachable strict w)
    (rid : RID) (type : LockType) :
    (∀ txn : Transaction, txn.state = TransactionState.GROWING →
      type ≠ LockType.UPGRADING →
      ((∃ lm1 txn1, lockTemplate w.lm txn rid type = some (lm1, txn1, Outcome.returned true)) ↔
        (w.queue rid = [] ∨ ((∀ i ∈ w.queue rid, i.granted_ = true) ∧
          type = LockType.SHARED ∧
          ∃ last, (w.queue rid).getLast? = some last ∧ last.type_ = LockType.SHARED)))) ∧
    (∀ t : txn_id_t, w.waiting t = none →
      (w.txns t).state = TransactionState.GROWING →
      ((∃ lm1 txn1, lockTemplate w.lm (w.txns t) rid LockType.UPGRADING
          = some (lm1, txn1, Outcome.returned true)) ↔
        w.queue rid = [⟨t, LockType.SHARED, true⟩])) ∧
    ((w.lm.lookup rid).checkCanGrant type = true ↔
      (w.queue rid = [] ∨ ((∀ i ∈ w.queue rid, i.granted_ = true) ∧
        type = LockType.SHARED ∧
        ∃ last, (w.queue rid).getLast? = some last ∧ last.type_ = LockType.SHARED))) := by
  have hiff := checkCanGrant_iff (w.lm.lookup rid) type (hreach.inv.queue rid).front
  refine ⟨?_, ?_, hiff⟩
  · intro txn hg hnu
    have hlt : lockTemplate w.lm txn rid type
        = lockTail w.lm (w.lm.lookup rid) txn rid type := by
      simp [lockTemplate, hg, hnu]
    rw [hlt]
    unfold World.queue
    rw [← hiff]
    rcases lockTail_cases w.lm (w.lm.lookup rid) txn rid type with
      ⟨hc, _, e⟩ | ⟨hc, e⟩ | ⟨hc, _, e⟩
    · rw [e, hc]; simp
    · rw [e, hc]; simp
    · rw [e, hc]; simp
  · intro t hw hg
    have h := hreach.inv
    have hid := h.ids t
    unfold World.queue
    constructor
    · rintro ⟨lm1, txn1, e⟩
      unfold lockTemplate at e
      rw [if_neg (by rw [hg]; simp)] at e
      dsimp only at e
      rw [if_pos rfl] at e
      by_cases hf : (w.lm.lookup rid).hasUpgrading_ = true
      · rw [if_pos hf] at e
        simp at e
      · rw [if_neg hf] at e
        cases hfind : (w.lm.lookup rid).list_.find? (isItemOf (w.txns t).txn_id) with
        | none => rw [hfind] at e; simp at e
        | some it =>
          rw [hfind] at e
          dsimp only at e
          by_cases hbad : (!it.granted_ || decide (it.type_ ≠ LockType.SHARED)) = true
          · rw [if_pos hbad] at e
            simp at e
          · rw [if_neg hbad] at e
            cases her : eraseHeld (w.txns t) rid true with
            | none => rw [her] at e; simp at e
            | some txn2 =>
              rw [her] at e
              dsimp only at e
              have hempty : (w.lm.lookup rid).list_.eraseP (isItemOf (w.txns t).txn_id)
                  = [] := by
                rcases lockTail_cases w.lm
                    ⟨(w.lm.lookup rid).hasUpgrading_,
                      (w.lm.lookup rid).list_.eraseP (isItemOf (w.txns t).txn_id)⟩
                    txn2 rid LockType.UPGRADING with
                  ⟨_, _, e1⟩ | ⟨hc, _⟩ | ⟨_, _, e1⟩
                · rw [e1] at e
                  simp at e
                · unfold TxnList.checkCanGrant at hc
                  dsimp only at hc
                  cases hl : ((w.lm.lookup rid).list_.eraseP
                      (isItemOf (w.txns t).txn_id)).getLast? with
                  | none => exact List.getLast?_eq_none_iff.1 hl
                  | some last =>
                    rw [hl] at hc
                    simp at hc
                · rw [e1] at e
                  simp at e
              have hsingle := eq_singleton_of_eraseP_nil hfind hempty
              have hit : it = ⟨t, LockType.SHARED, true⟩ := by
                have h1 : it.txnId_ = t := by
                  have := List.find?_some hfind
                  rw [isItemOf_iff] at this
                  rw [this, hid]
                simp only [Bool.or_eq_true, Bool.not_eq_true', decide_eq_true_eq,
                  not_or, Bool.not_eq_false, not_not] at hbad
                obtain ⟨i, ty, g⟩ := it
                simp only at h1 hbad
                rw [h1, hbad.1, hbad.2]
              rw [hsingle, hit]
    · intro hq
      have hf : (w.lm.lookup rid).hasUpgrading_ = false := by
        cases hfl : (w.lm.lookup rid).hasUpgrading_ with
        | false => rfl
        | true =>
          obtain ⟨i, hi, hty⟩ := (h.queue rid).flag.1 hfl
          rw [hq] at hi
          simp only [List.mem_singleton] at hi
          rw [hi] at hty
          exact LockType.noConfusion hty
      have hsh : (w.txns t).shared_lock_set rid = true := by
        have := h.held rid ⟨t, LockType.SHARED, true⟩ (by rw [hq]; simp) rfl
          (by intro ty hc; simp only at hc; rw [hw] at hc; simp at hc)
        exact this.1 rfl
      refine ⟨w.lm.store rid ⟨false, [⟨t, LockType.EXCLUSIVE, true⟩]⟩,
        insertHeld { (w.txns t) with
          shared_lock_set := Function.update (w.txns t).shared_lock_set rid false } rid
          LockType.EXCLUSIVE, ?_⟩
      simp [lockTemplate, hg, hf, hq, hid, isItemOf, eraseHeld, hsh, lockTail,
        TxnList.checkCanGrant, TxnList.insert]

/-- C7 at work: with T1 and T2 holding SHARED on rid 0, a SHARED request of T3
is granted at once. -/
theorem C7_grant_iff_witness :
    ∃ lm1 txn1, lockTemplate (World.after false [Event.LockShared 1 0,
        Event.LockShared 2 0]).lm
      ((World.after false [Event.LockShared 1 0, Event.LockShared 2 0]).txns 3) 0
      LockType.SHARED = some (lm1, txn1, Outcome.returned true) :=
  ((C7_grant_iff false (World.after false [Event.LockShared 1 0, Event.LockShared 2 0])
    ⟨[Event.LockShared 1 0, Event.LockShared 2 0], rfl⟩ 0 LockType.SHARED).1
    ((World.after false [Event.LockShared 1 0, Event.LockShared 2 0]).txns 3) rfl
    (by decide)).2
    (Or.inr ⟨by decide, rfl, ⟨2, LockType.SHARED, true⟩, rfl, rfl⟩)

/-- C8 (upgrade of the only holder): in a reachable state, when the awake
GROWING transaction T has the only request of the queue of `r`, granted and
SHARED, and `hasUpgrading_` is false, `LockUpgrade(T, r)` returns true without
sleeping; afterwards the queue is the single granted EXCLUSIVE request of T,
`hasUpgrading_` is false, `r` has left the shared set and is in the exclusive
set, and T is still GROWING. -/
theorem C8_upgrade_only_holder (strict : Bool) (w : World) (hreach : Reachable strict w)
    (t : txn_id_t) (rid : RID) (hw : w.waiting t = none)
    (hg : (w.txns t).state = TransactionState.GROWING)
    (hq : w.queue rid = [⟨t, LockType.SHARED, true⟩])
    (hf : w.hasUpgrading rid = false) :
    ∃ lm1 txn1, LockUpgrade w.lm (w.txns t) rid = some (lm1, txn1, Outcome.returned true) ∧
      lm1.lookup rid = ⟨false, [⟨t, LockType.EXCLUSIVE, true⟩]⟩ ∧
      (w.txns t).shared_lock_set rid = true ∧
      txn1.shared_lock_set rid = false ∧ txn1.exclusive_lock_set rid = true ∧
      txn1.state = TransactionState.GROWING := by
  have h := hreach.inv
  have hid := h.ids t
  unfold World.queue at hq
  unfold World.hasUpgrading at hf
  have hsh : (w.txns t).shared_lock_set rid = true := by
    have := h.held rid ⟨t, LockType.SHARED, true⟩ (by rw [hq]; simp) rfl
      (by intro ty hc; simp only at hc; rw [hw] at hc; simp at hc)
    exact this.1 rfl
  refine ⟨w.lm.store rid ⟨false, [⟨t, LockType.EXCLUSIVE, true⟩]⟩,
    insertHeld { (w.txns t) with
      shared_lock_set := Function.update (w.txns t).shared_lock_set rid false } rid
      LockType.EXCLUSIVE, ?_, ?_, hsh, ?_, ?_, ?_⟩
  · simp [LockUpgrade, lockTemplate, hg, hf, hq, hid, isItemOf, eraseHeld, hsh, lockTail,
      TxnList.checkCanGrant, TxnList.insert]
  · rw [lookup_store]; simp
  · simp [insertHeld]
  · simp [insertHeld]
  · simp [insertHeld, hg]

/-- C8 at work: T1 holds the only lock on rid 0, SHARED; its upgrade is granted
at once. -/
theorem C8_upgrade_only_holder_witness :
    ∃ lm1 txn1, LockUpgrade (World.after false [Event.LockShared 1 0]).lm
        ((World.after false [Event.LockShared 1 0]).txns 1) 0
        = some (lm1, txn1, Outcome.returned true) ∧
      lm1.lookup 0 = ⟨false, [⟨1, LockType.EXCLUSIVE, true⟩]⟩ ∧
      ((World.after false [Event.LockShared 1 0]).txns 1).shared_lock_set 0 = true ∧
      txn1.shared_lock_set 0 = false ∧ txn1.exclusive_lock_set 0 = true ∧
      txn1.state = TransactionState.GROWING :=
  C8_upgrade_only_holder false (World.after false [Event.LockShared 1 0])
    ⟨[Event.LockShared 1 0], rfl⟩ 1 0 rfl rfl rfl rfl

/-- C9 (upgrade conflicts): for a GROWING transaction T, `LockUpgrade(T, r)`
returns false and leaves T ABORTED whenever `hasUpgrading_` is set on the queue
of `r` or T has no granted SHARED request in it; every queue and flag and both
held sets of T are as before.  In a reachable state this is the case whenever
an UPGRADING request (the waiting upgrade of another holder) is in the queue. -/
theorem C9_upgrade_rejected (lm : LockManager) (txn : Transaction) (rid : RID)
    (hg : txn.state = TransactionState.GROWING) :
    (((lm.lookup rid).hasUpgrading_ = true ∨
        ¬ ∃ i ∈ (lm.lookup rid).list_, i.txnId_ = txn.txn_id ∧
          i.type_ = LockType.SHARED ∧ i.granted_ = true) →
      ∃ lm1, LockUpgrade lm txn rid
          = some (lm1, txn.SetState TransactionState.ABORTED, Outcome.returned false) ∧
        lm1.lookup = lm.lookup ∧
        (txn.SetState TransactionState.ABORTED).state = TransactionState.ABORTED ∧
        (txn.SetState TransactionState.ABORTED).shared_lock_set = txn.shared_lock_set ∧
        (txn.SetState TransactionState.ABORTED).exclusive_lock_set
          = txn.exclusive_lock_set) ∧
    (∀ (strict : Bool) (w : World), Reachable strict w → w.lm = lm →
      (∃ i ∈ w.queue rid, i.type_ = LockType.UPGRADING) →
      ∃ lm1, LockUpgrade lm txn rid
          = some (lm1, txn.SetState TransactionState.ABORTED, Outcome.returned false) ∧
        lm1.lookup = lm.lookup) := by
  have main : (lm.lookup rid).hasUpgrading_ = true ∨
      (¬ ∃ i ∈ (lm.lookup rid).list_, i.txnId_ = txn.txn_id ∧
        i.type_ = LockType.SHARED ∧ i.granted_ = true) →
      LockUpgrade lm txn rid
        = some (lm.store rid (lm.lookup rid), txn.SetState TransactionState.ABORTED,
            Outcome.returned false) := by
    intro hcase
    by_cases hu : (lm.lookup rid).hasUpgrading_ = true
    · simp [LockUpgrade, lockTemplate, hg, hu]
    · rcases hcase with hcase | hcase
      · exact absurd hcase hu
      · cases hf : (lm.lookup rid).list_.find? (isItemOf txn.txn_id) with
        | none => simp [LockUpgrade, lockTemplate, hg, hu, hf]
        | some it =>
          have hm := List.mem_of_find?_eq_some hf
          have hi := (isItemOf_iff _ _).1 (List.find?_some hf)
          have hbad : (!it.granted_ || decide (it.type_ ≠ LockType.SHARED)) = true := by
            by_contra hc
            simp only [Bool.or_eq_true, Bool.not_eq_true', decide_eq_true_eq, not_or,
              Bool.not_eq_false, not_not, ne_eq] at hc
            exact hcase ⟨it, hm, hi, hc.2, hc.1⟩
          simp only [LockUpgrade, lockTemplate, hg, hf]
          simp only [Bool.or_eq_true, Bool.not_eq_true', decide_eq_true_eq] at hbad
          have hu1 : (lm.lookup rid).hasUpgrading_ = false := by simpa using hu
          simp [hu1]
          intro h1 h2
          rcases hbad with hb | hb
          · rw [h1] at hb; simp at hb
          · exact absurd h2 hb
  constructor
  · intro hcase
    exact ⟨_, main hcase, lookup_store_self lm rid, rfl, rfl, rfl⟩
  · intro strict w hreach hlm hex
    subst hlm
    have hfl := ((hreach.inv.queue rid).flag).2 hex
    exact ⟨_, main (Or.inl hfl), lookup_store_self _ rid⟩

/-- C9 at work: T1 and T2 hold SHARED on rid 0 and the upgrade of T1 is
waiting; the upgrade of T2 is rejected. -/
theorem C9_upgrade_rejected_witness :
    (World.after false [Event.LockShared 1 0, Event.LockShared 2 0,
        Event.LockUpgrade 1 0]).queue 0
      = [⟨2, LockType.SHARED, true⟩, ⟨1, LockType.UPGRADING, false⟩] ∧
    ∃ lm1, LockUpgrade (World.after false [Event.LockShared 1 0, Event.LockShared 2 0,
          Event.LockUpgrade 1 0]).lm
        ((World.after false [Event.LockShared 1 0, Event.LockShared 2 0,
          Event.LockUpgrade 1 0]).txns 2) 0
        = some (lm1, ((World.after false [Event.LockShared 1 0, Event.LockShared 2 0,
            Event.LockUpgrade 1 0]).txns 2).SetState TransactionState.ABORTED,
          Outcome.returned false) ∧
      lm1.lookup = (World.after false [Event.LockShared 1 0, Event.LockShared 2 0,
          Event.LockUpgrade 1 0]).lm.lookup :=
  ⟨by decide, (C9_upgrade_rejected (World.after false [Event.LockShared 1 0,
      Event.LockShared 2 0, Event.LockUpgrade 1 0]).lm
    ((World.after false [Event.LockShared 1 0, Event.LockShared 2 0,
      Event.LockUpgrade 1 0]).txns 2) 0 rfl).2 false
    (World.after false [Event.LockShared 1 0, Event.LockShared 2 0, Event.LockUpgrade 1 0])
    ⟨[Event.LockShared 1 0, Event.LockShared 2 0, Event.LockUpgrade 1 0], rfl⟩ rfl
    ⟨⟨1, LockType.UPGRADING, false⟩, by decide, rfl⟩⟩

/-- C10 (I2): in a reachable state every queue holds at most one UPGRADING
request, and `hasUpgrading_` is true exactly when it holds one. -/
theorem C10_one_upgrading (strict : Bool) (w : World) (hreach : Reachable strict w)
    (rid : RID) :
    (w.queue rid).countP (fun i => decide (i.type_ = LockType.UPGRADING)) ≤ 1 ∧
    (w.hasUpgrading rid = true ↔ ∃ i ∈ w.queue rid, i.type_ = LockType.UPGRADING) :=
  ⟨(hreach.inv.queue rid).upgCount, (hreach.inv.queue rid).flag⟩

/-- C10 at work: while the upgrade of T1 waits behind T2 the flag is set; once
T2 unlocks, the upgrade is granted as EXCLUSIVE and the flag is cleared. -/
theorem C10_one_upgrading_witness :
    ((World.after false [Event.LockShared 1 0, Event.LockShared 2 0,
        Event.LockUpgrade 1 0]).hasUpgrading 0 = true ↔
      ∃ i ∈ (World.after false [Event.LockShared 1 0, Event.LockShared 2 0,
        Event.LockUpgrade 1 0]).queue 0, i.type_ = LockType.UPGRADING) ∧
    ((World.after false [Event.LockShared 1 0, Event.LockShared 2 0,
        Event.LockUpgrade 1 0, Event.Unlock 2 0]).hasUpgrading 0 = true ↔
      ∃ i ∈ (World.after false [Event.LockShared 1 0, Event.LockShared 2 0,
        Event.LockUpgrade 1 0, Event.Unlock 2 0]).queue 0, i.type_ = LockType.UPGRADING) :=
  ⟨(C10_one_upgrading false _
      ⟨[Event.LockShared 1 0, Event.LockShared 2 0, Event.LockUpgrade 1 0], rfl⟩ 0).2,
    (C10_one_upgrading false _
      ⟨[Event.LockShared 1 0, Event.LockShared 2 0, Event.LockUpgrade 1 0,
        Event.Unlock 2 0], rfl⟩ 0).2⟩

/-! ## Order of grants, stranded waiters, failed calls, held sets -/

/-- A list in which no granted request follows an ungranted one is a run of
granted requests followed by a run of ungranted ones. -/
theorem granted_first_split (l : List TxnItem)
    (hp : l.Pairwise (fun a b => b.granted_ = true → a.granted_ = true)) :
    ∃ gs ws, l = gs ++ ws ∧ (∀ i ∈ gs, i.granted_ = true) ∧
      (∀ i ∈ ws, i.granted_ = false) := by
  induction l with
  | nil => exact ⟨[], [], rfl, by simp, by simp⟩
  | cons a l ih =>
    rw [List.pairwise_cons] at hp
    obtain ⟨gs, ws, hl, hgs, hws⟩ := ih hp.2
    by_cases ha : a.granted_ = true
    · refine ⟨a :: gs, ws, by rw [hl]; rfl, ?_, hws⟩
      intro i hi
      rcases List.mem_cons.1 hi with rfl | hi
      · exact ha
      · exact hgs i hi
    · refine ⟨[], a :: l, rfl, by simp, ?_⟩
      intro i hi
      rcases List.mem_cons.1 hi with rfl | hi
      · simpa using ha
      · by_contra hc
        simp only [Bool.not_eq_false] at hc
        exact ha (hp.1 i hi hc)

/-- C17 (grant order is queue order): in a reachable state no granted request
of a queue is positioned after an ungranted one; the queue is a run of granted
requests followed by the ungranted ones. -/
theorem C17_granted_first (strict : Bool) (w : World) (hreach : Reachable strict w)
    (rid : RID) :
    (w.queue rid).Pairwise (fun a b => b.granted_ = true → a.granted_ = true) ∧
    ∃ gs ws, w.queue rid = gs ++ ws ∧ (∀ i ∈ gs, i.granted_ = true) ∧
      (∀ i ∈ ws, i.granted_ = false) :=
  ⟨(hreach.inv.queue rid).front, granted_first_split _ (hreach.inv.queue rid).front⟩

/-- C17 at work: T9 holds EXCLUSIVE on rid 0, T5 and T3 wait behind it. -/
theorem C17_granted_first_witness :
    ∃ gs ws, (World.after false [Event.LockExclusive 9 0, Event.LockShared 5 0,
        Event.LockExclusive 3 0]).queue 0 = gs ++ ws ∧
      (∀ i ∈ gs, i.granted_ = true) ∧ (∀ i ∈ ws, i.granted_ = false) :=
  (C17_granted_first false _ ⟨[Event.LockExclusive 9 0, Event.LockShared 5 0,
    Event.LockExclusive 3 0], rfl⟩ 0).2

/-- C18 (a non-empty queue has a granted head) fails: `lockTemplate` erases the
SHARED request of an upgrading caller before the grant and wait-die tests.
With T5 holding SHARED on rid 0 and the older T3 waiting for EXCLUSIVE,
`LockUpgrade(T5, 0)` is rejected by wait-die and leaves the queue with the
sleeping T3 alone.  With the holders T5 and T9, the waiter T7 and T9 unlocked,
`LockUpgrade(T5, 0)` is enqueued behind T7 and both sleep with no holder. -/
theorem C18_upgrade_strands_waiters :
    (∃ w, run (World.init false)
        [Event.LockShared 5 0, Event.LockExclusive 3 0, Event.LockUpgrade 5 0] = some w ∧
      w.queue 0 = [⟨3, LockType.EXCLUSIVE, false⟩] ∧
      w.waiting 3 = some (0, LockType.EXCLUSIVE) ∧
      (w.txns 5).state = TransactionState.ABORTED ∧
      ¬ HeadGranted (w.queue 0)) ∧
    (∃ w, run (World.init false)
        [Event.LockShared 5 0, Event.LockShared 9 0, Event.LockExclusive 7 0,
          Event.Unlock 9 0, Event.LockUpgrade 5 0] = some w ∧
      w.queue 0 = [⟨7, LockType.EXCLUSIVE, false⟩, ⟨5, LockType.UPGRADING, false⟩] ∧
      w.waiting 7 = some (0, LockType.EXCLUSIVE) ∧
      w.waiting 5 = some (0, LockType.UPGRADING) ∧
      ¬ HeadGranted (w.queue 0)) := by
  constructor
  · refine ⟨_, rfl, ?_, ?_, ?_, ?_⟩
    · decide
    · decide
    · decide
    · decide
  · refine ⟨_, rfl, ?_, ?_, ?_, ?_⟩
    · decide
    · decide
    · decide
    · decide

/-- C19 (failure is atomic) fails for a `LockUpgrade` that wait-die rejects:
with T5 holding SHARED on rid 0 and the older T3 waiting, `LockUpgrade(T5, 0)`
returns false, and the request of T5 has left the queue and rid 0 has left the
shared set of T5. -/
theorem C19_rejected_upgrade_not_atomic :
    ((World.after false [Event.LockShared 5 0, Event.LockExclusive 3 0]).lm.lookup 0).list_
      = [⟨5, LockType.SHARED, true⟩, ⟨3, LockType.EXCLUSIVE, false⟩] ∧
    ((World.after false [Event.LockShared 5 0, Event.LockExclusive 3 0]).txns 5).shared_lock_set 0
      = true ∧
    ∃ lm1 txn1,
      LockUpgrade (World.after false [Event.LockShared 5 0, Event.LockExclusive 3 0]).lm
        ((World.after false [Event.LockShared 5 0, Event.LockExclusive 3 0]).txns 5) 0
        = some (lm1, txn1, Outcome.returned false) ∧
      (lm1.lookup 0).list_ = [⟨3, LockType.EXCLUSIVE, false⟩] ∧
      txn1.shared_lock_set 0 = false ∧
      txn1.state = TransactionState.ABORTED := by
  refine ⟨by decide, by decide, _, _, rfl, ?_, ?_, ?_⟩
  · decide
  · decide
  · decide

/-- C20 (held sets mirror the queue): in a reachable state, for a transaction
T whose request on `r`, if T sleeps on it, is still ungranted (a grant comes
with its held-set insertion), `r` is in the shared set of T exactly when the
queue of `r` has a granted SHARED request of T, and in the exclusive set
exactly when it has a granted EXCLUSIVE request of T.  When T has a granted
request on `r`, `find_if` in `Unlock` finds it, the asserted `erase` removes
one element, and `Unlock` returns: false exactly in the strict early exit. -/
theorem C20_held_sets_mirror_queue (strict : Bool) (w : World)
    (hreach : Reachable strict w) (t : txn_id_t) (rid : RID)
    (hA : ∀ ty, w.waiting t = some (rid, ty) → (⟨t, ty, false⟩ : TxnItem) ∈ w.queue rid) :
    ((w.txns t).shared_lock_set rid = true ↔
      (⟨t, LockType.SHARED, true⟩ : TxnItem) ∈ w.queue rid) ∧
    ((w.txns t).exclusive_lock_set rid = true ↔
      (⟨t, LockType.EXCLUSIVE, true⟩ : TxnItem) ∈ w.queue rid) ∧
    ((∃ i ∈ w.queue rid, i.txnId_ = t ∧ i.granted_ = true) →
      (∃ it, (w.lm.lookup rid).list_.find? (isItemOf (w.txns t).txn_id) = some it ∧
        it.granted_ = true ∧
        (if it.type_ = LockType.SHARED then (w.txns t).shared_lock_set rid
          else (w.txns t).exclusive_lock_set rid) = true) ∧
      ∃ lm1 txn1 b, Unlock w.lm (w.txns t) rid = some (lm1, txn1, b) ∧
        (b = false ↔ (w.lm.strict_2PL_ = true ∧
          (w.txns t).state ≠ TransactionState.ABORTED ∧
          (w.txns t).state ≠ TransactionState.COMMITTED))) := by
  have h := hreach.inv
  have hid := h.ids t
  have hq := h.queue rid
  unfold World.queue at hA ⊢
  have awake : ∀ i ∈ (w.lm.lookup rid).list_, i.txnId_ = t → i.granted_ = true →
      ∀ ty, w.waiting i.txnId_ ≠ some (rid, ty) := by
    intro i hi hit hg ty hc
    rw [hit] at hc
    have := item_eq_of_nodup hq.nodup hi (hA ty hc) hit
    rw [this] at hg; simp at hg
  refine ⟨⟨h.shared t rid, ?_⟩, ⟨h.excl t rid, ?_⟩, ?_⟩
  · intro hm
    exact (h.held rid _ hm rfl (awake _ hm rfl rfl)).1 rfl
  · intro hm
    exact (h.held rid _ hm rfl (awake _ hm rfl rfl)).2 (by simp)
  · rintro ⟨i, hi, hit, hg⟩
    have hheld := h.held rid i hi hg (awake i hi hit hg)
    rw [hit] at hheld
    have hfind : (w.lm.lookup rid).list_.find? (isItemOf (w.txns t).txn_id) = some i := by
      rw [hid, ← hit]; exact find_of_mem hq.nodup hi
    have hset : (if i.type_ = LockType.SHARED then (w.txns t).shared_lock_set rid
        else (w.txns t).exclusive_lock_set rid) = true := by
      split_ifs with hs
      · exact hheld.1 hs
      · exact hheld.2 hs
    refine ⟨⟨i, hfind, hg, hset⟩, ?_⟩
    by_cases hc : w.lm.strict_2PL_ = true ∧ (w.txns t).state ≠ TransactionState.ABORTED
        ∧ (w.txns t).state ≠ TransactionState.COMMITTED
    · exact ⟨w.lm, (w.txns t).SetState TransactionState.ABORTED, false,
        by unfold Unlock; rw [if_pos hc], by simp [hc]⟩
    · have hex : ∃ lm1 txn1, Unlock w.lm (w.txns t) rid = some (lm1, txn1, true) := by
        unfold Unlock
        rw [if_neg hc]
        dsimp only
        rw [hfind]
        dsimp only
        generalize htx : (if ¬ w.lm.strict_2PL_ = true ∧
            (w.txns t).state = TransactionState.GROWING then
            (w.txns t).SetState TransactionState.SHRINKING else w.txns t) = txn0
        have h0 : txn0.shared_lock_set = (w.txns t).shared_lock_set ∧
            txn0.exclusive_lock_set = (w.txns t).exclusive_lock_set := by
          rw [← htx]; split_ifs <;> simp [Transaction.SetState]
        have he : ∃ txn2, eraseHeld txn0 rid (decide (i.type_ = LockType.SHARED))
            = some txn2 := by
          unfold eraseHeld
          by_cases hs : i.type_ = LockType.SHARED
          · simp only [hs, if_true] at hset
            simp [hs, h0.1, hset]
          · simp only [hs, if_false] at hset
            simp [hs, h0.2, hset]
        obtain ⟨txn2, he⟩ := he
        rw [he]
        dsimp only
        split_ifs
        · exact ⟨_, _, rfl⟩
        · exact ⟨_, _, rfl⟩
      obtain ⟨lm1, txn1, hu⟩ := hex
      exact ⟨lm1, txn1, true, hu, by simp [hc]⟩

/-- C20 at work: after the waiting upgrade of T1 has been granted and T1 has
resumed, rid 0 is in the exclusive set of T1, the queue holds its granted
EXCLUSIVE request, and `Unlock(T1, 0)` returns true. -/
theorem C20_held_sets_mirror_queue_witness :
    (((World.after false [Event.LockShared 1 0, Event.LockShared 2 0,
        Event.LockUpgrade 1 0, Event.Unlock 2 0, Event.Resume 1]).txns 1).exclusive_lock_set 0
        = true ↔
      (⟨1, LockType.EXCLUSIVE, true⟩ : TxnItem) ∈
        (World.after false [Event.LockShared 1 0, Event.LockShared 2 0,
          Event.LockUpgrade 1 0, Event.Unlock 2 0, Event.Resume 1]).queue 0) ∧
    (⟨1, LockType.EXCLUSIVE, true⟩ : TxnItem) ∈
        (World.after false [Event.LockShared 1 0, Event.LockShared 2 0,
          Event.LockUpgrade 1 0, Event.Unlock 2 0, Event.Resume 1]).queue 0 :=
  ⟨(C20_held_sets_mirror_queue false
      (World.after false [Event.LockShared 1 0, Event.LockShared 2 0,
        Event.LockUpgrade 1 0, Event.Unlock 2 0, Event.Resume 1])
      ⟨[Event.LockShared 1 0, Event.LockShared 2 0, Event.LockUpgrade 1 0,
        Event.Unlock 2 0, Event.Resume 1], rfl⟩ 1 0
      (fun ty hc => by
        have h1 : (World.after false [Event.LockShared 1 0, Event.LockShared 2 0,
            Event.LockUpgrade 1 0, Event.Unlock 2 0, Event.Resume 1]).waiting 1 = none := rfl
        rw [h1] at hc
        exact Option.noConfusion hc)).2.1, by decide⟩

/-! ## Log manager: LSNs, flusher cycles, rotation -/

theorem wrap32_of_range (x : Int) (h1 : -2147483648 ≤ x) (h2 : x < 2147483648) :
    wrap32 x = x := by
  unfold wrap32
  omega

theorem wrap32_succ (x : Int) : wrap32 (wrap32 x + 1) = wrap32 (x + 1) := by
  unfold wrap32
  omega

theorem appendSerialize_next (lg : LogManager) (r : LogRecord) :
    (appendSerialize lg r).1.next_lsn_ = wrap32 (lg.next_lsn_ + 1) := rfl

theorem appendSerialize_last (lg : LogManager) (r : LogRecord) :
    (appendSerialize lg r).1.lastLsn_ = lg.next_lsn_ := rfl

theorem appendSerialize_offset (lg : LogManager) (r : LogRecord) :
    (appendSerialize lg r).1.logBufferOffset_ = lg.logBufferOffset_ + r.GetSize := rfl

theorem appendSerialize_persistent (lg : LogManager) (r : LogRecord) :
    (appendSerialize lg r).1.persistent_lsn_ = lg.persistent_lsn_ := rfl

theorem appendSerialize_flushSize (lg : LogManager) (r : LogRecord) :
    (appendSerialize lg r).1.flushBufferSize_ = lg.flushBufferSize_ := rfl

theorem appendSerialize_needFlush (lg : LogManager) (r : LogRecord) :
    (appendSerialize lg r).1.needFlush_ = lg.needFlush_ := rfl

theorem appendSerialize_flushBuffer (lg : LogManager) (r : LogRecord) :
    (appendSerialize lg r).1.flush_buffer_ = lg.flush_buffer_ := rfl

theorem appendSerialize_ret (lg : LogManager) (r : LogRecord) :
    (appendSerialize lg r).2 = (lg.next_lsn_, { r with lsn_ := lg.next_lsn_ }) := rfl

/-- The four ways a transition of the log manager can go. -/
theorem logStep_cases {L : Nat} {w w1 : LogWorld} {e : LogEvent}
    (h : logStep L w e = some w1) :
    (∃ r, e = LogEvent.Append r ∧ LogRecord.HEADER_SIZE ≤ r.GetSize ∧
      ¬ w.lg.logBufferOffset_ + r.GetSize < L ∧
      w1 = { w with lg := { w.lg with needFlush_ := true }, sleeping := w.sleeping ++ [r] }) ∨
    (∃ r, (e = LogEvent.Append r ∨ ∃ k, e = LogEvent.Resume k ∧ w.sleeping.get? k = some r) ∧
      (∀ k, e = LogEvent.Resume k → w.sleeping.get? k = some r) ∧
      (e = LogEvent.Append r → LogRecord.HEADER_SIZE ≤ r.GetSize) ∧
      w.lg.logBufferOffset_ + r.GetSize < L ∧
      w1.lg = (appendSerialize w.lg r).1 ∧ w1.disk = w.disk ∧
      w1.returned = w.returned ++ [(appendSerialize w.lg r).2]) ∨
    (e = LogEvent.Cycle ∧ ∃ wr, flushCycle w.lg = some (w1.lg, wr) ∧
      w1.sleeping = w.sleeping ∧ w1.returned = w.returned) ∨
    (∃ force, e = LogEvent.Flush force ∧ w1 = { w with lg := (Flush true w.lg force).1 }) := by
  cases e with
  | Append r =>
    simp only [logStep] at h
    split_ifs at h with hsz
    by_cases hc : w.lg.logBufferOffset_ + r.GetSize ≥ L
    · left
      simp only [AppendLogRecord, hc, if_true, Option.some.injEq] at h
      exact ⟨r, rfl, by omega, by omega, h.symm⟩
    · right; left
      simp only [AppendLogRecord, hc, if_false, Option.some.injEq] at h
      subst h
      refine ⟨r, Or.inl rfl, ?_, ?_, ?_, rfl, rfl, rfl⟩
      · intro k hk
        cases hk
      · intro _
        omega
      · omega
  | Resume k =>
    right; left
    simp only [logStep] at h
    cases hs : w.sleeping.get? k with
    | none => rw [hs] at h; simp at h
    | some r =>
      rw [hs] at h
      dsimp only at h
      unfold AppendLogRecord.resume at h
      split_ifs at h with hc
      simp only [Option.some.injEq] at h
      subst h
      refine ⟨r, Or.inr ⟨k, rfl, hs⟩, ?_, ?_, hc, rfl, rfl, rfl⟩
      · intro k1 hk1
        cases hk1
        exact hs
      · intro hk
        cases hk
  | Cycle =>
    right; right; left
    simp only [logStep] at h
    cases hf : flushCycle w.lg with
    | none => rw [hf] at h; simp at h
    | some p =>
      obtain ⟨lg1, wr⟩ := p
      rw [hf] at h
      cases wr with
      | none =>
        simp only [Option.some.injEq] at h
        subst h
        exact ⟨rfl, none, rfl, rfl, rfl⟩
      | some bytes =>
        simp only [Option.some.injEq] at h
        subst h
        exact ⟨rfl, some bytes, rfl, rfl, rfl⟩
  | Flush force =>
    right; right; right
    simp only [logStep, Option.some.injEq] at h
    exact ⟨force, rfl, h.symm⟩

theorem flushCycle_spec {lg lg1 : LogManager} {wr : Option (List Nat)}
    (h : flushCycle lg = some (lg1, wr)) :
    lg.flushBufferSize_ = 0 ∧ lg1.logBufferOffset_ = 0 ∧ lg1.flushBufferSize_ = 0 ∧
    lg1.needFlush_ = false ∧ lg1.next_lsn_ = lg.next_lsn_ ∧ lg1.lastLsn_ = lg.lastLsn_ ∧
    ((0 < lg.logBufferOffset_ ∧ lg1.persistent_lsn_ = lg.lastLsn_ ∧
        wr = some (firstBytes lg.log_buffer_ lg.logBufferOffset_)) ∨
      (lg.logBufferOffset_ = 0 ∧ lg1.persistent_lsn_ = lg.persistent_lsn_ ∧ wr = none ∧
        lg1.log_buffer_ = lg.log_buffer_ ∧ lg1.flush_buffer_ = lg.flush_buffer_)) := by
  unfold flushCycle at h
  split_ifs at h with h1 h2
  · simp only [Option.some.injEq, Prod.mk.injEq] at h
    obtain ⟨rfl, rfl⟩ := h
    have h0 : lg.flushBufferSize_ = 0 := by simpa using h1
    exact ⟨h0, h0, rfl, rfl, rfl, rfl, Or.inl ⟨h2, rfl, rfl⟩⟩
  · simp only [Option.some.injEq, Prod.mk.injEq] at h
    obtain ⟨rfl, rfl⟩ := h
    have h0 : lg.flushBufferSize_ = 0 := by simpa using h1
    have h3 : lg.logBufferOffset_ = 0 := by omega
    exact ⟨h0, h3, h0, rfl, rfl, rfl, Or.inr ⟨h3, rfl, rfl, rfl, rfl⟩⟩

theorem flushCycle_of_flushZero (lg : LogManager) (h : lg.flushBufferSize_ = 0) :
    ∃ lg1 wr, flushCycle lg = some (lg1, wr) := by
  unfold flushCycle
  split_ifs with h1 h2
  · exact absurd h h1
  · exact ⟨_, _, rfl⟩
  · exact ⟨_, _, rfl⟩

theorem LogInv.start {lg : LogManager} (h : lg.Idle) (hn1 : -2147483648 ≤ lg.next_lsn_)
    (hn2 : lg.next_lsn_ ≤ 2147483647) : LogInv lg.next_lsn_ (LogWorld.start lg) := by
  obtain ⟨h1, h2, h3, h4⟩ := h
  refine ⟨h2, ?_, le_of_eq h3, ?_, fun _ => le_of_eq h3.symm, by simp [LogWorld.start],
    by simp [LogWorld.start]⟩
  · have e : wrap32 lg.next_lsn_ = lg.next_lsn_ :=
      wrap32_of_range lg.next_lsn_ hn1 (Int.lt_of_le_sub_one hn2)
    simp [LogWorld.start, e]
  · simpa [LogWorld.start] using h4

/-- The list of returned calls only grows by a transition. -/
theorem logStep_returned_length {L : Nat} {w w1 : LogWorld} {e : LogEvent}
    (h : logStep L w e = some w1) : w.returned.length ≤ w1.returned.length := by
  rcases logStep_cases h with ⟨r, _, _, _, rfl⟩ | ⟨r, _, _, _, _, _, _, hret⟩ |
    ⟨_, wr, _, _, hret⟩ | ⟨force, _, rfl⟩
  · exact le_refl _
  · rw [hret]; simp
  · rw [hret]
  · exact le_refl _

/-- The list of returned calls only grows along a run. -/
theorem logRun_returned_length {L : Nat} (es : List LogEvent) :
    ∀ {w w1 : LogWorld}, logRun L w es = some w1 →
      w.returned.length ≤ w1.returned.length := by
  induction es with
  | nil =>
    intro w w1 h
    simp only [logRun, Option.some.injEq] at h
    subst h; exact le_refl _
  | cons e es ih =>
    intro w w1 h
    simp only [logRun] at h
    cases hs : logStep L w e with
    | none => rw [hs] at h; simp at h
    | some w2 =>
      rw [hs] at h
      exact le_trans (logStep_returned_length hs) (ih h)

/-- The value the 32-bit counter holds while the LSNs assigned so far stay at
or below `2147483647`. -/
theorem wrap32_below (n : Int) (k m : Nat) (hn : -2147483648 ≤ n) (hk : k < m)
    (hb : n + (m : Int) ≤ 2147483648) : wrap32 (n + (k : Int)) = n + (k : Int) := by
  apply wrap32_of_range
  · omega
  · omega

theorem LogInv.step {L : Nat} {n : lsn_t} {w w1 : LogWorld} {e : LogEvent} (hi : LogInv n w)
    (hn : -2147483648 ≤ n) (h : logStep L w e = some w1)
    (hb : n + (w1.returned.length : Int) ≤ 2147483648) :
    LogInv n w1 ∧ w.lg.persistent_lsn_ ≤ w1.lg.persistent_lsn_ ∧
    (∀ p ∈ w.returned, p ∈ w1.returned) := by
  rcases logStep_cases h with ⟨r, _, hsz, _, rfl⟩ | ⟨r, hr, hk, hsz, _, hlg, _, hret⟩ |
    ⟨_, wr, hf, hsl, hret⟩ | ⟨force, _, rfl⟩
  · refine ⟨⟨hi.flushZero, hi.next_eq, hi.persist_le, hi.last_lt, hi.caughtUp,
      hi.returned_le, ?_⟩, le_refl _, fun p hp => hp⟩
    intro x hx
    rcases List.mem_append.1 hx with hx | hx
    · exact hi.sleepers x hx
    · simp only [List.mem_singleton] at hx
      rw [hx]; exact hsz
  · have hsize : LogRecord.HEADER_SIZE ≤ r.GetSize := by
      rcases hr with hr | ⟨k, _, hk1⟩
      · exact hsz hr
      · exact hi.sleepers r (List.get?_mem hk1)
    have hsl : ∀ x ∈ w1.sleeping, LogRecord.HEADER_SIZE ≤ x.GetSize := by
      intro x hx
      cases e with
      | Append r1 =>
        simp only [logStep] at h
        split_ifs at h
        unfold AppendLogRecord at h
        split_ifs at h
        · simp only [Option.some.injEq] at h
          subst h
          rcases List.mem_append.1 hx with hx | hx
          · exact hi.sleepers x hx
          · simp only [List.mem_singleton] at hx
            rw [hx]; omega
        · simp only [Option.some.injEq] at h
          subst h
          exact hi.sleepers x hx
      | Resume k =>
        simp only [logStep] at h
        rw [hk k rfl] at h
        dsimp only at h
        cases hres : AppendLogRecord.resume L w.lg r with
        | none => rw [hres] at h; simp at h
        | some q =>
          rw [hres] at h
          simp only [Option.some.injEq] at h
          subst h
          exact hi.sleepers x (List.mem_of_mem_eraseIdx hx)
      | Cycle => rcases hr with hr | ⟨k, hr, _⟩ <;> cases hr
      | Flush f => rcases hr with hr | ⟨k, hr, _⟩ <;> cases hr
    have hlen : w1.returned.length = w.returned.length + 1 := by
      rw [hret]; simp
    have hnext : w.lg.next_lsn_ = n + (w.returned.length : Int) := by
      rw [hi.next_eq]
      refine wrap32_below n w.returned.length w1.returned.length hn ?_ hb
      omega
    refine ⟨⟨?_, ?_, ?_, ?_, ?_, ?_, hsl⟩, ?_, ?_⟩
    · rw [hlg, appendSerialize_flushSize]; exact hi.flushZero
    · rw [hlg, appendSerialize_next, hi.next_eq, wrap32_succ, hlen]
      congr 1
      push_cast
      ring
    · rw [hlg, appendSerialize_persistent, appendSerialize_last, hnext]
      exact le_of_lt (lt_of_le_of_lt hi.persist_le hi.last_lt)
    · rw [hlg, appendSerialize_last, hnext, hlen]
      push_cast
      linarith
    · rw [hlg, appendSerialize_offset]
      intro h0
      unfold LogRecord.HEADER_SIZE at hsize
      omega
    · intro p hp
      rw [hlg, appendSerialize_last]
      rw [hret] at hp
      rcases List.mem_append.1 hp with hp | hp
      · rw [hnext]
        exact le_of_lt (lt_of_le_of_lt (hi.returned_le p hp) hi.last_lt)
      · simp only [List.mem_singleton] at hp
        rw [hp, appendSerialize_ret]
    · rw [hlg, appendSerialize_persistent]
    · intro p hp
      rw [hret]; exact List.mem_append_left _ hp
  · obtain ⟨_, s2, s3, _, s5, s6, s7⟩ := flushCycle_spec hf
    refine ⟨⟨s3, by rw [s5, hret]; exact hi.next_eq, ?_, by rw [s6, hret]; exact hi.last_lt,
      ?_, ?_, by rw [hsl]; exact hi.sleepers⟩,
      ?_, by rw [hret]; exact fun p hp => hp⟩
    · rcases s7 with ⟨_, hp, _⟩ | ⟨_, hp, _⟩
      · rw [hp, s6]
      · rw [hp, s6]; exact hi.persist_le
    · intro _
      rcases s7 with ⟨_, hp, _⟩ | ⟨h0, hp, _⟩
      · rw [hp, s6]
      · rw [hp, s6]; exact hi.caughtUp h0
    · intro p hp
      rw [s6]; rw [hret] at hp; exact hi.returned_le p hp
    · rcases s7 with ⟨_, hp, _⟩ | ⟨_, hp, _⟩
      · rw [hp]; exact hi.persist_le
      · rw [hp]
  · refine ⟨⟨?_, ?_, ?_, ?_, ?_, ?_, hi.sleepers⟩, ?_, fun p hp => hp⟩
    all_goals (unfold Flush; split_ifs)
    all_goals first
      | exact hi.flushZero
      | exact hi.next_eq
      | exact hi.persist_le
      | exact hi.last_lt
      | exact hi.caughtUp
      | exact hi.returned_le
      | exact le_refl _

theorem LogInv.run {L : Nat} {n : lsn_t} {w w1 : LogWorld} (hi : LogInv n w)
    (hn : -2147483648 ≤ n) (es : List LogEvent) (h : logRun L w es = some w1)
    (hb : n + (w1.returned.length : Int) ≤ 2147483648) :
    LogInv n w1 ∧ w.lg.persistent_lsn_ ≤ w1.lg.persistent_lsn_ ∧
    (∀ p ∈ w.returned, p ∈ w1.returned) := by
  induction es generalizing w with
  | nil =>
    simp only [logRun, Option.some.injEq] at h
    subst h
    exact ⟨hi, le_refl _, fun p hp => hp⟩
  | cons e es ih =>
    simp only [logRun] at h
    cases hs : logStep L w e with
    | none => rw [hs] at h; simp at h
    | some w2 =>
      rw [hs] at h
      have hlen := logRun_returned_length es h
      have hb2 : n + (w2.returned.length : Int) ≤ 2147483648 := by
        have : (w2.returned.length : Int) ≤ (w1.returned.length : Int) := by exact_mod_cast hlen
        linarith
      obtain ⟨a1, a2, a3⟩ := hi.step hn hs hb2
      obtain ⟨b1, b2, b3⟩ := ih a1 h
      exact ⟨b1, le_trans a2 b2, fun p hp => b3 p (a3 p hp)⟩

theorem cycle_covers_returned {n : lsn_t} {w : LogWorld} (hi : LogInv n w) {lg1 : LogManager}
    {wr : Option (List Nat)} (hf : flushCycle w.lg = some (lg1, wr)) :
    ∀ p ∈ w.returned, p.1 ≤ lg1.persistent_lsn_ := by
  intro p hp
  obtain ⟨_, _, _, _, _, _, s7⟩ := flushCycle_spec hf
  have h1 := hi.returned_le p hp
  rcases s7 with ⟨_, hpl, _⟩ | ⟨h0, hpl, _⟩
  · rw [hpl]; exact h1
  · rw [hpl]; exact le_trans h1 (hi.caughtUp h0)

/-- A forced `Flush` returns only after a flusher cycle, which covers every
LSN returned before the call. -/
theorem flush_wait {L : Nat} {n : lsn_t} (hn : -2147483648 ≤ n)
    (R : List (lsn_t × LogRecord)) (es : List LogEvent) :
    ∀ (w w1 : LogWorld), LogInv n w → (∀ p ∈ R, p ∈ w.returned) → w.lg.needFlush_ = true →
      logRun L w es = some w1 → n + (w1.returned.length : Int) ≤ 2147483648 →
      w1.lg.needFlush_ = false →
      ∀ p ∈ R, p.1 ≤ w1.lg.persistent_lsn_ := by
  induction es with
  | nil =>
    intro w w1 _ _ hnf h _ hn1
    simp only [logRun, Option.some.injEq] at h
    subst h
    rw [hnf] at hn1; simp at hn1
  | cons e es ih =>
    intro w w1 hi hR hnf h hb hn1
    simp only [logRun] at h
    cases hs : logStep L w e with
    | none => rw [hs] at h; simp at h
    | some w2 =>
      rw [hs] at h
      have hlen := logRun_returned_length es h
      have hb2 : n + (w2.returned.length : Int) ≤ 2147483648 := by
        have : (w2.returned.length : Int) ≤ (w1.returned.length : Int) := by exact_mod_cast hlen
        linarith
      obtain ⟨a1, _, a3⟩ := hi.step hn hs hb2
      have hR2 : ∀ p ∈ R, p ∈ w2.returned := fun p hp => a3 p (hR p hp)
      rcases logStep_cases hs with ⟨r, _, _, _, hw⟩ | ⟨r, _, _, _, _, hlg, _, _⟩ |
        ⟨_, wr, hf, _, _⟩ | ⟨force, _, hw⟩
      · exact ih w2 w1 a1 hR2 (by rw [hw]) h hb hn1
      · exact ih w2 w1 a1 hR2 (by rw [hlg, appendSerialize_needFlush]; exact hnf) h hb hn1
      · intro p hp
        have h1 := cycle_covers_returned hi hf p (hR p hp)
        exact le_trans h1 (a1.run hn es h hb).2.1
      · refine ih w2 w1 a1 hR2 ?_ h hb hn1
        rw [hw]
        unfold Flush
        split_ifs
        · rfl
        · exact hnf

/-- C11, as stated, fails on the 32-bit LSN counter: from an idle log manager
with `next_lsn = 2147483647` a record is appended (it gets the LSN
`2147483647`) and a flusher cycle completes, leaving `persistent_lsn =
2147483647`; a second record is appended (the counter has wrapped: it gets
`-2147483648`) and a second cycle completes.  After it `persistent_lsn` is
`-2147483648`: it has decreased, and the LSN `2147483647` that the first call
returned before the cycle is above it. -/
theorem C11_persistent_lsn_falls_at_wrap :
    (LogManager.fresh 2147483647 2147483646 0).Idle ∧
    (LogWorld.after 64 (LogManager.fresh 2147483647 2147483646 0)
      [LogEvent.Append (LogRecord.headerOnly LogRecordType.BEGIN 7 (-1)),
       LogEvent.Cycle]).lg.persistent_lsn_ = 2147483647 ∧
    logRun 64 (LogWorld.start (LogManager.fresh 2147483647 2147483646 0))
        [LogEvent.Append (LogRecord.headerOnly LogRecordType.BEGIN 7 (-1)),
         LogEvent.Cycle,
         LogEvent.Append (LogRecord.headerOnly LogRecordType.COMMIT 7 2147483647)]
      = some (LogWorld.after 64 (LogManager.fresh 2147483647 2147483646 0)
        [LogEvent.Append (LogRecord.headerOnly LogRecordType.BEGIN 7 (-1)),
         LogEvent.Cycle,
         LogEvent.Append (LogRecord.headerOnly LogRecordType.COMMIT 7 2147483647)]) ∧
    logStep 64 (LogWorld.after 64 (LogManager.fresh 2147483647 2147483646 0)
        [LogEvent.Append (LogRecord.headerOnly LogRecordType.BEGIN 7 (-1)),
         LogEvent.Cycle,
         LogEvent.Append (LogRecord.headerOnly LogRecordType.COMMIT 7 2147483647)])
        LogEvent.Cycle
      = some (LogWorld.after 64 (LogManager.fresh 2147483647 2147483646 0)
        [LogEvent.Append (LogRecord.headerOnly LogRecordType.BEGIN 7 (-1)),
         LogEvent.Cycle,
         LogEvent.Append (LogRecord.headerOnly LogRecordType.COMMIT 7 2147483647),
         LogEvent.Cycle]) ∧
    ((2147483647 : lsn_t),
        (⟨20, 2147483647, 7, -1, LogRecordType.BEGIN, 0, ⟨[]⟩, ⟨[]⟩, ⟨[]⟩, 0, 0⟩ : LogRecord))
      ∈ (LogWorld.after 64 (LogManager.fresh 2147483647 2147483646 0)
        [LogEvent.Append (LogRecord.headerOnly LogRecordType.BEGIN 7 (-1)),
         LogEvent.Cycle,
         LogEvent.Append (LogRecord.headerOnly LogRecordType.COMMIT 7 2147483647)]).returned ∧
    (LogWorld.after 64 (LogManager.fresh 2147483647 2147483646 0)
        [LogEvent.Append (LogRecord.headerOnly LogRecordType.BEGIN 7 (-1)),
         LogEvent.Cycle,
         LogEvent.Append (LogRecord.headerOnly LogRecordType.COMMIT 7 2147483647),
         LogEvent.Cycle]).lg.persistent_lsn_ = -2147483648 ∧
    ¬ ((2147483647 : lsn_t) ≤ (LogWorld.after 64 (LogManager.fresh 2147483647 2147483646 0)
        [LogEvent.Append (LogRecord.headerOnly LogRecordType.BEGIN 7 (-1)),
         LogEvent.Cycle,
         LogEvent.Append (LogRecord.headerOnly LogRecordType.COMMIT 7 2147483647),
         LogEvent.Cycle]).lg.persistent_lsn_) ∧
    ¬ ((LogWorld.after 64 (LogManager.fresh 2147483647 2147483646 0)
        [LogEvent.Append (LogRecord.headerOnly LogRecordType.BEGIN 7 (-1)),
         LogEvent.Cycle]).lg.persistent_lsn_
      ≤ (LogWorld.after 64 (LogManager.fresh 2147483647 2147483646 0)
        [LogEvent.Append (LogRecord.headerOnly LogRecordType.BEGIN 7 (-1)),
         LogEvent.Cycle,
         LogEvent.Append (LogRecord.headerOnly LogRecordType.COMMIT 7 2147483647),
         LogEvent.Cycle]).lg.persistent_lsn_) :=
  ⟨⟨rfl, rfl, rfl, by decide⟩, rfl, rfl, rfl, by decide, rfl, by decide, by decide⟩

/-- C11 (I5, durability watermark), for LSNs that stay within 32 bits: after a
run from an idle log manager in which every LSN assigned is at most
`2147483647` (the first LSN plus the number of returned calls is at most
`2147483648`), a flusher cycle completes; after it every LSN returned by an
earlier `AppendLogRecord` call is at most `persistent_lsn`, both buffers are
empty and `needFlush_` is false.  `persistent_lsn` never decreases along a
continuation of the run that stays within the bound, and when a forced `Flush`
(logging enabled) returns in such a continuation, every LSN returned before the
call is at most `persistent_lsn`. -/
theorem C11_flush_durability (L : Nat) (lg0 : LogManager) (hidle : lg0.Idle)
    (hn1 : -2147483648 ≤ lg0.next_lsn_) (hn2 : lg0.next_lsn_ ≤ 2147483647)
    (es : List LogEvent) (w1 : LogWorld)
    (hrun : logRun L (LogWorld.start lg0) es = some w1)
    (hb : lg0.next_lsn_ + (w1.returned.length : Int) ≤ 2147483648) :
    (∃ w2, logStep L w1 LogEvent.Cycle = some w2 ∧
      (∀ p ∈ w1.returned, p.1 ≤ w2.lg.persistent_lsn_) ∧
      w2.lg.logBufferOffset_ = 0 ∧ w2.lg.flushBufferSize_ = 0 ∧
      w2.lg.needFlush_ = false) ∧
    (∀ es2 w3, logRun L w1 es2 = some w3 →
      lg0.next_lsn_ + (w3.returned.length : Int) ≤ 2147483648 →
      w1.lg.persistent_lsn_ ≤ w3.lg.persistent_lsn_) ∧
    (∀ es2 w3, logRun L w1 (LogEvent.Flush true :: es2) = some w3 →
      lg0.next_lsn_ + (w3.returned.length : Int) ≤ 2147483648 →
      w3.lg.needFlush_ = false → ∀ p ∈ w1.returned, p.1 ≤ w3.lg.persistent_lsn_) := by
  have hi := ((LogInv.start hidle hn1 hn2).run hn1 es hrun hb).1
  refine ⟨?_, ?_, ?_⟩
  · obtain ⟨lg1, wr, hf⟩ := flushCycle_of_flushZero w1.lg hi.flushZero
    obtain ⟨_, s2, s3, s4, _⟩ := flushCycle_spec hf
    have hcov := cycle_covers_returned hi hf
    cases wr with
    | none =>
      exact ⟨{ w1 with lg := lg1 }, by simp [logStep, hf], hcov, s2, s3, s4⟩
    | some bytes =>
      exact ⟨{ w1 with lg := lg1, disk := w1.disk ++ [bytes] }, by simp [logStep, hf],
        hcov, s2, s3, s4⟩
  · intro es2 w3 h hb3
    exact (hi.run hn1 es2 h hb3).2.1
  · intro es2 w3 h hb3 hnf
    simp only [logRun] at h
    cases hs : logStep L w1 (LogEvent.Flush true) with
    | none => rw [hs] at h; simp at h
    | some w2 =>
      rw [hs] at h
      have hw2 : w2.returned = w1.returned := by
        simp only [logStep, Option.some.injEq] at hs
        subst hs
        rfl
      obtain ⟨a1, _, a3⟩ := hi.step hn1 hs (by rw [hw2]; exact hb)
      have hn2 : w2.lg.needFlush_ = true := by
        simp only [logStep, Option.some.injEq] at hs
        subst hs
        simp [Flush]
      exact flush_wait hn1 w1.returned es2 w2 w3 a1 a3 hn2 h hb3 hnf

/-- C11 at work: two records are appended, a forced `Flush` is called and the
flusher runs one cycle; `persistent_lsn` then covers the LSN 1 that the second
append returned. -/
theorem C11_flush_durability_witness :
    (1 : lsn_t) ≤ (LogWorld.after 64 (LogManager.fresh 0 (-1) 0)
        [LogEvent.Append (LogRecord.headerOnly LogRecordType.BEGIN 7 (-1)),
         LogEvent.Append (LogRecord.headerOnly LogRecordType.COMMIT 7 0),
         LogEvent.Flush true, LogEvent.Cycle]).lg.persistent_lsn_ :=
  (C11_flush_durability 64 (LogManager.fresh 0 (-1) 0) ⟨rfl, rfl, rfl, by decide⟩
    (by decide) (by decide)
    [LogEvent.Append (LogRecord.headerOnly LogRecordType.BEGIN 7 (-1)),
     LogEvent.Append (LogRecord.headerOnly LogRecordType.COMMIT 7 0)]
    (LogWorld.after 64 (LogManager.fresh 0 (-1) 0)
      [LogEvent.Append (LogRecord.headerOnly LogRecordType.BEGIN 7 (-1)),
       LogEvent.Append (LogRecord.headerOnly LogRecordType.COMMIT 7 0)])
    rfl (by decide)).2.2 [LogEvent.Cycle]
    (LogWorld.after 64 (LogManager.fresh 0 (-1) 0)
      [LogEvent.Append (LogRecord.headerOnly LogRecordType.BEGIN 7 (-1)),
       LogEvent.Append (LogRecord.headerOnly LogRecordType.COMMIT 7 0),
       LogEvent.Flush true, LogEvent.Cycle])
    rfl (by decide) rfl
    ((1 : lsn_t), ⟨20, 1, 7, 0, LogRecordType.COMMIT, 0, ⟨[]⟩, ⟨[]⟩, ⟨[]⟩, 0, 0⟩)
    (by decide)

/-- What every transition keeps of the 32-bit LSN counters: `next_lsn` is the
first LSN plus the number of returned calls, brought into the 32-bit range;
the `k`-th returned call carries the first LSN plus `k`, brought into the
32-bit range; `lastLsn_` is the LSN of the last returned call. -/
theorem lsn_step {L : Nat} {n : lsn_t} {w w1 : LogWorld} {e : LogEvent}
    (h : logStep L w e = some w1)
    (h1 : w.lg.next_lsn_ = wrap32 (n + w.returned.length))
    (h2 : ∀ (k : Nat) (p : lsn_t × LogRecord), w.returned[k]? = some p →
      p.1 = wrap32 (n + k) ∧ p.2.lsn_ = wrap32 (n + k))
    (h3 : w.returned ≠ [] → w.lg.lastLsn_ = wrap32 (n + w.returned.length - 1)) :
    w1.lg.next_lsn_ = wrap32 (n + w1.returned.length) ∧
    (∀ (k : Nat) (p : lsn_t × LogRecord), w1.returned[k]? = some p →
      p.1 = wrap32 (n + k) ∧ p.2.lsn_ = wrap32 (n + k)) ∧
    (w1.returned ≠ [] → w1.lg.lastLsn_ = wrap32 (n + w1.returned.length - 1)) := by
  rcases logStep_cases h with ⟨r, _, _, _, rfl⟩ | ⟨r, _, _, _, _, hlg, _, hret⟩ |
    ⟨_, wr, hf, _, hret⟩ | ⟨force, _, rfl⟩
  · exact ⟨h1, h2, h3⟩
  · refine ⟨?_, ?_, ?_⟩
    · rw [hlg, hret, appendSerialize_next, h1, wrap32_succ]
      simp only [List.length_append, List.length_singleton]
      congr 1
      push_cast
      ring
    · intro k p hk
      rw [hret] at hk
      by_cases hlt : k < w.returned.length
      · rw [List.getElem?_append_left hlt] at hk
        exact h2 k p hk
      · have hge : w.returned.length ≤ k := by omega
        rw [List.getElem?_append_right hge] at hk
        have hk0 : k - w.returned.length = 0 := by
          by_contra hc
          obtain ⟨m, hm⟩ := Nat.exists_eq_succ_of_ne_zero hc
          rw [hm] at hk
          simp at hk
        rw [hk0] at hk
        simp only [List.getElem?_cons_zero, Option.some.injEq] at hk
        have hkeq : (k : Int) = w.returned.length := by omega
        rw [← hk, appendSerialize_ret, h1, hkeq]
        exact ⟨rfl, rfl⟩
    · intro _
      rw [hlg, hret, appendSerialize_last, h1]
      simp only [List.length_append, List.length_singleton]
      congr 1
      push_cast
      ring
  · obtain ⟨_, _, _, _, s5, s6, _⟩ := flushCycle_spec hf
    rw [s5, s6, hret]
    exact ⟨h1, h2, h3⟩
  · refine ⟨?_, h2, ?_⟩
    · unfold Flush; split_ifs <;> exact h1
    · unfold Flush; split_ifs <;> exact h3

/-- The LSN counters along a run: see `lsn_step`. -/
theorem lsn_run {L : Nat} {n : lsn_t} (es : List LogEvent) : ∀ (w0 w : LogWorld),
    logRun L w0 es = some w →
    (w0.lg.next_lsn_ = wrap32 (n + w0.returned.length) ∧
      (∀ (k : Nat) (p : lsn_t × LogRecord), w0.returned[k]? = some p →
        p.1 = wrap32 (n + k) ∧ p.2.lsn_ = wrap32 (n + k)) ∧
      (w0.returned ≠ [] → w0.lg.lastLsn_ = wrap32 (n + w0.returned.length - 1))) →
    (w.lg.next_lsn_ = wrap32 (n + w.returned.length) ∧
      (∀ (k : Nat) (p : lsn_t × LogRecord), w.returned[k]? = some p →
        p.1 = wrap32 (n + k) ∧ p.2.lsn_ = wrap32 (n + k)) ∧
      (w.returned ≠ [] → w.lg.lastLsn_ = wrap32 (n + w.returned.length - 1))) := by
  induction es with
  | nil =>
    intro w0 w h hp
    simp only [logRun, Option.some.injEq] at h
    subst h; exact hp
  | cons e es ih =>
    intro w0 w h hp
    simp only [logRun] at h
    cases hs : logStep L w0 e with
    | none => rw [hs] at h; simp at h
    | some w2 =>
      rw [hs] at h
      exact ih w2 w h (lsn_step hs hp.1 hp.2.1 hp.2.2)

/-- C12, as stated, fails on the 32-bit LSN counter: from `next_lsn =
2147483647` the first `AppendLogRecord` call returns `2147483647` and the
second returns `-2147483648`, not `2147483647 + 1`; it leaves `next_lsn =
-2147483647`, not `2147483647 + 2`, and the returned LSNs are not
increasing. -/
theorem C12_lsn_wraps_after_max :
    logRun 64 (LogWorld.start (LogManager.fresh 2147483647 2147483646 0))
        [LogEvent.Append (LogRecord.headerOnly LogRecordType.BEGIN 7 (-1)),
         LogEvent.Append (LogRecord.headerOnly LogRecordType.COMMIT 7 2147483647)]
      = some (LogWorld.after 64 (LogManager.fresh 2147483647 2147483646 0)
        [LogEvent.Append (LogRecord.headerOnly LogRecordType.BEGIN 7 (-1)),
         LogEvent.Append (LogRecord.headerOnly LogRecordType.COMMIT 7 2147483647)]) ∧
    (LogWorld.after 64 (LogManager.fresh 2147483647 2147483646 0)
        [LogEvent.Append (LogRecord.headerOnly LogRecordType.BEGIN 7 (-1)),
         LogEvent.Append (LogRecord.headerOnly LogRecordType.COMMIT 7 2147483647)]).returned
      = [((2147483647 : lsn_t),
          ⟨20, 2147483647, 7, -1, LogRecordType.BEGIN, 0, ⟨[]⟩, ⟨[]⟩, ⟨[]⟩, 0, 0⟩),
         ((-2147483648 : lsn_t),
          ⟨20, -2147483648, 7, 2147483647, LogRecordType.COMMIT, 0, ⟨[]⟩, ⟨[]⟩, ⟨[]⟩, 0, 0⟩)] ∧
    (LogWorld.after 64 (LogManager.fresh 2147483647 2147483646 0)
        [LogEvent.Append (LogRecord.headerOnly LogRecordType.BEGIN 7 (-1)),
         LogEvent.Append (LogRecord.headerOnly LogRecordType.COMMIT 7 2147483647)]).lg.lastLsn_
      = -2147483648 ∧
    (LogWorld.after 64 (LogManager.fresh 2147483647 2147483646 0)
        [LogEvent.Append (LogRecord.headerOnly LogRecordType.BEGIN 7 (-1)),
         LogEvent.Append (LogRecord.headerOnly LogRecordType.COMMIT 7 2147483647)]).lg.next_lsn_
      = -2147483647 ∧
    ¬ (∀ (k : Nat) (p : lsn_t × LogRecord),
        (LogWorld.after 64 (LogManager.fresh 2147483647 2147483646 0)
          [LogEvent.Append (LogRecord.headerOnly LogRecordType.BEGIN 7 (-1)),
           LogEvent.Append (LogRecord.headerOnly LogRecordType.COMMIT 7 2147483647)]).returned[k]?
          = some p →
        p.1 = (LogManager.fresh 2147483647 2147483646 0).next_lsn_ + k) ∧
    ¬ ((LogWorld.after 64 (LogManager.fresh 2147483647 2147483646 0)
        [LogEvent.Append (LogRecord.headerOnly LogRecordType.BEGIN 7 (-1)),
         LogEvent.Append (LogRecord.headerOnly LogRecordType.COMMIT 7 2147483647)]).lg.next_lsn_
      = (LogManager.fresh 2147483647 2147483646 0).next_lsn_ + 2) := by
  refine ⟨rfl, rfl, rfl, rfl, ?_, by decide⟩
  intro h
  have h1 := h 1 ((-2147483648 : lsn_t),
    ⟨20, -2147483648, 7, 2147483647, LogRecordType.COMMIT, 0, ⟨[]⟩, ⟨[]⟩, ⟨[]⟩, 0, 0⟩) (by rfl)
  exact absurd h1 (by decide)

/-- C12 (I6, dense LSNs), for a 32-bit LSN counter.  A call of
`AppendLogRecord` that finds room, at once or after its wait, returns the
value of `next_lsn`, has stored it in the `lsn` field of its record, leaves
`lastLsn_` equal to it and `next_lsn` one above it (after `2147483647`:
`-2147483648`); in a run such a call adds its result to the returned calls.
Along any run of appends, resumed appends, flusher cycles and `Flush` calls
from `next_lsn = n`, the `k`-th call to return (counting from 0) returns
`n + k` brought into the 32-bit range; as long as every LSN assigned is at most
`2147483647` (`n` plus the number of returned calls is at most `2147483648`),
it returns `n + k` itself and has stored it in its record, `lastLsn_` is the
value the last call returned, and `next_lsn` is `n` plus the number of
returned calls while that is below `2147483648`. -/
theorem C12_lsn_dense (L : Nat) (lg0 : LogManager) (es : List LogEvent) (w : LogWorld)
    (hn1 : -2147483648 ≤ lg0.next_lsn_) (hn2 : lg0.next_lsn_ ≤ 2147483647)
    (hrun : logRun L (LogWorld.start lg0) es = some w) :
    (∀ (lg : LogManager) (r : LogRecord), lg.logBufferOffset_ + r.GetSize < L →
      (AppendLogRecord L lg r).2 = some (lg.next_lsn_, { r with lsn_ := lg.next_lsn_ }) ∧
      AppendLogRecord.resume L lg r =
        some ((AppendLogRecord L lg r).1, lg.next_lsn_, { r with lsn_ := lg.next_lsn_ }) ∧
      (AppendLogRecord L lg r).1.lastLsn_ = lg.next_lsn_ ∧
      (AppendLogRecord L lg r).1.next_lsn_ = wrap32 (lg.next_lsn_ + 1) ∧
      (-2147483648 ≤ lg.next_lsn_ → lg.next_lsn_ < 2147483647 →
        (AppendLogRecord L lg r).1.next_lsn_ = lg.next_lsn_ + 1)) ∧
    (∀ r : LogRecord, LogRecord.HEADER_SIZE ≤ r.GetSize →
      w.lg.logBufferOffset_ + r.GetSize < L →
      ∃ w1, logStep L w (LogEvent.Append r) = some w1 ∧
        w1.returned = w.returned ++ [(w.lg.next_lsn_, { r with lsn_ := w.lg.next_lsn_ })]) ∧
    (∀ (k : Nat) (r : LogRecord), w.sleeping.get? k = some r →
      w.lg.logBufferOffset_ + r.GetSize < L →
      ∃ w1, logStep L w (LogEvent.Resume k) = some w1 ∧
        w1.returned = w.returned ++ [(w.lg.next_lsn_, { r with lsn_ := w.lg.next_lsn_ })]) ∧
    w.lg.next_lsn_ = wrap32 (lg0.next_lsn_ + w.returned.length) ∧
    (∀ (k : Nat) (p : lsn_t × LogRecord), w.returned[k]? = some p →
      p.1 = wrap32 (lg0.next_lsn_ + k) ∧ p.2.lsn_ = wrap32 (lg0.next_lsn_ + k)) ∧
    (w.returned ≠ [] → w.lg.lastLsn_ = wrap32 (lg0.next_lsn_ + w.returned.length - 1)) ∧
    (lg0.next_lsn_ + (w.returned.length : Int) ≤ 2147483648 →
      (∀ (k : Nat) (p : lsn_t × LogRecord), w.returned[k]? = some p →
        p.1 = lg0.next_lsn_ + k ∧ p.2.lsn_ = lg0.next_lsn_ + k) ∧
      (w.returned ≠ [] → w.lg.lastLsn_ = lg0.next_lsn_ + w.returned.length - 1) ∧
      (lg0.next_lsn_ + (w.returned.length : Int) < 2147483648 →
        w.lg.next_lsn_ = lg0.next_lsn_ + w.returned.length)) := by
  have hrunInv := lsn_run es (LogWorld.start lg0) w hrun (n := lg0.next_lsn_) ⟨(by
      have e : wrap32 lg0.next_lsn_ = lg0.next_lsn_ :=
        wrap32_of_range lg0.next_lsn_ hn1 (Int.lt_of_le_sub_one hn2)
      simp [LogWorld.start, e]), (by
      intro k p hk
      simp [LogWorld.start] at hk), (by
      intro hne
      simp [LogWorld.start] at hne)⟩
  obtain ⟨g1, g2, g3⟩ := hrunInv
  refine ⟨?_, ?_, ?_, g1, g2, g3, ?_⟩
  · intro lg r hroom
    have hnot : ¬ lg.logBufferOffset_ + r.GetSize ≥ L := by omega
    refine ⟨?_, ?_, ?_, ?_, ?_⟩
    · simp only [AppendLogRecord, hnot, if_false, appendSerialize_ret]
    · simp only [AppendLogRecord, AppendLogRecord.resume, hnot, hroom, if_false, if_true]
      rfl
    · simp only [AppendLogRecord, hnot, if_false, appendSerialize_last]
    · simp only [AppendLogRecord, hnot, if_false, appendSerialize_next]
    · intro hlo hhi
      simp only [AppendLogRecord, hnot, if_false, appendSerialize_next]
      exact wrap32_of_range _ (by linarith) (by linarith)
  · intro r hsz hroom
    have hnot : ¬ w.lg.logBufferOffset_ + r.GetSize ≥ L := by omega
    have hsz2 : ¬ r.GetSize < LogRecord.HEADER_SIZE := by omega
    refine ⟨{ w with lg := (appendSerialize w.lg r).1,
                     returned := w.returned ++ [(appendSerialize w.lg r).2] }, ?_, rfl⟩
    simp only [logStep, hsz2, if_false, AppendLogRecord, hnot]
  · intro k r hk hroom
    refine ⟨{ w with lg := (appendSerialize w.lg r).1, sleeping := w.sleeping.eraseIdx k,
                     returned := w.returned ++ [(appendSerialize w.lg r).2] }, ?_, rfl⟩
    simp only [logStep, hk, AppendLogRecord.resume, hroom, if_true]
  · intro hb
    refine ⟨?_, ?_, ?_⟩
    · intro k p hk
      have hklt : k < w.returned.length := by
        by_contra hc
        have hge : w.returned.length ≤ k := by omega
        rw [List.getElem?_eq_none hge] at hk
        exact Option.noConfusion hk
      have e := wrap32_below lg0.next_lsn_ k w.returned.length hn1 hklt hb
      obtain ⟨a, b⟩ := g2 k p hk
      exact ⟨a.trans e, b.trans e⟩
    · intro hne
      rw [g3 hne]
      have hpos : 0 < w.returned.length := List.length_pos.2 hne
      apply wrap32_of_range
      · have : (0 : Int) < (w.returned.length : Int) := by exact_mod_cast hpos
        linarith
      · linarith
    · intro hlt
      rw [g1]
      apply wrap32_of_range
      · have : (0 : Int) ≤ (w.returned.length : Int) := Int.ofNat_nonneg _
        linarith
      · exact hlt

/-- C12 at work: from `next_lsn = 5`, with a flusher cycle between the appends,
the third call returns 7 and leaves `next_lsn = 8`. -/
theorem C12_lsn_dense_witness :
    (LogWorld.after 64 (LogManager.fresh 5 (-1) 0)
      [LogEvent.Append (LogRecord.headerOnly LogRecordType.BEGIN 7 (-1)),
       LogEvent.Cycle,
       LogEvent.Append (LogRecord.headerOnly LogRecordType.COMMIT 7 5),
       LogEvent.Append (LogRecord.headerOnly LogRecordType.BEGIN 8 (-1))]).lg.next_lsn_
      = (LogManager.fresh 5 (-1) 0).next_lsn_ +
        (LogWorld.after 64 (LogManager.fresh 5 (-1) 0)
          [LogEvent.Append (LogRecord.headerOnly LogRecordType.BEGIN 7 (-1)),
           LogEvent.Cycle,
           LogEvent.Append (LogRecord.headerOnly LogRecordType.COMMIT 7 5),
           LogEvent.Append (LogRecord.headerOnly LogRecordType.BEGIN 8 (-1))]).returned.length :=
  ((C12_lsn_dense 64 (LogManager.fresh 5 (-1) 0)
    [LogEvent.Append (LogRecord.headerOnly LogRecordType.BEGIN 7 (-1)),
     LogEvent.Cycle,
     LogEvent.Append (LogRecord.headerOnly LogRecordType.COMMIT 7 5),
     LogEvent.Append (LogRecord.headerOnly LogRecordType.BEGIN 8 (-1))]
    (LogWorld.after 64 (LogManager.fresh 5 (-1) 0)
      [LogEvent.Append (LogRecord.headerOnly LogRecordType.BEGIN 7 (-1)),
       LogEvent.Cycle,
       LogEvent.Append (LogRecord.headerOnly LogRecordType.COMMIT 7 5),
       LogEvent.Append (LogRecord.headerOnly LogRecordType.BEGIN 8 (-1))])
    (by decide) (by decide) rfl).2.2.2.2.2.2 (by decide)).2.2 (by decide)

/-- C16 (L4, idempotent flush): a flusher cycle run right after a completed
cycle calls `WriteLog` with nothing and leaves the log manager exactly as the
first cycle left it; a cycle completes whenever the flush buffer is empty, as
it is in every state of a run. -/
theorem C16_cycle_idempotent (lg lg1 : LogManager) (wr : Option (List Nat))
    (h : flushCycle lg = some (lg1, wr)) :
    flushCycle lg1 = some (lg1, none) ∧
    (∀ lg2 : LogManager, lg2.flushBufferSize_ = 0 →
      ∃ lg3 wr3, flushCycle lg2 = some (lg3, wr3) ∧ flushCycle lg3 = some (lg3, none)) ∧
    (∀ (L : Nat) (w w1 : LogWorld), w.lg = lg → logStep L w LogEvent.Cycle = some w1 →
      logStep L w1 LogEvent.Cycle = some w1) := by
  have idem : ∀ (a b : LogManager) (x : Option (List Nat)), flushCycle a = some (b, x) →
      flushCycle b = some (b, none) := by
    intro a b x hx
    obtain ⟨_, s2, s3, s4, _⟩ := flushCycle_spec hx
    unfold flushCycle
    rw [if_neg (by simp [s3]), if_neg (by simp [s2])]
    cases b
    simp only at s4
    subst s4
    rfl
  refine ⟨idem lg lg1 wr h, ?_, ?_⟩
  · intro lg2 h2
    obtain ⟨lg3, wr3, h3⟩ := flushCycle_of_flushZero lg2 h2
    exact ⟨lg3, wr3, h3, idem lg2 lg3 wr3 h3⟩
  · intro L w w1 _ hs
    rcases logStep_cases hs with ⟨r, hr, _⟩ | ⟨r, hr, _⟩ | ⟨_, wr1, hf, _, _⟩ | ⟨f, hr, _⟩
    · cases hr
    · rcases hr with hr | ⟨k, hr, _⟩ <;> cases hr
    · have := idem w.lg w1.lg wr1 hf
      simp [logStep, this]
    · cases hr

/-- C16 at work: after one append, the first cycle writes the 20 bytes and the
second cycle changes nothing and writes nothing. -/
theorem C16_cycle_idempotent_witness :
    flushCycle (LogWorld.after 64 (LogManager.fresh 0 (-1) 0)
        [LogEvent.Append (LogRecord.headerOnly LogRecordType.BEGIN 7 (-1)),
         LogEvent.Cycle]).lg
      = some ((LogWorld.after 64 (LogManager.fresh 0 (-1) 0)
        [LogEvent.Append (LogRecord.headerOnly LogRecordType.BEGIN 7 (-1)),
         LogEvent.Cycle]).lg, none) :=
  (C16_cycle_idempotent
    (LogWorld.after 64 (LogManager.fresh 0 (-1) 0)
      [LogEvent.Append (LogRecord.headerOnly LogRecordType.BEGIN 7 (-1))]).lg
    (LogWorld.after 64 (LogManager.fresh 0 (-1) 0)
      [LogEvent.Append (LogRecord.headerOnly LogRecordType.BEGIN 7 (-1)),
       LogEvent.Cycle]).lg
    (some (firstBytes (LogWorld.after 64 (LogManager.fresh 0 (-1) 0)
      [LogEvent.Append (LogRecord.headerOnly LogRecordType.BEGIN 7 (-1))]).lg.log_buffer_ 20))
    rfl).1

/-- Without an iteration of the flush thread the offset of the current buffer
does not go down. -/
theorem offset_mono_without_cycle {L : Nat} (es : List LogEvent) :
    ∀ (w w1 : LogWorld), (∀ e ∈ es, e ≠ LogEvent.Cycle) → logRun L w es = some w1 →
      w.lg.logBufferOffset_ ≤ w1.lg.logBufferOffset_ := by
  induction es with
  | nil =>
    intro w w1 _ h
    simp only [logRun, Option.some.injEq] at h
    subst h; exact le_refl _
  | cons e es ih =>
    intro w w1 hne h
    simp only [logRun] at h
    cases hs : logStep L w e with
    | none => rw [hs] at h; simp at h
    | some w2 =>
      rw [hs] at h
      have hrest := ih w2 w1 (fun x hx => hne x (List.mem_cons_of_mem _ hx)) h
      refine le_trans ?_ hrest
      rcases logStep_cases hs with ⟨r, _, _, _, rfl⟩ | ⟨r, _, _, _, _, hlg, _, _⟩ |
        ⟨hc, _⟩ | ⟨force, _, rfl⟩
      · exact le_refl _
      · rw [hlg, appendSerialize_offset]; exact Nat.le_add_right _ _
      · exact absurd hc (hne e (List.mem_cons_self _ _))
      · unfold Flush; split_ifs <;> exact le_refl _

theorem appendMany_offset (rs : List LogRecord) : ∀ lg : LogManager,
    (appendMany lg rs).logBufferOffset_
      = lg.logBufferOffset_ + (rs.map LogRecord.GetSize).sum := by
  induction rs with
  | nil => intro lg; simp [appendMany]
  | cons r rs ih =>
    intro lg
    simp only [appendMany, List.map_cons, List.sum_cons]
    rw [ih, appendSerialize_offset]
    omega

theorem appendMany_needFlush (rs : List LogRecord) : ∀ lg : LogManager,
    (appendMany lg rs).needFlush_ = lg.needFlush_ := by
  induction rs with
  | nil => intro lg; rfl
  | cons r rs ih => intro lg; simp only [appendMany]; rw [ih, appendSerialize_needFlush]

theorem appendMany_flushSize (rs : List LogRecord) : ∀ lg : LogManager,
    (appendMany lg rs).flushBufferSize_ = lg.flushBufferSize_ := by
  induction rs with
  | nil => intro lg; rfl
  | cons r rs ih => intro lg; simp only [appendMany]; rw [ih, appendSerialize_flushSize]

/-- A sequence of appends that fits the current buffer runs without any caller
going to sleep. -/
theorem logRun_appends (L : Nat) (rs : List LogRecord) : ∀ w : LogWorld,
    (∀ r ∈ rs, LogRecord.HEADER_SIZE ≤ r.GetSize) →
    w.lg.logBufferOffset_ + (rs.map LogRecord.GetSize).sum < L →
    logRun L w (rs.map LogEvent.Append)
      = some ⟨appendMany w.lg rs, w.disk, w.sleeping,
          w.returned ++ (stampWrap w.lg.next_lsn_ rs).map (fun r => (r.lsn_, r))⟩ := by
  induction rs with
  | nil =>
    intro w _ _
    simp [logRun, appendMany, stampWrap]
  | cons r rs ih =>
    intro w hsz hsum
    simp only [List.map_cons, List.sum_cons] at hsum
    have h1 : ¬ r.GetSize < LogRecord.HEADER_SIZE := by
      have := hsz r (List.mem_cons_self _ _); omega
    have h2 : ¬ w.lg.logBufferOffset_ + r.GetSize ≥ L := by omega
    simp only [List.map_cons, logRun, logStep, h1, if_false, AppendLogRecord, h2]
    rw [ih _ (fun x hx => hsz x (List.mem_cons_of_mem _ hx))
      (by simp only [appendSerialize_offset]; omega)]
    simp [appendMany, stampWrap, appendSerialize_ret, appendSerialize_next]

theorem sum_const_size (c : Nat) (rs : List LogRecord) (h : ∀ r ∈ rs, r.GetSize = c) :
    (rs.map LogRecord.GetSize).sum = c * rs.length := by
  induction rs with
  | nil => simp
  | cons r rs ih =>
    simp only [List.map_cons, List.sum_cons, List.length_cons]
    rw [ih (fun x hx => h x (List.mem_cons_of_mem _ hx)), h r (List.mem_cons_self _ _)]
    ring

/-- C15 (buffer rotation): for a record with `size < LOG_BUFFER_SIZE` (and any
current offset), `AppendLogRecord` returns at once, with
`needFlush_` untouched, exactly when `offset + size < LOG_BUFFER_SIZE`;
otherwise it only sets `needFlush_` and the caller sleeps.  The sleeper cannot
continue after events without a flusher cycle and can continue right after
one.  A call that returns, at once or after sleeping, leaves the offset at the
offset of its serialization plus `size`, below `LOG_BUFFER_SIZE`.  With
`LOG_BUFFER_SIZE = 1024`, 34 appends of 30-byte records into an empty buffer
all return at once and a 35th goes to sleep with `needFlush_` set. -/
theorem C15_append_rotation (L : Nat) (lg : LogManager) (r : LogRecord)
    (hlt : r.GetSize < L) :
    ((∃ lg1 p, AppendLogRecord L lg r = (lg1, some p) ∧ lg1.needFlush_ = lg.needFlush_) ↔
      lg.logBufferOffset_ + r.GetSize < L) ∧
    (∀ lg1 p, AppendLogRecord L lg r = (lg1, some p) →
      lg1.logBufferOffset_ = lg.logBufferOffset_ + r.GetSize ∧ lg1.logBufferOffset_ < L) ∧
    (¬ lg.logBufferOffset_ + r.GetSize < L →
      AppendLogRecord L lg r = ({ lg with needFlush_ := true }, none) ∧
      (∀ (w w1 : LogWorld) (es : List LogEvent), w.lg = { lg with needFlush_ := true } →
        (∀ e ∈ es, e ≠ LogEvent.Cycle) → logRun L w es = some w1 →
        AppendLogRecord.resume L w1.lg r = none)) ∧
    (∀ (lg2 lg3 : LogManager) (wr : Option (List Nat)), flushCycle lg2 = some (lg3, wr) →
      ∃ q, AppendLogRecord.resume L lg3 r = some q) ∧
    (∀ (lg2 lg3 : LogManager) (q : lsn_t × LogRecord),
      AppendLogRecord.resume L lg2 r = some (lg3, q) →
      lg3.logBufferOffset_ = lg2.logBufferOffset_ + r.GetSize ∧ lg3.logBufferOffset_ < L) ∧
    (∀ (lg0 : LogManager) (rs : List LogRecord) (r35 : LogRecord),
      lg0.logBufferOffset_ = 0 → rs.length = 34 → (∀ x ∈ rs, x.GetSize = 30) →
      r35.GetSize = 30 →
      ∃ w, logRun 1024 (LogWorld.start lg0) (rs.map LogEvent.Append) = some w ∧
        w.sleeping = [] ∧ w.returned.length = 34 ∧ w.lg.logBufferOffset_ = 1020 ∧
        w.lg.needFlush_ = lg0.needFlush_ ∧
        AppendLogRecord 1024 w.lg r35 = ({ w.lg with needFlush_ := true }, none)) := by
  refine ⟨?_, ?_, ?_, ?_, ?_, ?_⟩
  · constructor
    · rintro ⟨lg1, p, h, _⟩
      unfold AppendLogRecord at h
      split_ifs at h with hc
      · simp at h
      · omega
    · intro h
      have hc : ¬ lg.logBufferOffset_ + r.GetSize ≥ L := by omega
      exact ⟨(appendSerialize lg r).1, (appendSerialize lg r).2,
        by simp only [AppendLogRecord, hc, if_false], rfl⟩
  · intro lg1 p h
    unfold AppendLogRecord at h
    split_ifs at h with hc
    · simp at h
    · simp only [Prod.mk.injEq] at h
      rw [← h.1, appendSerialize_offset]
      exact ⟨rfl, by omega⟩
  · intro h
    have hc : lg.logBufferOffset_ + r.GetSize ≥ L := by omega
    refine ⟨by simp only [AppendLogRecord, hc, if_true], ?_⟩
    intro w w1 es hw hne hrun
    have hm := offset_mono_without_cycle es w w1 hne hrun
    rw [hw] at hm
    simp only at hm
    unfold AppendLogRecord.resume
    rw [if_neg (by omega)]
  · intro lg2 lg3 wr hf
    obtain ⟨_, s2, _⟩ := flushCycle_spec hf
    unfold AppendLogRecord.resume
    rw [if_pos (by omega)]
    exact ⟨_, rfl⟩
  · intro lg2 lg3 q h
    unfold AppendLogRecord.resume at h
    split_ifs at h with hc
    simp only [Option.some.injEq] at h
    have h1 : (appendSerialize lg2 r).1 = lg3 := by rw [h]
    rw [← h1, appendSerialize_offset]
    exact ⟨rfl, hc⟩
  · intro lg0 rs r35 h0 hlen hsz h35
    have hsum := sum_const_size 30 rs hsz
    rw [hlen] at hsum
    have hrun := logRun_appends 1024 rs (LogWorld.start lg0)
      (fun x hx => by rw [hsz x hx]; decide)
      (by simp only [LogWorld.start]; rw [h0, hsum]; decide)
    refine ⟨_, hrun, rfl, ?_, ?_, ?_, ?_⟩
    · have hl : ∀ (l : List LogRecord) (n : lsn_t), (stampWrap n l).length = l.length := by
        intro l
        induction l with
        | nil => intro n; rfl
        | cons a l ih => intro n; simp [stampWrap, ih]
      simp [LogWorld.start, hl, hlen]
    · simp only [LogWorld.start]
      rw [appendMany_offset, h0, hsum]
    · simp only [LogWorld.start]
      rw [appendMany_needFlush]
    · have hofs : (appendMany lg0 rs).logBufferOffset_ = 1020 := by
        rw [appendMany_offset, h0, hsum]
      simp only [LogWorld.start, AppendLogRecord, hofs, h35]
      rfl

/-- C15 at work: with `LOG_BUFFER_SIZE = 64` and the offset at 40 after two
20-byte records, a third 20-byte record returns at once (60 < 64) and a fourth
goes to sleep (80 ≥ 64). -/
theorem C15_append_rotation_witness :
    (∃ lg1 p, AppendLogRecord 64 (LogWorld.after 64 (LogManager.fresh 0 (-1) 0)
        [LogEvent.Append (LogRecord.headerOnly LogRecordType.BEGIN 7 (-1)),
         LogEvent.Append (LogRecord.headerOnly LogRecordType.COMMIT 7 0)]).lg
        (LogRecord.headerOnly LogRecordType.BEGIN 8 (-1)) = (lg1, some p) ∧
      lg1.needFlush_ = (LogWorld.after 64 (LogManager.fresh 0 (-1) 0)
        [LogEvent.Append (LogRecord.headerOnly LogRecordType.BEGIN 7 (-1)),
         LogEvent.Append (LogRecord.headerOnly LogRecordType.COMMIT 7 0)]).lg.needFlush_) :=
  (C15_append_rotation 64 (LogWorld.after 64 (LogManager.fresh 0 (-1) 0)
      [LogEvent.Append (LogRecord.headerOnly LogRecordType.BEGIN 7 (-1)),
       LogEvent.Append (LogRecord.headerOnly LogRecordType.COMMIT 7 0)]).lg
    (LogRecord.headerOnly LogRecordType.BEGIN 8 (-1)) (by decide)).1.2 (by decide)

/-- C14 (header-only records) fails: for BEGIN, COMMIT and ABORT records
`AppendLogRecord` takes the final `else` branch and writes the eight bytes of
`insert_rid_` and the serialized `insert_tuple_` behind the 20-byte header.
Appending a BEGIN record (rid member 3) to an empty buffer filled with 255
overwrites byte 20; with `LOG_BUFFER_SIZE = 64` the third such append, at
offset 40, overwrites bytes 64 to 71, behind the end of the buffer. -/
theorem C14_header_only_record_writes_payload :
    (LogManager.fresh 0 (-1) 255).log_buffer_ 20 = 255 ∧
    (∃ lg1 p, AppendLogRecord 64 (LogManager.fresh 0 (-1) 255)
        ⟨20, -1, 7, -1, LogRecordType.BEGIN, 3, ⟨[]⟩, ⟨[]⟩, ⟨[]⟩, 0, 0⟩ = (lg1, some p) ∧
      lg1.logBufferOffset_ = 20 ∧ lg1.log_buffer_ 20 = 3) ∧
    (∃ w, logRun 64 (LogWorld.start (LogManager.fresh 0 (-1) 255))
        [LogEvent.Append ⟨20, -1, 7, -1, LogRecordType.BEGIN, 3, ⟨[]⟩, ⟨[]⟩, ⟨[]⟩, 0, 0⟩,
         LogEvent.Append ⟨20, -1, 7, 0, LogRecordType.COMMIT, 3, ⟨[]⟩, ⟨[]⟩, ⟨[]⟩, 0, 0⟩,
         LogEvent.Append ⟨20, -1, 8, -1, LogRecordType.BEGIN, 3, ⟨[]⟩, ⟨[]⟩, ⟨[]⟩, 0, 0⟩]
          = some w ∧
      w.sleeping = [] ∧ w.lg.logBufferOffset_ = 60 ∧
      (LogManager.fresh 0 (-1) 255).log_buffer_ 64 = 255 ∧
      w.lg.log_buffer_ 64 = 0 ∧ w.lg.log_buffer_ 71 = 0) := by
  refine ⟨rfl, ⟨_, _, rfl, ?_, ?_⟩, ⟨_, rfl, ?_, ?_, rfl, ?_, ?_⟩⟩
  · decide
  · decide
  · decide
  · decide
  · decide
  · decide

/-! ## The wire format: reading back what was written -/

theorem le32u_length (u : Nat) : (le32u u).length = 4 := rfl

theorem le32_length (x : Int) : (le32 x).length = 4 := rfl

theorem ridBytes_length (rid : RID) : (ridBytes rid).length = 8 := rfl

theorem headerBytes_length (r : LogRecord) : (headerBytes r).length = 20 := rfl

theorem serializeTo_length (t : Tuple) : t.SerializeTo.length = 4 + t.GetLength := by
  simp [Tuple.SerializeTo, le32_length, Tuple.GetLength]

theorem rd32u_le32u (u : Nat) (rest : List Nat) (h : u < 4294967296) :
    rd32u (le32u u ++ rest) = some (u, rest) := by
  simp only [le32u, List.cons_append, List.nil_append, rd32u, Option.some.injEq,
    Prod.mk.injEq, and_true]
  omega

theorem rd32_le32 (x : Int) (rest : List Nat) (h1 : -2147483648 ≤ x) (h2 : x < 2147483648) :
    rd32 (le32 x ++ rest) = some (x, rest) := by
  unfold rd32 le32
  rw [rd32u_le32u _ _ (by omega)]
  simp only [Option.some.injEq, Prod.mk.injEq, and_true]
  split_ifs with hc <;> omega

theorem rdRid_ridBytes (rid : RID) (rest : List Nat) (h : rid < 18446744073709551616) :
    rdRid (ridBytes rid ++ rest) = some (rid, rest) := by
  unfold rdRid ridBytes
  rw [List.append_assoc, rd32u_le32u _ _ (by omega)]
  dsimp only
  rw [rd32u_le32u _ _ (by omega)]
  simp only [Option.some.injEq, Prod.mk.injEq, and_true]
  have key : ∀ n : Nat, n < 18446744073709551616 →
      n % 4294967296 + 4294967296 * (n / 4294967296 % 4294967296) = n := by
    intro n hn; omega
  exact key rid h

theorem rdTuple_serializeTo (t : Tuple) (rest : List Nat) (h : t.GetLength < 2147483648) :
    rdTuple (t.SerializeTo ++ rest) = some (t, rest) := by
  unfold rdTuple Tuple.SerializeTo
  rw [List.append_assoc, rd32_le32 _ _ (by omega) (by omega)]
  dsimp only
  have hl : ((t.GetLength : Int)).toNat = t.data_.length := by
    simp [Tuple.GetLength]
  rw [hl]
  rw [if_neg (by simp)]
  simp

theorem ofCode_code (ty : LogRecordType) : LogRecordType.ofCode ty.code = some ty := by
  cases ty <;> rfl

theorem rdPayload_bytes (r : LogRecord) (rest : List Nat) (h : r.WellFormed) :
    rdPayload r.log_record_type_ (r.payload.bytes ++ rest) = some (r.payload, rest) := by
  have hsz := h.size_eq
  have hlt := h.size_lt
  unfold LogRecord.HEADER_SIZE at hsz
  cases hty : r.log_record_type_ <;>
    simp only [LogRecord.payload, hty, Payload.bytes, List.length_append, ridBytes_length,
      serializeTo_length, le32_length, List.length_nil] at hsz ⊢ <;>
    simp only [rdPayload, List.nil_append, List.append_assoc]
  · rw [rdRid_ridBytes _ _ h.rid_lt]
    dsimp only
    rw [rdTuple_serializeTo _ _ (by omega)]
  · rw [rdRid_ridBytes _ _ h.rid_lt]
    dsimp only
    rw [rdTuple_serializeTo _ _ (by omega)]
  · rw [rdRid_ridBytes _ _ h.rid_lt]
    dsimp only
    rw [rdTuple_serializeTo _ _ (by omega)]
  · rw [rdRid_ridBytes _ _ h.rid_lt]
    dsimp only
    rw [rdTuple_serializeTo _ _ (by omega)]
  · rw [rdRid_ridBytes _ _ h.rid_lt]
    dsimp only
    rw [rdTuple_serializeTo _ _ (by omega)]
    dsimp only
    rw [rdTuple_serializeTo _ _ (by omega)]
  · rw [rd32_le32 _ _ h.ppage_ge h.ppage_lt]
    dsimp only
    rw [rd32_le32 _ _ h.page_ge h.page_lt]

theorem decodeRecord_wireBytes (r : LogRecord) (rest : List Nat) (h : r.WellFormed)
    (hl1 : -2147483648 ≤ r.lsn_) (hl2 : r.lsn_ < 2147483648) :
    decodeRecord (wireBytes r ++ rest) = some (r.wire, rest) := by
  have hlt := h.size_lt
  unfold decodeRecord wireBytes headerBytes
  simp only [List.append_assoc]
  rw [rd32_le32 _ _ (by omega) (by omega)]
  dsimp only
  rw [rd32_le32 _ _ hl1 hl2]
  dsimp only
  rw [rd32_le32 _ _ h.txn_ge h.txn_lt]
  dsimp only
  rw [rd32_le32 _ _ h.prev_ge h.prev_lt]
  dsimp only
  rw [rd32_le32 _ _ (by cases r.log_record_type_ <;> decide)
    (by cases r.log_record_type_ <;> decide)]
  dsimp only
  rw [ofCode_code]
  dsimp only
  rw [rdPayload_bytes r rest h]
  simp [LogRecord.wire]

theorem wireBytes_length (r : LogRecord) (h : r.WellFormed) :
    (wireBytes r).length = r.size_ := by
  rw [h.size_eq]
  simp [wireBytes, headerBytes_length, LogRecord.HEADER_SIZE]

/-! ## The current buffer after a sequence of appends -/

theorem writeBytes_append (buf : Nat → Nat) (p q : Nat) (xs ys : List Nat)
    (hq : q = p + xs.length) :
    writeBytes (writeBytes buf p xs) q ys = writeBytes buf p (xs ++ ys) := by
  subst hq
  funext i
  unfold writeBytes
  simp only [List.length_append]
  by_cases h1 : p + xs.length ≤ i ∧ i < p + xs.length + ys.length
  · rw [if_pos h1, if_pos (by omega)]
    rw [List.getD_append_right _ _ _ _ (by omega)]
    congr 1
    omega
  · rw [if_neg h1]
    by_cases h2 : p ≤ i ∧ i < p + xs.length
    · rw [if_pos h2, if_pos (by omega)]
      rw [List.getD_append _ _ _ _ (by omega)]
    · rw [if_neg h2, if_neg (by omega)]

theorem map_range_getD (xs : List Nat) (g : Nat → Nat)
    (hg : ∀ j, j < xs.length → g j = xs.getD j 0) :
    (List.range xs.length).map g = xs := by
  apply List.ext_getElem?
  intro n
  by_cases hn : n < xs.length
  · rw [List.getElem?_map, List.getElem?_range hn]
    simp only [Option.map_some']
    rw [hg n hn, List.getD_eq_getElem?_getD, List.getElem?_eq_getElem hn]
    rfl
  · have h1 : xs[n]? = none := List.getElem?_eq_none (by omega)
    have h2 : ((List.range xs.length).map g)[n]? = none :=
      List.getElem?_eq_none (by simp; omega)
    rw [h1, h2]

/-- Writing `xs ++ ys` at `pos` leaves the bytes below `pos` and puts `xs`
right behind them. -/
theorem firstBytes_writeBytes (buf : Nat → Nat) (pos : Nat) (xs ys : List Nat) :
    firstBytes (writeBytes buf pos (xs ++ ys)) (pos + xs.length)
      = firstBytes buf pos ++ xs := by
  unfold firstBytes
  rw [List.range_add, List.map_append, List.map_map]
  congr 1
  · apply List.map_congr_left
    intro i hi
    have hi1 : i < pos := List.mem_range.1 hi
    unfold writeBytes
    rw [if_neg (by omega)]
  · apply map_range_getD
    intro j hj
    simp only [Function.comp, writeBytes, List.length_append]
    rw [if_pos (by omega)]
    rw [show pos + j - pos = j by omega]
    exact List.getD_append _ _ _ _ hj

theorem appendSerialize_buffer (lg : LogManager) (r : LogRecord) :
    (appendSerialize lg r).1.log_buffer_
      = writeBytes lg.log_buffer_ lg.logBufferOffset_
          (codeBytes { r with lsn_ := lg.next_lsn_ }) := by
  unfold appendSerialize codeBytes
  dsimp only
  split_ifs with h1 h2
  · rw [writeBytes_append _ _ _ _ _ (by
        simp [ridBytes_length, serializeTo_length, headerBytes_length, le32_length,
          LogRecord.HEADER_SIZE]; omega),
      writeBytes_append _ _ _ _ _ (by
        simp [ridBytes_length, serializeTo_length, headerBytes_length, le32_length,
          LogRecord.HEADER_SIZE]),
      writeBytes_append _ _ _ _ _ (by
        simp [ridBytes_length, serializeTo_length, headerBytes_length, le32_length,
          LogRecord.HEADER_SIZE])]
    simp only [List.append_assoc]
  · rw [writeBytes_append _ _ _ _ _ (by
        simp [ridBytes_length, serializeTo_length, headerBytes_length, le32_length,
          LogRecord.HEADER_SIZE]),
      writeBytes_append _ _ _ _ _ (by
        simp [ridBytes_length, serializeTo_length, headerBytes_length, le32_length,
          LogRecord.HEADER_SIZE])]
  · rw [writeBytes_append _ _ _ _ _ (by
        simp [ridBytes_length, serializeTo_length, headerBytes_length, le32_length,
          LogRecord.HEADER_SIZE]),
      writeBytes_append _ _ _ _ _ (by
        simp [ridBytes_length, serializeTo_length, headerBytes_length, le32_length,
          LogRecord.HEADER_SIZE])]

/-- The bytes the code writes for a record start with its serialization on
the wire; for the header-only types more bytes follow. -/
theorem codeBytes_eq (r : LogRecord) : ∃ extra, codeBytes r = wireBytes r ++ extra := by
  unfold codeBytes wireBytes LogRecord.payload
  cases hty : r.log_record_type_
  · exact ⟨[], by simp [Payload.bytes]⟩
  · exact ⟨[], by simp [Payload.bytes]⟩
  · exact ⟨[], by simp [Payload.bytes]⟩
  · exact ⟨[], by simp [Payload.bytes]⟩
  · exact ⟨[], by simp [Payload.bytes]⟩
  · exact ⟨[], by simp [Payload.bytes]⟩
  · exact ⟨ridBytes r.insert_rid_ ++ r.insert_tuple_.SerializeTo, by simp [Payload.bytes]⟩
  · exact ⟨ridBytes r.insert_rid_ ++ r.insert_tuple_.SerializeTo, by simp [Payload.bytes]⟩
  · exact ⟨ridBytes r.insert_rid_ ++ r.insert_tuple_.SerializeTo, by simp [Payload.bytes]⟩

theorem WellFormed.stamp {r : LogRecord} (h : r.WellFormed) (n : lsn_t) :
    LogRecord.WellFormed { r with lsn_ := n } :=
  ⟨h.size_eq, h.size_lt, h.txn_ge, h.txn_lt, h.prev_ge, h.prev_lt, h.rid_lt, h.ppage_ge,
    h.ppage_lt, h.page_ge, h.page_lt⟩

theorem appendSerialize_firstBytes (lg : LogManager) (r : LogRecord) (h : r.WellFormed) :
    firstBytes (appendSerialize lg r).1.log_buffer_ (lg.logBufferOffset_ + r.GetSize)
      = firstBytes lg.log_buffer_ lg.logBufferOffset_
          ++ wireBytes { r with lsn_ := lg.next_lsn_ } := by
  rw [appendSerialize_buffer]
  obtain ⟨extra, he⟩ := codeBytes_eq { r with lsn_ := lg.next_lsn_ }
  rw [he]
  have hl : r.GetSize = (wireBytes { r with lsn_ := lg.next_lsn_ }).length := by
    rw [wireBytes_length _ (WellFormed.stamp h _)]
    rfl
  rw [hl]
  exact firstBytes_writeBytes _ _ _ _

theorem appendMany_firstBytes (rs : List LogRecord) : ∀ lg : LogManager,
    (∀ r ∈ rs, r.WellFormed) →
    firstBytes (appendMany lg rs).log_buffer_
        (lg.logBufferOffset_ + (rs.map LogRecord.GetSize).sum)
      = firstBytes lg.log_buffer_ lg.logBufferOffset_
          ++ ((stampWrap lg.next_lsn_ rs).map wireBytes).flatten := by
  induction rs with
  | nil => intro lg _; simp [appendMany, stampWrap]
  | cons r rs ih =>
    intro lg hwf
    have h1 := ih (appendSerialize lg r).1 (fun x hx => hwf x (List.mem_cons_of_mem _ hx))
    rw [appendSerialize_offset, appendSerialize_next,
      appendSerialize_firstBytes lg r (hwf r (List.mem_cons_self _ _))] at h1
    simp only [appendMany, List.map_cons, List.sum_cons, stampWrap, List.flatten_cons]
    rw [← List.append_assoc, ← h1, Nat.add_assoc]

/-- The number of bytes written for a record does not depend on its LSN. -/
theorem codeBytes_length_stamp (r : LogRecord) (n : lsn_t) :
    (codeBytes { r with lsn_ := n }).length = (codeBytes r).length := by
  unfold codeBytes
  simp only [List.length_append, headerBytes_length]

/-- A write leaves every byte outside its range as it was. -/
theorem writeBytes_outside (buf : Nat → Nat) (pos : Nat) (bs : List Nat) (i : Nat)
    (h : pos + bs.length ≤ i) : writeBytes buf pos bs i = buf i := by
  unfold writeBytes
  rw [if_neg (by omega)]

/-- Appends whose writes stay inside the buffer leave the memory behind the
buffer untouched. -/
theorem appendMany_outside (L : Nat) (rs : List LogRecord) : ∀ lg : LogManager,
    writesInBounds L lg.logBufferOffset_ rs →
    ∀ i, L ≤ i → (appendMany lg rs).log_buffer_ i = lg.log_buffer_ i := by
  induction rs with
  | nil => intro lg _ i _; rfl
  | cons r rs ih =>
    intro lg hin i hi
    obtain ⟨h1, h2⟩ := hin
    simp only [appendMany]
    rw [ih (appendSerialize lg r).1 (by rw [appendSerialize_offset]; exact h2) i hi,
      appendSerialize_buffer]
    apply writeBytes_outside
    rw [codeBytes_length_stamp]
    omega

theorem wrap32_succ_below (n : Int) (m : Nat) (h1 : -2147483648 ≤ n)
    (h2 : n + ((m : Int) + 2) ≤ 2147483648) : wrap32 (n + 1) = n + 1 := by
  unfold wrap32
  omega

/-- While the LSNs stay at or below `2147483647` the 32-bit counter gives the
records the LSNs `n`, `n + 1`, and so on. -/
theorem stampWrap_eq_stampLsn (rs : List LogRecord) : ∀ n : Int,
    -2147483648 ≤ n → n + (rs.length : Int) ≤ 2147483648 →
    stampWrap n rs = stampLsn n rs := by
  induction rs with
  | nil => intro n _ _; rfl
  | cons r rs ih =>
    intro n h1 h2
    cases rs with
    | nil => rfl
    | cons r2 rs =>
      simp only [List.length_cons] at h2
      push_cast at h2
      have e : wrap32 (n + 1) = n + 1 := wrap32_succ_below n rs.length h1 (by omega)
      have h3 := ih (n + 1) (by omega) (by simp only [List.length_cons]; push_cast; omega)
      show ({ r with lsn_ := n } : LogRecord) :: stampWrap (wrap32 (n + 1)) (r2 :: rs)
        = { r with lsn_ := n } :: stampLsn (n + 1) (r2 :: rs)
      rw [e, h3]

theorem logRun_append (L : Nat) (es1 es2 : List LogEvent) : ∀ (w w1 : LogWorld),
    logRun L w es1 = some w1 → logRun L w (es1 ++ es2) = logRun L w1 es2 := by
  induction es1 with
  | nil =>
    intro w w1 h
    simp only [logRun, Option.some.injEq] at h
    subst h; rfl
  | cons e es ih =>
    intro w w1 h
    rw [List.cons_append]
    have hgoal : logRun L w (e :: (es ++ es2))
        = match logStep L w e with
          | none => none
          | some w2 => logRun L w2 (es ++ es2) := rfl
    rw [hgoal]
    simp only [logRun] at h
    cases hs : logStep L w e with
    | none => rw [hs] at h; simp at h
    | some w2 =>
      rw [hs] at h
      exact ih w2 w1 h

theorem stampLsn_length (rs : List LogRecord) : ∀ n : lsn_t,
    (stampLsn n rs).length = rs.length := by
  induction rs with
  | nil => intro n; rfl
  | cons r rs ih => intro n; simp [stampLsn, ih]

theorem stampLsn_mem (rs : List LogRecord) : ∀ (n : lsn_t) (x : LogRecord),
    (∀ r ∈ rs, r.WellFormed) → x ∈ stampLsn n rs →
    x.WellFormed ∧ n ≤ x.lsn_ ∧ x.lsn_ < n + rs.length := by
  induction rs with
  | nil => intro n x _ hx; simp [stampLsn] at hx
  | cons r rs ih =>
    intro n x hwf hx
    simp only [stampLsn, List.mem_cons] at hx
    rcases hx with rfl | hx
    · refine ⟨WellFormed.stamp (hwf r (List.mem_cons_self _ _)) n, le_refl _, ?_⟩
      simp only [List.length_cons]
      push_cast
      have h0 : (0 : Int) ≤ (rs.length : Int) := Int.ofNat_nonneg _
      linarith
    · obtain ⟨a, b, c⟩ := ih (n + 1) x (fun y hy => hwf y (List.mem_cons_of_mem _ hy)) hx
      refine ⟨a, by linarith, ?_⟩
      simp only [List.length_cons]
      push_cast
      linarith

theorem stampLsn_sizes (rs : List LogRecord) : ∀ n : lsn_t,
    (stampLsn n rs).map LogRecord.GetSize = rs.map LogRecord.GetSize := by
  induction rs with
  | nil => intro n; rfl
  | cons r rs ih => intro n; simp [stampLsn, ih, LogRecord.GetSize]

/-- Reading back the concatenated serializations of well-formed records gives
their wire views, with as much fuel as there are records. -/
theorem decodeRecords_flatten (rs : List LogRecord) : ∀ fuel : Nat,
    (∀ r ∈ rs, r.WellFormed ∧ -2147483648 ≤ r.lsn_ ∧ r.lsn_ < 2147483648) →
    rs.length ≤ fuel →
    decodeRecords fuel (rs.map wireBytes).flatten = some (rs.map LogRecord.wire) := by
  induction rs with
  | nil =>
    intro fuel _ _
    cases fuel <;> simp [decodeRecords]
  | cons r rs ih =>
    intro fuel h hf
    obtain ⟨hw, hl1, hl2⟩ := h r (List.mem_cons_self _ _)
    have hlen : 0 < (wireBytes r ++ (rs.map wireBytes).flatten).length := by
      rw [List.length_append, wireBytes_length r hw, hw.size_eq]
      unfold LogRecord.HEADER_SIZE
      omega
    obtain ⟨b, bs, hb⟩ : ∃ b bs, wireBytes r ++ (rs.map wireBytes).flatten = b :: bs := by
      cases hc : wireBytes r ++ (rs.map wireBytes).flatten with
      | nil => rw [hc] at hlen; simp at hlen
      | cons b bs => exact ⟨b, bs, rfl⟩
    obtain ⟨f, rfl⟩ : ∃ f, fuel = f + 1 := ⟨fuel - 1, by simp at hf; omega⟩
    simp only [List.map_cons, List.flatten_cons]
    rw [hb]
    simp only [decodeRecords]
    rw [← hb, decodeRecord_wireBytes r _ hw hl1 hl2]
    dsimp only
    rw [ih f (fun x hx => h x (List.mem_cons_of_mem _ hx)) (by simp at hf; omega)]

theorem flatten_length_ge (rs : List LogRecord) (h : ∀ r ∈ rs, r.WellFormed) :
    rs.length ≤ ((rs.map wireBytes).flatten).length ∧
    ((rs.map wireBytes).flatten).length = (rs.map LogRecord.GetSize).sum := by
  induction rs with
  | nil => simp
  | cons r rs ih =>
    obtain ⟨a, b⟩ := ih (fun x hx => h x (List.mem_cons_of_mem _ hx))
    have hw := h r (List.mem_cons_self _ _)
    have hsz := hw.size_eq
    unfold LogRecord.HEADER_SIZE at hsz
    simp only [List.map_cons, List.flatten_cons, List.length_append, List.length_cons,
      List.sum_cons, wireBytes_length r hw, LogRecord.GetSize] at a b ⊢
    constructor
    · omega
    · rw [b]

/-- C13 (L3, round trip of the log): for a non-empty sequence of well-formed
records that fits the empty current buffer (no rotation), whose writes all stay
inside the buffer of `LOG_BUFFER_SIZE` bytes, and LSNs within 32 bits, the
appends all return and one flusher cycle then calls `WriteLog` once, with
exactly the concatenation, in append order, of the serializations of the
records carrying their assigned LSNs `n, n + 1, ...`; the byte count is the sum
of the record sizes, and reading those bytes record by record gives the same
records with the same LSNs.  No byte behind either buffer has been written. -/
theorem C13_log_roundtrip (L : Nat) (lg0 : LogManager) (rs : List LogRecord)
    (hoff : lg0.logBufferOffset_ = 0) (hfl : lg0.flushBufferSize_ = 0)
    (hwf : ∀ r ∈ rs, r.WellFormed) (hfit : (rs.map LogRecord.GetSize).sum < L)
    (hin : writesInBounds L lg0.logBufferOffset_ rs)
    (hne : rs ≠ []) (hn1 : -2147483648 ≤ lg0.next_lsn_)
    (hn2 : lg0.next_lsn_ + rs.length ≤ 2147483648) :
    ∃ w, logRun L (LogWorld.start lg0) (rs.map LogEvent.Append ++ [LogEvent.Cycle])
        = some w ∧
      w.sleeping = [] ∧
      w.returned = (stampLsn lg0.next_lsn_ rs).map (fun r => (r.lsn_, r)) ∧
      w.disk = [((stampLsn lg0.next_lsn_ rs).map wireBytes).flatten] ∧
      (((stampLsn lg0.next_lsn_ rs).map wireBytes).flatten).length
        = (rs.map LogRecord.GetSize).sum ∧
      decodeLog ((stampLsn lg0.next_lsn_ rs).map wireBytes).flatten
        = some ((stampLsn lg0.next_lsn_ rs).map LogRecord.wire) ∧
      (∀ i, L ≤ i → w.lg.flush_buffer_ i = lg0.log_buffer_ i) ∧
      w.lg.log_buffer_ = lg0.flush_buffer_ := by
  have hsize : ∀ r ∈ rs, LogRecord.HEADER_SIZE ≤ r.GetSize := by
    intro r hr
    have := (hwf r hr).size_eq
    unfold LogRecord.GetSize
    omega
  have hrun := logRun_appends L rs (LogWorld.start lg0) hsize
    (by simp only [LogWorld.start]; rw [hoff]; omega)
  have hsw : stampWrap lg0.next_lsn_ rs = stampLsn lg0.next_lsn_ rs :=
    stampWrap_eq_stampLsn rs lg0.next_lsn_ hn1 hn2
  have hstart : (LogWorld.start lg0).lg = lg0 := rfl
  rw [hstart, hsw] at hrun
  have hstamp : ∀ x ∈ stampLsn lg0.next_lsn_ rs,
      x.WellFormed ∧ -2147483648 ≤ x.lsn_ ∧ x.lsn_ < 2147483648 := by
    intro x hx
    obtain ⟨a, b, c⟩ := stampLsn_mem rs lg0.next_lsn_ x hwf hx
    exact ⟨a, by linarith, by linarith⟩
  have hlen := flatten_length_ge (stampLsn lg0.next_lsn_ rs) (fun x hx => (hstamp x hx).1)
  rw [stampLsn_sizes, stampLsn_length] at hlen
  have hpos : 0 < (appendMany lg0 rs).logBufferOffset_ := by
    rw [appendMany_offset, hoff]
    cases rs with
    | nil => exact absurd rfl hne
    | cons r rs =>
      have := hsize r (List.mem_cons_self _ _)
      unfold LogRecord.HEADER_SIZE at this
      simp only [List.map_cons, List.sum_cons]
      omega
  have hbytes : firstBytes (appendMany lg0 rs).log_buffer_
      (appendMany lg0 rs).logBufferOffset_
      = ((stampLsn lg0.next_lsn_ rs).map wireBytes).flatten := by
    have := appendMany_firstBytes rs lg0 hwf
    rw [hoff, hsw] at this
    rw [appendMany_offset, hoff, this]
    simp [firstBytes]
  have hflb : ∀ (l : List LogRecord) (lg : LogManager),
      (appendMany lg l).flush_buffer_ = lg.flush_buffer_ := by
    intro l
    induction l with
    | nil => intro lg; rfl
    | cons a l ih => intro lg; simp only [appendMany]; rw [ih, appendSerialize_flushBuffer]
  have hcycle : flushCycle (appendMany lg0 rs)
      = some ({ appendMany lg0 rs with
          log_buffer_ := (appendMany lg0 rs).flush_buffer_,
          flush_buffer_ := (appendMany lg0 rs).log_buffer_,
          logBufferOffset_ := (appendMany lg0 rs).flushBufferSize_,
          flushBufferSize_ := 0,
          persistent_lsn_ := (appendMany lg0 rs).lastLsn_,
          needFlush_ := false },
        some (((stampLsn lg0.next_lsn_ rs).map wireBytes).flatten)) := by
    unfold flushCycle
    rw [if_neg (by rw [appendMany_flushSize, hfl]; simp), if_pos hpos, hbytes]
  refine ⟨⟨{ appendMany lg0 rs with
        log_buffer_ := (appendMany lg0 rs).flush_buffer_,
        flush_buffer_ := (appendMany lg0 rs).log_buffer_,
        logBufferOffset_ := (appendMany lg0 rs).flushBufferSize_,
        flushBufferSize_ := 0,
        persistent_lsn_ := (appendMany lg0 rs).lastLsn_,
        needFlush_ := false },
      [((stampLsn lg0.next_lsn_ rs).map wireBytes).flatten], [],
      (stampLsn lg0.next_lsn_ rs).map (fun r => (r.lsn_, r))⟩, ?_, rfl, rfl, rfl, hlen.2, ?_,
      ?_, ?_⟩
  · rw [logRun_append L _ _ _ _ hrun]
    simp [logRun, logStep, hcycle, LogWorld.start]
  · unfold decodeLog
    exact decodeRecords_flatten _ _ hstamp (by rw [stampLsn_length]; exact hlen.1)
  · intro i hi
    exact appendMany_outside L rs lg0 hin i hi
  · exact hflb rs lg0

/-- C13 at work: a BEGIN, an INSERT with a three-byte tuple and a COMMIT record
are appended from `next_lsn = 0` into a buffer of 128 bytes and flushed; the 75
bytes read back as the three records with LSNs 0, 1 and 2. -/
theorem C13_log_roundtrip_witness :
    decodeLog ((stampLsn (LogManager.fresh 0 (-1) 255).next_lsn_
        [LogRecord.headerOnly LogRecordType.BEGIN 7 (-1),
         LogRecord.withTuple LogRecordType.INSERT 7 0 5 ⟨[1, 2, 3]⟩,
         LogRecord.headerOnly LogRecordType.COMMIT 7 1]).map wireBytes).flatten
      = some ((stampLsn (LogManager.fresh 0 (-1) 255).next_lsn_
        [LogRecord.headerOnly LogRecordType.BEGIN 7 (-1),
         LogRecord.withTuple LogRecordType.INSERT 7 0 5 ⟨[1, 2, 3]⟩,
         LogRecord.headerOnly LogRecordType.COMMIT 7 1]).map LogRecord.wire) := by
  obtain ⟨w, _, _, _, _, _, h, _⟩ := C13_log_roundtrip 128 (LogManager.fresh 0 (-1) 255)
    [LogRecord.headerOnly LogRecordType.BEGIN 7 (-1),
     LogRecord.withTuple LogRecordType.INSERT 7 0 5 ⟨[1, 2, 3]⟩,
     LogRecord.headerOnly LogRecordType.COMMIT 7 1] rfl rfl
    (by
      intro r hr
      simp only [List.mem_cons, List.mem_singleton, List.not_mem_nil, or_false] at hr
      rcases hr with rfl | rfl | rfl <;>
        exact ⟨by decide, by decide, by decide, by decide, by decide, by decide, by decide,
          by decide, by decide, by decide, by decide⟩)
    (by decide) (by decide) (by decide) (by decide) (by decide)
  exact h

end cmudb
